import Mathlib

/-!
# A shallow embedding of `advanced-vector/vector.h`

`RawMemory<T>` owns a block of raw storage, `Vector<T>` owns a `RawMemory<T>` and a
count of live elements.  The embedding keeps the two layers of the source:

* a slot of raw storage is `none` (uninitialized memory) or `some x` (a live object
  of value `x`); a block of storage is a list of slots;
* a `RawMemory` owns its block by containing it (`buffer_ = none` is `nullptr`);
  ownership is exclusive in the source, so no two buffers alias;
* a call has one of three outcomes: it returns, it lets an exception propagate
  (leaving a state behind), or it runs into undefined behaviour (a failed `assert`,
  an access outside the block, a read/assignment/destruction of a slot that holds
  no live object);
* the element type `T` is described by `Traits`: which constructions and assignments
  throw, what a moved-from object looks like, the value of the `if constexpr`
  condition, and which allocations fail.

Sizes are natural numbers.  `RawMemory.Allocate` hands out the `n` slots it is asked for:
the block of `n * sizeof(T)` bytes when that product does not wrap in `size_t`.
`RawMemory.AllocateRequest` is the product in `size_t` arithmetic of a given width, and
`RawMemory.AllocateSized`, `Vector.ReserveSized`, `Vector.ResizeSized` and
`Vector.ofSizeSized` are the allocation and the three members that pass a size chosen by
the caller to it, with the block that this byte count holds.

`uninitialized_copy_n_counted`, `uninitialized_move_n_counted` and
`Vector.EmplaceBackCounted` are the transfer loops and `EmplaceBack` with the
constructions in the new buffer counted.

For the properties about which block an object owns, `Store`, `Stored.RawMemory` and
`Stored.Vector` are the same classes with `buffer_` as an address into a free store;
`Stored.Vector.view` reads a stored array back as an array of the first kind, and
`Stored.Vector.mutate` is a mutating call on a stored array.
-/

namespace AdvancedVector

/-- One slot of raw storage: `none` is uninitialized memory, `some x` a live object. -/
abbrev Slot (α : Type) := Option α

/-- A block of raw storage, slot by slot. -/
abbrev Mem (α : Type) := List (Slot α)

/-- The three ways a call can end: normal return with the state `s` and the result `r`,
an exception propagating out of the call with the state `s` left behind, or undefined
behaviour. -/
inductive Outcome (σ ρ : Type) where
  | returned (s : σ) (r : ρ)
  | thrown (s : σ)
  | undefined
deriving DecidableEq, Repr

/-- The element type `T` as the container sees it. -/
structure Traits (α : Type) where
  /-- The value of `T()`; `none` when value-initialization throws. -/
  valueInit : Option α
  /-- The copy constructor `T(const T&)` throws for this source value. -/
  copyThrows : α → Bool
  /-- The move constructor `T(T&&)` throws for this source value. -/
  moveThrows : α → Bool
  /-- The copy assignment `operator=(const T&)` throws for this source value. -/
  copyAssignThrows : α → Bool
  /-- The move assignment `operator=(T&&)` throws for this source value. -/
  moveAssignThrows : α → Bool
  /-- The value a live object is left with after it has been moved from. -/
  movedFrom : α → α
  /-- The condition `std::is_nothrow_move_constructible_v<T> || !std::is_copy_constructible_v<T>`. -/
  relocateByMove : Bool
  /-- The call `operator new` for this many slots throws `std::bad_alloc`. -/
  badAlloc : Nat → Bool

variable {α : Type}

/-- The outcome of `T(value)` for `const T& value`: the copy, or `none` when it throws. -/
def Traits.copyCtor (E : Traits α) (value : α) : Option α :=
  if E.copyThrows value then none else some value

/-- The outcome of `T(std::move(value))`: the new object, or `none` when it throws. -/
def Traits.moveCtor (E : Traits α) (value : α) : Option α :=
  if E.moveThrows value then none else some value

/-! ## Raw storage primitives -/

/-- Placement `new (m + i) T(x)`: needs the slot to lie inside the block. -/
def constructAt (m : Mem α) (i : Nat) (x : α) : Option (Mem α) :=
  if i < m.length then some (m.set i (some x)) else none

/-- The call `std::destroy_at(m + i)`: needs a live object in the slot. -/
def destroyAt (m : Mem α) (i : Nat) : Option (Mem α) :=
  match m[i]? with
  | some (some _) => some (m.set i none)
  | _ => none

/-- Reading `m[i]`: needs a live object in the slot. -/
def readAt (m : Mem α) (i : Nat) : Option α :=
  match m[i]? with
  | some (some x) => some x
  | _ => none

/-- The call `std::destroy_n(m + first, n)`; `none` is undefined behaviour. -/
def destroy_n (m : Mem α) (first n : Nat) : Option (Mem α) :=
  match n with
  | 0 => some m
  | k + 1 =>
    match destroyAt m first with
    | none => none
    | some m1 => destroy_n m1 (first + 1) k

/-- The call `std::uninitialized_copy_n(src + first, n, dst + d_first)` between two blocks.
When a copy construction throws, the objects constructed so far are destroyed and the
exception propagates. -/
def uninitialized_copy_n (E : Traits α) (src : Mem α) (first n : Nat) (dst : Mem α)
    (d_first : Nat) : Outcome (Mem α) Unit :=
  match n with
  | 0 => .returned dst ()
  | k + 1 =>
    match readAt src first with
    | none => .undefined
    | some x =>
      if E.copyThrows x then .thrown dst
      else
        match constructAt dst d_first x with
        | none => .undefined
        | some dst1 =>
          match uninitialized_copy_n E src (first + 1) k dst1 (d_first + 1) with
          | .returned d r => .returned d r
          | .thrown d =>
            match destroyAt d d_first with
            | some d1 => .thrown d1
            | none => .undefined
          | .undefined => .undefined

/-- The call `std::uninitialized_move_n(src + first, n, dst + d_first)` between two blocks;
the state is the pair (source block, destination block).  Every moved source object stays
live in its moved-from state.  When a move construction throws, the objects constructed so
far are destroyed and the exception propagates. -/
def uninitialized_move_n (E : Traits α) (src : Mem α) (first n : Nat) (dst : Mem α)
    (d_first : Nat) : Outcome (Mem α × Mem α) Unit :=
  match n with
  | 0 => .returned (src, dst) ()
  | k + 1 =>
    match readAt src first with
    | none => .undefined
    | some x =>
      if E.moveThrows x then .thrown (src, dst)
      else
        match constructAt dst d_first x with
        | none => .undefined
        | some dst1 =>
          match uninitialized_move_n E (src.set first (some (E.movedFrom x))) (first + 1) k
              dst1 (d_first + 1) with
          | .returned s r => .returned s r
          | .thrown (s, d) =>
            match destroyAt d d_first with
            | some d1 => .thrown (s, d1)
            | none => .undefined
          | .undefined => .undefined

/-- The call `std::uninitialized_value_construct_n(m + first, n)`. -/
def uninitialized_value_construct_n (E : Traits α) (m : Mem α) (first n : Nat) :
    Outcome (Mem α) Unit :=
  match n with
  | 0 => .returned m ()
  | k + 1 =>
    match E.valueInit with
    | none => .thrown m
    | some x =>
      match constructAt m first x with
      | none => .undefined
      | some m1 =>
        match uninitialized_value_construct_n E m1 (first + 1) k with
        | .returned d r => .returned d r
        | .thrown d =>
          match destroyAt d first with
          | some d1 => .thrown d1
          | none => .undefined
        | .undefined => .undefined

/-- The loop of `std::copy`: `n` copy assignments `dst[d_first + i] = src[first + i]`,
in increasing order, between two blocks. -/
def copyLoop (E : Traits α) (src : Mem α) (first : Nat) (dst : Mem α) (d_first n : Nat) :
    Outcome (Mem α) Unit :=
  match n with
  | 0 => .returned dst ()
  | k + 1 =>
    match readAt src first, readAt dst d_first with
    | some x, some _ =>
      if E.copyAssignThrows x then .thrown dst
      else copyLoop E src (first + 1) (dst.set d_first (some x)) (d_first + 1) k
    | _, _ => .undefined

/-- The call `std::copy(src + first, src + last, dst + d_first)` between two blocks. -/
def copy (E : Traits α) (src : Mem α) (first last : Nat) (dst : Mem α) (d_first : Nat) :
    Outcome (Mem α) Unit :=
  copyLoop E src first dst d_first (last - first)

/-- The loop of the algorithm `std::move` inside one block: `n` move assignments
`m[d_first + i] = std::move(m[first + i])`, in increasing order. -/
def moveLoop (E : Traits α) (m : Mem α) (first d_first n : Nat) : Outcome (Mem α) Unit :=
  match n with
  | 0 => .returned m ()
  | k + 1 =>
    match readAt m first, readAt m d_first with
    | some x, some _ =>
      if E.moveAssignThrows x then .thrown m
      else moveLoop E ((m.set d_first (some x)).set first (some (E.movedFrom x)))
        (first + 1) (d_first + 1) k
    | _, _ => .undefined

/-- The call `std::move(m + first, m + last, m + d_first)` inside one block. -/
def move (E : Traits α) (m : Mem α) (first last d_first : Nat) : Outcome (Mem α) Unit :=
  moveLoop E m first d_first (last - first)

/-- The loop of `std::move_backward` inside one block: `n` move assignments
`*(--d_last) = std::move(*(--last))`. -/
def moveBackwardLoop (E : Traits α) (m : Mem α) (last d_last n : Nat) : Outcome (Mem α) Unit :=
  match n with
  | 0 => .returned m ()
  | k + 1 =>
    match readAt m (last - 1), readAt m (d_last - 1) with
    | some x, some _ =>
      if E.moveAssignThrows x then .thrown m
      else moveBackwardLoop E ((m.set (d_last - 1) (some x)).set (last - 1) (some (E.movedFrom x)))
        (last - 1) (d_last - 1) k
    | _, _ => .undefined

/-- The call `std::move_backward(m + first, m + last, m + d_last)` inside one block. -/
def move_backward (E : Traits α) (m : Mem α) (first last d_last : Nat) : Outcome (Mem α) Unit :=
  moveBackwardLoop E m last d_last (last - first)

/-! ## `RawMemory<T>` -/

/-- The class `RawMemory<T>`: the owned block (`none` is `nullptr`) and the capacity. -/
structure RawMemory (α : Type) where
  buffer_ : Option (Mem α) := none
  capacity_ : Nat := 0
deriving DecidableEq, Repr

/-- The function `RawMemory::Allocate(n)` for a byte count `n * sizeof(T)` that does not
wrap in `size_t`: `nullptr` for `n = 0`, otherwise a fresh block of `n` uninitialized
slots; the outer `none` is `std::bad_alloc`.  `RawMemory.AllocateSized` is the function
with the byte count in `size_t` arithmetic. -/
def RawMemory.Allocate (E : Traits α) (n : Nat) : Option (Option (Mem α)) :=
  if n ≠ 0 then
    if E.badAlloc n then none else some (some (List.replicate n none))
  else some none

/-- The constructor `RawMemory(size_t capacity)`; `none` is `std::bad_alloc`. -/
def RawMemory.ofCapacity (E : Traits α) (capacity : Nat) : Option (RawMemory α) :=
  match RawMemory.Allocate E capacity with
  | none => none
  | some b => some { buffer_ := b, capacity_ := capacity }

/-- The member `RawMemory::Swap`. -/
def RawMemory.Swap (a other : RawMemory α) : RawMemory α × RawMemory α :=
  ({ buffer_ := other.buffer_, capacity_ := other.capacity_ },
   { buffer_ := a.buffer_, capacity_ := a.capacity_ })

/-- The member `RawMemory::Capacity`. -/
def RawMemory.Capacity (r : RawMemory α) : Nat := r.capacity_

/-- The slots reachable through `GetAddress()`: none at all behind `nullptr`. -/
def RawMemory.cells (r : RawMemory α) : Mem α := r.buffer_.getD []

/-- The buffer after its block has been written through `GetAddress()`. -/
def RawMemory.store (r : RawMemory α) (m : Mem α) : RawMemory α :=
  { buffer_ := r.buffer_.map (fun _ => m), capacity_ := r.capacity_ }

/-! ## `Vector<T>` -/

/-- The class `Vector<T>`. -/
structure Vector (α : Type) where
  data_ : RawMemory α := {}
  size_ : Nat := 0
deriving DecidableEq, Repr

/-- The member `Vector::Size`. -/
def Vector.Size (v : Vector α) : Nat := v.size_

/-- The member `Vector::Capacity`. -/
def Vector.Capacity (v : Vector α) : Nat := v.data_.Capacity

/-- The constructor `Vector() = default`. -/
def Vector.empty : Vector α := {}

/-- The destructor `~Vector()`: `std::destroy_n(begin(), size_)`, then the buffer is
released; `false` is undefined behaviour. -/
def Vector.dtor (v : Vector α) : Bool :=
  (destroy_n v.data_.cells 0 v.size_).isSome

/-- The constructor `Vector(size_t size)`. -/
def Vector.ofSize (E : Traits α) (size : Nat) : Outcome Unit (Vector α) :=
  match RawMemory.ofCapacity E size with
  | none => .thrown ()
  | some data =>
    match uninitialized_value_construct_n E data.cells 0 size with
    | .returned m _ => .returned () { data_ := data.store m, size_ := size }
    | .thrown _ => .thrown ()
    | .undefined => .undefined

/-- The copy constructor `Vector(const Vector& other)`. -/
def Vector.copyCtor (E : Traits α) (other : Vector α) : Outcome Unit (Vector α) :=
  match RawMemory.ofCapacity E other.size_ with
  | none => .thrown ()
  | some data =>
    match uninitialized_copy_n E other.data_.cells 0 other.size_ data.cells 0 with
    | .returned m _ => .returned () { data_ := data.store m, size_ := other.size_ }
    | .thrown _ => .thrown ()
    | .undefined => .undefined

/-- The member `Vector::Swap`: the pair is (this, other) after the call. -/
def Vector.Swap (v other : Vector α) : Vector α × Vector α :=
  let d := RawMemory.Swap v.data_ other.data_
  ({ data_ := d.1, size_ := other.size_ }, { data_ := d.2, size_ := v.size_ })

/-- The move constructor `Vector(Vector&& other)`: a default-initialized object swapped
with `other`; the pair is (this, other) after the call. -/
def Vector.moveCtor (other : Vector α) : Vector α × Vector α :=
  Vector.Swap Vector.empty other

/-- The move assignment `operator=(Vector&& rhs)` for `this != &rhs`; the pair is
(this, rhs) after the call. -/
def Vector.moveAssign (v rhs : Vector α) : Vector α × Vector α :=
  Vector.Swap v rhs

/-- The copy assignment `operator=(const Vector& rhs)` for `this != &rhs`; the state is
`this`, `rhs` is not written. -/
def Vector.copyAssign (E : Traits α) (v rhs : Vector α) : Outcome (Vector α) Unit :=
  if rhs.size_ > v.data_.Capacity then
    match Vector.copyCtor E rhs with
    | .returned _ rhs_copy =>
      let s := Vector.Swap v rhs_copy
      if Vector.dtor s.2 then .returned s.1 () else .undefined
    | .thrown _ => .thrown v
    | .undefined => .undefined
  else if rhs.size_ < v.size_ then
    match copy E rhs.data_.cells 0 rhs.size_ v.data_.cells 0 with
    | .returned m _ =>
      match destroy_n m rhs.size_ (v.size_ - rhs.size_) with
      | some m1 => .returned { data_ := v.data_.store m1, size_ := rhs.size_ } ()
      | none => .undefined
    | .thrown m => .thrown { data_ := v.data_.store m, size_ := v.size_ }
    | .undefined => .undefined
  else
    match copy E rhs.data_.cells 0 v.size_ v.data_.cells 0 with
    | .returned m _ =>
      match uninitialized_copy_n E rhs.data_.cells v.size_ (rhs.size_ - v.size_) m v.size_ with
      | .returned m1 _ => .returned { data_ := v.data_.store m1, size_ := rhs.size_ } ()
      | .thrown m1 => .thrown { data_ := v.data_.store m1, size_ := v.size_ }
      | .undefined => .undefined
    | .thrown m => .thrown { data_ := v.data_.store m, size_ := v.size_ }
    | .undefined => .undefined

/-- The member `Vector::Reserve`. -/
def Vector.Reserve (E : Traits α) (v : Vector α) (new_capacity : Nat) :
    Outcome (Vector α) Unit :=
  if new_capacity ≤ v.data_.Capacity then .returned v ()
  else
    match RawMemory.ofCapacity E new_capacity with
    | none => .thrown v
    | some new_data =>
      if E.relocateByMove then
        match uninitialized_move_n E v.data_.cells 0 v.size_ new_data.cells 0 with
        | .returned (src, dst) _ =>
          match destroy_n src 0 v.size_ with
          | some _ => .returned { data_ := new_data.store dst, size_ := v.size_ } ()
          | none => .undefined
        | .thrown (src, _) => .thrown { data_ := v.data_.store src, size_ := v.size_ }
        | .undefined => .undefined
      else
        match uninitialized_copy_n E v.data_.cells 0 v.size_ new_data.cells 0 with
        | .returned dst _ =>
          match destroy_n v.data_.cells 0 v.size_ with
          | some _ => .returned { data_ := new_data.store dst, size_ := v.size_ } ()
          | none => .undefined
        | .thrown _ => .thrown v
        | .undefined => .undefined

/-- The member `Vector::Resize`. -/
def Vector.Resize (E : Traits α) (v : Vector α) (new_size : Nat) : Outcome (Vector α) Unit :=
  if new_size < v.size_ then
    match destroy_n v.data_.cells new_size (v.size_ - new_size) with
    | some m => .returned { data_ := v.data_.store m, size_ := new_size } ()
    | none => .undefined
  else
    match Vector.Reserve E v new_size with
    | .returned v1 _ =>
      match uninitialized_value_construct_n E v1.data_.cells v1.size_ (new_size - v1.size_) with
      | .returned m _ => .returned { data_ := v1.data_.store m, size_ := new_size } ()
      | .thrown m => .thrown { data_ := v1.data_.store m, size_ := v1.size_ }
      | .undefined => .undefined
    | .thrown v1 => .thrown v1
    | .undefined => .undefined

/-- The member `Vector::PopBack`. -/
def Vector.PopBack (v : Vector α) : Outcome (Vector α) Unit :=
  if 0 < v.size_ then
    match destroyAt v.data_.cells (v.size_ - 1) with
    | some m => .returned { data_ := v.data_.store m, size_ := v.size_ - 1 } ()
    | none => .undefined
  else .undefined

/-- The member `Vector::EmplaceBack(args...)`; `args` is the outcome of the construction
`T(std::forward<Args>(args)...)`, `none` when it throws.  The result is the index of the
slot the returned reference designates. -/
def Vector.EmplaceBack (E : Traits α) (v : Vector α) (args : Option α) :
    Outcome (Vector α) Nat :=
  if v.size_ = v.Capacity then
    match RawMemory.ofCapacity E (if v.size_ = 0 then 1 else v.size_ * 2) with
    | none => .thrown v
    | some new_data =>
      match args with
      | none => .thrown v
      | some x =>
        match constructAt new_data.cells v.size_ x with
        | none => .undefined
        | some nd =>
          if E.relocateByMove then
            match uninitialized_move_n E v.data_.cells 0 v.size_ nd 0 with
            | .returned (src, dst) _ =>
              match destroy_n src 0 v.size_ with
              | some _ => .returned { data_ := new_data.store dst, size_ := v.size_ + 1 } v.size_
              | none => .undefined
            | .thrown (src, dst) =>
              match destroyAt dst v.size_ with
              | some _ => .thrown { data_ := v.data_.store src, size_ := v.size_ }
              | none => .undefined
            | .undefined => .undefined
          else
            match uninitialized_copy_n E v.data_.cells 0 v.size_ nd 0 with
            | .returned dst _ =>
              match destroy_n v.data_.cells 0 v.size_ with
              | some _ => .returned { data_ := new_data.store dst, size_ := v.size_ + 1 } v.size_
              | none => .undefined
            | .thrown dst =>
              match destroyAt dst v.size_ with
              | some _ => .thrown v
              | none => .undefined
            | .undefined => .undefined
  else
    match args with
    | none => .thrown v
    | some x =>
      match constructAt v.data_.cells v.size_ x with
      | none => .undefined
      | some m => .returned { data_ := v.data_.store m, size_ := v.size_ + 1 } v.size_

/-- The member `Vector::PushBack(const T& value)`. -/
def Vector.PushBack (E : Traits α) (v : Vector α) (value : α) : Outcome (Vector α) Unit :=
  match Vector.EmplaceBack E v (E.copyCtor value) with
  | .returned s _ => .returned s ()
  | .thrown s => .thrown s
  | .undefined => .undefined

/-- The member `Vector::PushBack(T&& value)`. -/
def Vector.PushBackMove (E : Traits α) (v : Vector α) (value : α) : Outcome (Vector α) Unit :=
  match Vector.EmplaceBack E v (E.moveCtor value) with
  | .returned s _ => .returned s ()
  | .thrown s => .thrown s
  | .undefined => .undefined

/-- The member `Vector::Emplace(pos, args...)` with `position = pos - begin()`; `args` is
the outcome of the construction `T(std::forward<Args>(args)...)`, `none` when it throws.
The result is the index of the slot the returned iterator designates. -/
def Vector.Emplace (E : Traits α) (v : Vector α) (position : Nat) (args : Option α) :
    Outcome (Vector α) Nat :=
  if position ≤ v.size_ then
    if v.size_ = v.Capacity then
      match RawMemory.ofCapacity E (if v.size_ = 0 then 1 else v.size_ * 2) with
      | none => .thrown v
      | some new_data =>
        match args with
        | none => .thrown v
        | some x =>
          match constructAt new_data.cells position x with
          | none => .undefined
          | some nd =>
            if E.relocateByMove then
              match uninitialized_move_n E v.data_.cells 0 position nd 0 with
              | .returned (src, dst) _ =>
                match uninitialized_move_n E src position (v.size_ - position) dst
                    (position + 1) with
                | .returned (src1, dst1) _ =>
                  match destroy_n src1 0 v.size_ with
                  | some _ =>
                    .returned { data_ := new_data.store dst1, size_ := v.size_ + 1 } position
                  | none => .undefined
                | .thrown (src1, _) =>
                  -- `std::destroy_n(begin(), position + 1)`: `begin()` is the old buffer
                  match destroy_n src1 0 (position + 1) with
                  | some src2 => .thrown { data_ := v.data_.store src2, size_ := v.size_ }
                  | none => .undefined
                | .undefined => .undefined
              | .thrown (src, dst) =>
                match destroyAt dst position with
                | some _ => .thrown { data_ := v.data_.store src, size_ := v.size_ }
                | none => .undefined
              | .undefined => .undefined
            else
              match uninitialized_copy_n E v.data_.cells 0 position nd 0 with
              | .returned dst _ =>
                match uninitialized_copy_n E v.data_.cells position (v.size_ - position) dst
                    (position + 1) with
                | .returned dst1 _ =>
                  match destroy_n v.data_.cells 0 v.size_ with
                  | some _ =>
                    .returned { data_ := new_data.store dst1, size_ := v.size_ + 1 } position
                  | none => .undefined
                | .thrown _ =>
                  -- `std::destroy_n(begin(), position + 1)`: `begin()` is the old buffer
                  match destroy_n v.data_.cells 0 (position + 1) with
                  | some src2 => .thrown { data_ := v.data_.store src2, size_ := v.size_ }
                  | none => .undefined
                | .undefined => .undefined
              | .thrown dst =>
                match destroyAt dst position with
                | some _ => .thrown v
                | none => .undefined
              | .undefined => .undefined
    else
      if position ≠ v.size_ then
        match args with
        | none => .thrown v
        | some temp =>
          -- `new (end()) T(std::move(*(end() - 1)))`
          match readAt v.data_.cells (v.size_ - 1) with
          | none => .undefined
          | some l =>
            if E.moveThrows l then .thrown v
            else
              match constructAt v.data_.cells v.size_ l with
              | none => .undefined
              | some m0 =>
                match move_backward E (m0.set (v.size_ - 1) (some (E.movedFrom l))) position
                    (v.size_ - 1) v.size_ with
                | .returned m2 _ =>
                  -- `data_[position] = std::move(temp)`
                  match readAt m2 position with
                  | none => .undefined
                  | some _ =>
                    if E.moveAssignThrows temp then
                      -- `std::destroy_at(end())`
                      match destroyAt m2 v.size_ with
                      | some m3 => .thrown { data_ := v.data_.store m3, size_ := v.size_ }
                      | none => .undefined
                    else
                      .returned
                        { data_ := v.data_.store (m2.set position (some temp)),
                          size_ := v.size_ + 1 } position
                | .thrown m2 => .thrown { data_ := v.data_.store m2, size_ := v.size_ }
                | .undefined => .undefined
      else
        match args with
        | none =>
          -- `std::destroy_at(end())` in the handler
          match destroyAt v.data_.cells v.size_ with
          | some m => .thrown { data_ := v.data_.store m, size_ := v.size_ }
          | none => .undefined
        | some x =>
          match constructAt v.data_.cells v.size_ x with
          | none => .undefined
          | some m => .returned { data_ := v.data_.store m, size_ := v.size_ + 1 } position
  else .undefined

/-- The member `Vector::Insert(pos, const T& value)`. -/
def Vector.Insert (E : Traits α) (v : Vector α) (position : Nat) (value : α) :
    Outcome (Vector α) Nat :=
  Vector.Emplace E v position (E.copyCtor value)

/-- The member `Vector::Insert(pos, T&& value)`. -/
def Vector.InsertMove (E : Traits α) (v : Vector α) (position : Nat) (value : α) :
    Outcome (Vector α) Nat :=
  Vector.Emplace E v position (E.moveCtor value)

/-- The member `Vector::Erase(pos)` with `position = pos - begin()`.  The result is the
index of the slot the returned iterator designates. -/
def Vector.Erase (E : Traits α) (v : Vector α) (position : Nat) : Outcome (Vector α) Nat :=
  if position < v.size_ then
    match move E v.data_.cells (position + 1) v.size_ position with
    | .returned m _ =>
      match destroyAt m (v.size_ - 1) with
      | some m1 => .returned { data_ := v.data_.store m1, size_ := v.size_ - 1 } position
      | none => .undefined
    | .thrown m => .thrown { data_ := v.data_.store m, size_ := v.size_ }
    | .undefined => .undefined
  else .undefined

/-- The member `Vector::operator[]`; `none` is undefined behaviour. -/
def Vector.get (v : Vector α) (index : Nat) : Option α :=
  if index < v.size_ then readAt v.data_.cells index else none

/-! ## Observations -/

/-- The values of the live objects in the slots `[0, size_)`, in order. -/
def Vector.elems (v : Vector α) : List α :=
  (v.data_.cells.take v.size_).reduceOption

/-- The invariant of the array: the block has `capacity_` slots, `size_ ≤ capacity_`,
the slots `[0, size_)` hold live objects and the slots `[size_, capacity_)` are
uninitialized. -/
def Vector.Inv (v : Vector α) : Prop :=
  v.data_.cells.length = v.data_.capacity_ ∧ v.size_ ≤ v.data_.capacity_ ∧
  (∀ i, i < v.size_ → (readAt v.data_.cells i).isSome = true) ∧
  (∀ i, i < v.data_.capacity_ → v.size_ ≤ i → v.data_.cells[i]? = some none)

/-- An element type none of whose operations throws, with allocations that succeed
and value-initialization yielding `d`. -/
def Traits.nothrow (d : α) (mv : α → α) (byMove : Bool) : Traits α :=
  { valueInit := some d, copyThrows := fun _ => false, moveThrows := fun _ => false,
    copyAssignThrows := fun _ => false, moveAssignThrows := fun _ => false,
    movedFrom := mv, relocateByMove := byMove, badAlloc := fun _ => false }

/-- An array holding `xs` in a block of `xs.length + spare` slots. -/
def Vector.ofList (xs : List α) (spare : Nat) : Vector α :=
  { data_ := { buffer_ := if xs.length + spare = 0 then none
                          else some (xs.map some ++ List.replicate spare none),
               capacity_ := xs.length + spare },
    size_ := xs.length }

/-- Every operation of the element type succeeds and every allocation succeeds. -/
def Traits.NoThrow (E : Traits α) : Prop :=
  (∃ d, E.valueInit = some d) ∧ (∀ x, E.copyThrows x = false) ∧ (∀ x, E.moveThrows x = false) ∧
  (∀ x, E.copyAssignThrows x = false) ∧ (∀ x, E.moveAssignThrows x = false) ∧
  (∀ n, E.badAlloc n = false)

/-- The array `v` holds the values `xs` in its first slots and has `k` uninitialized
slots after them. -/
def Vector.Holds (v : Vector α) (xs : List α) (k : Nat) : Prop :=
  v.data_.cells = xs.map some ++ List.replicate k none ∧ v.size_ = xs.length ∧
  v.data_.capacity_ = xs.length + k

/-- The relocation of the values `xs` into a new buffer does not throw: by move
construction when `relocateByMove` holds, by copy construction otherwise. -/
def Traits.RelocOk (E : Traits α) (xs : List α) : Prop :=
  if E.relocateByMove = true then ∀ y ∈ xs, E.moveThrows y = false
  else ∀ y ∈ xs, E.copyThrows y = false

/-- An element type over `Nat` for concrete runs: nothing throws, elements are relocated
by copy construction, a moved-from object holds `0`. -/
def natCopy : Traits Nat := Traits.nothrow 0 (fun _ => 0) false

/-- An element type over `Nat` for concrete runs: elements are relocated by copy
construction, and copy-constructing the value `3` throws. -/
def natCopyThrows3 : Traits Nat :=
  { valueInit := some 0, copyThrows := fun x => x == 3, moveThrows := fun _ => false,
    copyAssignThrows := fun _ => false, moveAssignThrows := fun _ => false,
    movedFrom := fun _ => 0, relocateByMove := false, badAlloc := fun _ => false }

/-- Successive calls `EmplaceBack(x)`, one for each value of the list in order, the
construction of each new element yielding that value; the result collects the returned
references.  The run ends at the first call that does not return. -/
def Vector.EmplaceBackAll (E : Traits α) (v : Vector α) (values : List α) :
    Outcome (Vector α) (List Nat) :=
  match values with
  | [] => .returned v []
  | x :: rest =>
    match v.EmplaceBack E (some x) with
    | .returned v1 r =>
      match Vector.EmplaceBackAll E v1 rest with
      | .returned v2 rs => .returned v2 (r :: rs)
      | .thrown s => .thrown s
      | .undefined => .undefined
    | .thrown s => .thrown s
    | .undefined => .undefined

/-- Successive calls `PushBack(x)`, one for each value of the list in order.  The run
ends at the first call that does not return. -/
def Vector.PushBackAll (E : Traits α) (v : Vector α) (values : List α) :
    Outcome (Vector α) Unit :=
  match values with
  | [] => .returned v ()
  | x :: rest =>
    match v.PushBack E x with
    | .returned v1 _ => Vector.PushBackAll E v1 rest
    | .thrown s => .thrown s
    | .undefined => .undefined

/-- The number of existing elements one call of `EmplaceBack` hands to
`std::uninitialized_move_n` / `std::uninitialized_copy_n` for the transfer from the old
buffer into a new one: `size_` in the growth branch, none in the other branch.  It is the
count that `Vector.EmplaceBackCounted` returns. -/
def Vector.EmplaceBackRelocations (v : Vector α) : Nat :=
  if v.size_ = v.Capacity then v.size_ else 0

/-- The relocations of a run of successive calls `EmplaceBack(x)`, summed over the calls
that return; the run is the one of `EmplaceBackAll`. -/
def Vector.EmplaceBackAllRelocations (E : Traits α) (v : Vector α) (values : List α) : Nat :=
  match values with
  | [] => 0
  | x :: rest =>
    match v.EmplaceBack E (some x) with
    | .returned v1 _ => v.EmplaceBackRelocations + Vector.EmplaceBackAllRelocations E v1 rest
    | .thrown _ => 0
    | .undefined => 0

/-- An element type over `Nat` for concrete runs: elements are relocated by move
construction, a moved-from object holds `0`, and move-assigning from the value `7` throws. -/
def natMoveAssignThrows7 : Traits Nat :=
  { valueInit := some 0, copyThrows := fun _ => false, moveThrows := fun _ => false,
    copyAssignThrows := fun _ => false, moveAssignThrows := fun x => x == 7,
    movedFrom := fun _ => 0, relocateByMove := true, badAlloc := fun _ => false }

/-! ## The byte count of an allocation -/

/-- The argument `n * sizeof(T)` that `RawMemory::Allocate(n)` passes to `operator new`,
computed in `size_t` arithmetic of `w` bits; `none` when `n = 0`, where the result is
`nullptr` and nothing is requested. -/
def RawMemory.AllocateRequest (w sizeofT n : Nat) : Option Nat :=
  if n ≠ 0 then some ((n * sizeofT) % 2 ^ w) else none

/-- The number of whole element-slots in the storage that `RawMemory(capacity)` has asked
for: the requested bytes divided by `sizeof(T)`, none behind `nullptr`. -/
def RawMemory.requestedSlots (w sizeofT capacity : Nat) : Nat :=
  match RawMemory.AllocateRequest w sizeofT capacity with
  | none => 0
  | some bytes => bytes / sizeofT

/-! ## Blocks held by address

The same two classes with `buffer_` as an address into a free store, for the properties
that are about which block an object owns. -/

/-- The free store: the blocks handed out by `operator new`, by address; the address of a
block that has been passed to `operator delete` holds `none`. -/
structure Store (α : Type) where
  blocks : List (Option (Mem α)) := []
deriving DecidableEq, Repr

/-- The call `operator new` for a block of `n` slots: the next unused address. -/
def Store.new (h : Store α) (n : Nat) : Store α × Nat :=
  ({ blocks := h.blocks ++ [some (List.replicate n none)] }, h.blocks.length)

/-- The call `operator delete(p)`; nothing happens for `nullptr`. -/
def Store.delete (h : Store α) (p : Option Nat) : Store α :=
  match p with
  | none => h
  | some a => { blocks := h.blocks.set a none }

/-- The block behind the pointer `p`, when `p` is the address of a block not yet released. -/
def Store.block (h : Store α) (p : Option Nat) : Option (Mem α) :=
  match p with
  | none => none
  | some a => (h.blocks[a]?).join

/-- The slots reachable through the pointer `p`. -/
def Store.cells (h : Store α) (p : Option Nat) : Mem α := (h.block p).getD []

/-- The store after the block behind `p` has been written through the pointer. -/
def Store.write (h : Store α) (p : Option Nat) (m : Mem α) : Store α :=
  match p with
  | none => h
  | some a => { blocks := h.blocks.set a (some m) }

/-- The address `a` holds a block that has been handed out and not released. -/
def Store.Allocated (h : Store α) (a : Nat) : Prop := ∃ m, h.blocks[a]? = some (some m)

/-- The class `RawMemory<T>` with `buffer_` as an address (`none` is `nullptr`). -/
structure Stored.RawMemory where
  buffer_ : Option Nat := none
  capacity_ : Nat := 0
deriving DecidableEq, Repr

/-- The function `RawMemory::Allocate(n)` on the store; `none` is `std::bad_alloc`. -/
def Stored.RawMemory.Allocate (E : Traits α) (h : Store α) (n : Nat) :
    Option (Store α × Option Nat) :=
  if n ≠ 0 then
    if E.badAlloc n then none else some ((h.new n).1, some (h.new n).2)
  else some (h, none)

/-- The function `RawMemory::Deallocate(buf)`. -/
def Stored.RawMemory.Deallocate (h : Store α) (buf : Option Nat) : Store α := h.delete buf

/-- The constructor `RawMemory(size_t capacity)` on the store; `none` is `std::bad_alloc`. -/
def Stored.RawMemory.ofCapacity (E : Traits α) (h : Store α) (capacity : Nat) :
    Option (Store α × Stored.RawMemory) :=
  match Stored.RawMemory.Allocate E h capacity with
  | none => none
  | some (h1, b) => some (h1, { buffer_ := b, capacity_ := capacity })

/-- The move constructor `RawMemory(RawMemory&& other)`: the pair is (this, other). -/
def Stored.RawMemory.moveCtor (other : Stored.RawMemory) : Stored.RawMemory × Stored.RawMemory :=
  ({ buffer_ := other.buffer_, capacity_ := other.capacity_ }, { buffer_ := none, capacity_ := 0 })

/-- The move assignment `RawMemory::operator=(RawMemory&& rhs)` for `this != &rhs`:
`capacity_ = std::exchange(rhs.capacity_, 0); buffer_ = std::exchange(rhs.buffer_, nullptr)`.
The pair is (this, rhs); the store is not touched. -/
def Stored.RawMemory.moveAssign (_d rhs : Stored.RawMemory) :
    Stored.RawMemory × Stored.RawMemory :=
  ({ buffer_ := rhs.buffer_, capacity_ := rhs.capacity_ }, { buffer_ := none, capacity_ := 0 })

/-- The destructor `~RawMemory()`: `Deallocate(buffer_)`. -/
def Stored.RawMemory.dtor (h : Store α) (r : Stored.RawMemory) : Store α :=
  Stored.RawMemory.Deallocate h r.buffer_

/-- The member `RawMemory::Swap`. -/
def Stored.RawMemory.Swap (a other : Stored.RawMemory) : Stored.RawMemory × Stored.RawMemory :=
  ({ buffer_ := other.buffer_, capacity_ := other.capacity_ },
   { buffer_ := a.buffer_, capacity_ := a.capacity_ })

/-- The class `Vector<T>` over a `RawMemory<T>` that holds an address. -/
structure Stored.Vector where
  data_ : Stored.RawMemory := {}
  size_ : Nat := 0
deriving DecidableEq, Repr

/-- The array a stored array denotes: its block read out of the store. -/
def Stored.Vector.view (h : Store α) (v : Stored.Vector) : AdvancedVector.Vector α :=
  { data_ := { buffer_ := h.block v.data_.buffer_, capacity_ := v.data_.capacity_ },
    size_ := v.size_ }

/-- The member `Vector::Swap` on stored arrays: the pair is (this, other). -/
def Stored.Vector.Swap (v other : Stored.Vector) : Stored.Vector × Stored.Vector :=
  let d := Stored.RawMemory.Swap v.data_ other.data_
  ({ data_ := d.1, size_ := other.size_ }, { data_ := d.2, size_ := v.size_ })

/-- The move constructor `Vector(Vector&& other)` on stored arrays: the pair is
(this, other). -/
def Stored.Vector.moveCtor (other : Stored.Vector) : Stored.Vector × Stored.Vector :=
  Stored.Vector.Swap {} other

/-- The copy constructor `Vector(const Vector& other)` on the store.  When a copy
construction throws, the member `data_` is destroyed and its block released. -/
def Stored.Vector.copyCtor (E : Traits α) (h : Store α) (other : Stored.Vector) :
    Outcome (Store α) Stored.Vector :=
  match Stored.RawMemory.ofCapacity E h other.size_ with
  | none => .thrown h
  | some (h1, data) =>
    match uninitialized_copy_n E (h1.cells other.data_.buffer_) 0 other.size_
        (h1.cells data.buffer_) 0 with
    | .returned m _ => .returned (h1.write data.buffer_ m) { data_ := data, size_ := other.size_ }
    | .thrown _ => .thrown (Stored.RawMemory.dtor h1 data)
    | .undefined => .undefined

/-- The capacity `c` that the double-or-one policy gives an array grown by appends to
the count `n`: `0` while nothing has been appended, afterwards the power of two with
`n ≤ c < 2 * n`. -/
def GrowthCapacity (n c : Nat) : Prop :=
  (n = 0 ∧ c = 0) ∨ ∃ e, c = 2 ^ e ∧ n ≤ c ∧ c < 2 * n

/-- The pointer of the stored array is null or the address of a block of the store that
has not been released. -/
def Stored.Vector.Valid (h : Store α) (v : Stored.Vector) : Prop :=
  ∀ a, v.data_.buffer_ = some a → h.Allocated a

/-! ## Relocations, counted -/

/-- The outcome `o` with its result replaced by `f` of it. -/
def Outcome.mapResult {σ ρ τ : Type} (f : ρ → τ) (o : Outcome σ ρ) : Outcome σ τ :=
  match o with
  | .returned s r => .returned s (f r)
  | .thrown s => .thrown s
  | .undefined => .undefined

/-- The call `std::uninitialized_copy_n(src + first, n, dst + d_first)` with its
constructions counted: the loop of `uninitialized_copy_n`, the result being the number of
objects the call has copy-constructed in the destination. -/
def uninitialized_copy_n_counted (E : Traits α) (src : Mem α) (first n : Nat) (dst : Mem α)
    (d_first : Nat) : Outcome (Mem α) Nat :=
  match n with
  | 0 => .returned dst 0
  | k + 1 =>
    match readAt src first with
    | none => .undefined
    | some x =>
      if E.copyThrows x then .thrown dst
      else
        match constructAt dst d_first x with
        | none => .undefined
        | some dst1 =>
          match uninitialized_copy_n_counted E src (first + 1) k dst1 (d_first + 1) with
          | .returned d c => .returned d (c + 1)
          | .thrown d =>
            match destroyAt d d_first with
            | some d1 => .thrown d1
            | none => .undefined
          | .undefined => .undefined

/-- The call `std::uninitialized_move_n(src + first, n, dst + d_first)` with its
constructions counted: the loop of `uninitialized_move_n`, the result being the number of
objects the call has move-constructed in the destination. -/
def uninitialized_move_n_counted (E : Traits α) (src : Mem α) (first n : Nat) (dst : Mem α)
    (d_first : Nat) : Outcome (Mem α × Mem α) Nat :=
  match n with
  | 0 => .returned (src, dst) 0
  | k + 1 =>
    match readAt src first with
    | none => .undefined
    | some x =>
      if E.moveThrows x then .thrown (src, dst)
      else
        match constructAt dst d_first x with
        | none => .undefined
        | some dst1 =>
          match uninitialized_move_n_counted E (src.set first (some (E.movedFrom x)))
              (first + 1) k dst1 (d_first + 1) with
          | .returned s c => .returned s (c + 1)
          | .thrown (s, d) =>
            match destroyAt d d_first with
            | some d1 => .thrown (s, d1)
            | none => .undefined
          | .undefined => .undefined

/-- The member `Vector::EmplaceBack(args...)` with the relocations counted: the body of
`EmplaceBack` with the two transfer loops replaced by their counting forms.  The result is
the pair of the index of the slot the returned reference designates and the number of
existing elements the call has constructed in a new buffer; the branch that does not
reallocate runs no transfer loop. -/
def Vector.EmplaceBackCounted (E : Traits α) (v : Vector α) (args : Option α) :
    Outcome (Vector α) (Nat × Nat) :=
  if v.size_ = v.Capacity then
    match RawMemory.ofCapacity E (if v.size_ = 0 then 1 else v.size_ * 2) with
    | none => .thrown v
    | some new_data =>
      match args with
      | none => .thrown v
      | some x =>
        match constructAt new_data.cells v.size_ x with
        | none => .undefined
        | some nd =>
          if E.relocateByMove then
            match uninitialized_move_n_counted E v.data_.cells 0 v.size_ nd 0 with
            | .returned (src, dst) moved =>
              match destroy_n src 0 v.size_ with
              | some _ =>
                .returned { data_ := new_data.store dst, size_ := v.size_ + 1 } (v.size_, moved)
              | none => .undefined
            | .thrown (src, dst) =>
              match destroyAt dst v.size_ with
              | some _ => .thrown { data_ := v.data_.store src, size_ := v.size_ }
              | none => .undefined
            | .undefined => .undefined
          else
            match uninitialized_copy_n_counted E v.data_.cells 0 v.size_ nd 0 with
            | .returned dst copied =>
              match destroy_n v.data_.cells 0 v.size_ with
              | some _ =>
                .returned { data_ := new_data.store dst, size_ := v.size_ + 1 } (v.size_, copied)
              | none => .undefined
            | .thrown dst =>
              match destroyAt dst v.size_ with
              | some _ => .thrown v
              | none => .undefined
            | .undefined => .undefined
  else
    match args with
    | none => .thrown v
    | some x =>
      match constructAt v.data_.cells v.size_ x with
      | none => .undefined
      | some m => .returned { data_ := v.data_.store m, size_ := v.size_ + 1 } (v.size_, 0)

/-- Successive calls `EmplaceBack(x)` with the relocations counted, one call for each value
of the list in order: the run of `EmplaceBackAll`, the result being the returned
references and the relocations summed over the calls. -/
def Vector.EmplaceBackAllCounted (E : Traits α) (v : Vector α) (values : List α) :
    Outcome (Vector α) (List Nat × Nat) :=
  match values with
  | [] => .returned v ([], 0)
  | x :: rest =>
    match v.EmplaceBackCounted E (some x) with
    | .returned v1 (r, c) =>
      match Vector.EmplaceBackAllCounted E v1 rest with
      | .returned v2 (rs, total) => .returned v2 (r :: rs, c + total)
      | .thrown s => .thrown s
      | .undefined => .undefined
    | .thrown s => .thrown s
    | .undefined => .undefined

/-! ## Allocation with the byte count in `size_t`

`RawMemory.Allocate` above hands out the `n` slots asked for, which is what
`operator new(n * sizeof(T))` gives when the product does not wrap.  `Reserve`, `Resize` and
`Vector(size_t)` pass a size chosen by the caller to `RawMemory(size_t)`; the definitions
below are these members with the byte count `n * sizeof(T)` taken in `size_t` arithmetic
of `w` bits, so that the block holds `RawMemory.requestedSlots w sizeofT n` slots while
`capacity_` is `n`. -/

/-- The function `RawMemory::Allocate(n)` with the byte count in `size_t` arithmetic of `w`
bits: `nullptr` for `n = 0`, otherwise a fresh block of the uninitialized slots that fit in
the `(n * sizeof(T)) mod 2 ^ w` bytes passed to `operator new`; the outer `none` is
`std::bad_alloc`. -/
def RawMemory.AllocateSized (w sizeofT : Nat) (E : Traits α) (n : Nat) :
    Option (Option (Mem α)) :=
  if n ≠ 0 then
    if E.badAlloc n then none
    else some (some (List.replicate (RawMemory.requestedSlots w sizeofT n) none))
  else some none

/-- The constructor `RawMemory(size_t capacity)` with the byte count in `size_t`
arithmetic: `capacity_` is the argument, whatever the block holds; `none` is
`std::bad_alloc`. -/
def RawMemory.ofCapacitySized (w sizeofT : Nat) (E : Traits α) (capacity : Nat) :
    Option (RawMemory α) :=
  match RawMemory.AllocateSized w sizeofT E capacity with
  | none => none
  | some b => some { buffer_ := b, capacity_ := capacity }

/-- The constructor `Vector(size_t size)` with the byte count in `size_t` arithmetic. -/
def Vector.ofSizeSized (w sizeofT : Nat) (E : Traits α) (size : Nat) : Outcome Unit (Vector α) :=
  match RawMemory.ofCapacitySized w sizeofT E size with
  | none => .thrown ()
  | some data =>
    match uninitialized_value_construct_n E data.cells 0 size with
    | .returned m _ => .returned () { data_ := data.store m, size_ := size }
    | .thrown _ => .thrown ()
    | .undefined => .undefined

/-- The member `Vector::Reserve` with the byte count in `size_t` arithmetic. -/
def Vector.ReserveSized (w sizeofT : Nat) (E : Traits α) (v : Vector α) (new_capacity : Nat) :
    Outcome (Vector α) Unit :=
  if new_capacity ≤ v.data_.Capacity then .returned v ()
  else
    match RawMemory.ofCapacitySized w sizeofT E new_capacity with
    | none => .thrown v
    | some new_data =>
      if E.relocateByMove then
        match uninitialized_move_n E v.data_.cells 0 v.size_ new_data.cells 0 with
        | .returned (src, dst) _ =>
          match destroy_n src 0 v.size_ with
          | some _ => .returned { data_ := new_data.store dst, size_ := v.size_ } ()
          | none => .undefined
        | .thrown (src, _) => .thrown { data_ := v.data_.store src, size_ := v.size_ }
        | .undefined => .undefined
      else
        match uninitialized_copy_n E v.data_.cells 0 v.size_ new_data.cells 0 with
        | .returned dst _ =>
          match destroy_n v.data_.cells 0 v.size_ with
          | some _ => .returned { data_ := new_data.store dst, size_ := v.size_ } ()
          | none => .undefined
        | .thrown _ => .thrown v
        | .undefined => .undefined

/-- The member `Vector::Resize` with the byte count in `size_t` arithmetic. -/
def Vector.ResizeSized (w sizeofT : Nat) (E : Traits α) (v : Vector α) (new_size : Nat) :
    Outcome (Vector α) Unit :=
  if new_size < v.size_ then
    match destroy_n v.data_.cells new_size (v.size_ - new_size) with
    | some m => .returned { data_ := v.data_.store m, size_ := new_size } ()
    | none => .undefined
  else
    match Vector.ReserveSized w sizeofT E v new_size with
    | .returned v1 _ =>
      match uninitialized_value_construct_n E v1.data_.cells v1.size_ (new_size - v1.size_) with
      | .returned m _ => .returned { data_ := v1.data_.store m, size_ := new_size } ()
      | .thrown m => .thrown { data_ := v1.data_.store m, size_ := v1.size_ }
      | .undefined => .undefined
    | .thrown v1 => .thrown v1
    | .undefined => .undefined

/-! ## Mutations of arrays held by address

The mutating members on the store: the state of a call is the store together with the
array.  A member reaches storage through `data_` alone, or through `data_` and a local
`RawMemory new_data` that it swaps with `data_` before `~RawMemory()` of `new_data`
releases the former block. -/

/-- The call returned: the state it left and its result. -/
def Outcome.returnedPart {σ ρ : Type} (o : Outcome σ ρ) : Option (σ × ρ) :=
  match o with
  | .returned s r => some (s, r)
  | .thrown _ => none
  | .undefined => none

/-- The assignment `v[index] = value` through `Vector::operator[]`, which asserts
`index < size_`, and `RawMemory::operator[]`, which asserts `index < capacity_`; the copy
assignment of the element type may throw. -/
def Vector.assignAt (E : Traits α) (v : Vector α) (index : Nat) (value : α) :
    Outcome (Vector α) Unit :=
  if index < v.size_ then
    if index < v.data_.capacity_ then
      match readAt v.data_.cells index with
      | some _ =>
        if E.copyAssignThrows value then .thrown v
        else
          .returned
            { data_ := v.data_.store (v.data_.cells.set index (some value)), size_ := v.size_ } ()
      | none => .undefined
    else .undefined
  else .undefined

/-- A mutating call on an array: `PushBack(value)`, `Insert(begin() + position, value)`,
`Erase(begin() + position)`, `Resize(new_size)` and `v[index] = value`. -/
inductive Mutation (α : Type) where
  | PushBack (value : α)
  | Insert (position : Nat) (value : α)
  | Erase (position : Nat)
  | Resize (new_size : Nat)
  | Assign (index : Nat) (value : α)
deriving DecidableEq, Repr

/-- The outcome of a mutating call, its result dropped; `Resize` takes the byte count of
its allocation in `size_t` arithmetic of `w` bits. -/
def Vector.mutate (w sizeofT : Nat) (E : Traits α) (v : Vector α) (mu : Mutation α) :
    Outcome (Vector α) Unit :=
  match mu with
  | .PushBack value => v.PushBack E value
  | .Insert position value => (v.Insert E position value).mapResult (fun _ => ())
  | .Erase position => (v.Erase E position).mapResult (fun _ => ())
  | .Resize new_size => v.ResizeSized w sizeofT E new_size
  | .Assign index value => v.assignAt E index value

/-- The mutating call takes the branch that builds the array in a `RawMemory new_data`:
`size_ == Capacity()` in `EmplaceBack` and `Emplace`, `new_capacity > data_.Capacity()` in
the `Reserve` that `Resize` calls when `new_size >= size_`; `Erase` and the assignment
through `operator[]` have no such branch. -/
def Vector.reallocates (v : Vector α) (mu : Mutation α) : Bool :=
  match mu with
  | .PushBack _ => decide (v.size_ = v.Capacity)
  | .Insert _ _ => decide (v.size_ = v.Capacity)
  | .Erase _ => false
  | .Resize new_size => decide (v.size_ ≤ new_size ∧ v.Capacity < new_size)
  | .Assign _ _ => false

/-- Successive mutating calls on one array; `none` when one of them does not return. -/
def Vector.mutateAll (w sizeofT : Nat) (E : Traits α) (v : Vector α)
    (mus : List (Mutation α)) : Option (Vector α) :=
  match mus with
  | [] => some v
  | mu :: rest =>
    match v.mutate w sizeofT E mu with
    | .returned v1 _ => Vector.mutateAll w sizeofT E v1 rest
    | .thrown _ => none
    | .undefined => none

/-- The function `RawMemory::Allocate(n)` on the store with the byte count in `size_t`
arithmetic of `w` bits; `none` is `std::bad_alloc`. -/
def Stored.RawMemory.AllocateSized (w sizeofT : Nat) (E : Traits α) (h : Store α) (n : Nat) :
    Option (Store α × Option Nat) :=
  if n ≠ 0 then
    if E.badAlloc n then none
    else some ((h.new (AdvancedVector.RawMemory.requestedSlots w sizeofT n)).1,
               some (h.new (AdvancedVector.RawMemory.requestedSlots w sizeofT n)).2)
  else some (h, none)

/-- The constructor `RawMemory(size_t capacity)` on the store with the byte count in
`size_t` arithmetic; `none` is `std::bad_alloc`. -/
def Stored.RawMemory.ofCapacitySized (w sizeofT : Nat) (E : Traits α) (h : Store α)
    (capacity : Nat) : Option (Store α × Stored.RawMemory) :=
  match Stored.RawMemory.AllocateSized w sizeofT E h capacity with
  | none => none
  | some (h1, b) => some (h1, { buffer_ := b, capacity_ := capacity })

/-- The member `Vector::EmplaceBack(args...)` on the store.  The growth branch builds the
array in the block of `new_data` and swaps; `~RawMemory()` of `new_data` then releases the
former block of the array, or the new block when the call throws. -/
def Stored.Vector.EmplaceBack (E : Traits α) (h : Store α) (p : Stored.Vector)
    (args : Option α) : Outcome (Store α × Stored.Vector) Nat :=
  if p.size_ = p.data_.capacity_ then
    match Stored.RawMemory.ofCapacity E h (if p.size_ = 0 then 1 else p.size_ * 2) with
    | none => .thrown (h, p)
    | some (h1, new_data) =>
      match args with
      | none => .thrown (Stored.RawMemory.dtor h1 new_data, p)
      | some x =>
        match constructAt (h1.cells new_data.buffer_) p.size_ x with
        | none => .undefined
        | some nd =>
          if E.relocateByMove then
            match uninitialized_move_n E (h1.cells p.data_.buffer_) 0 p.size_ nd 0 with
            | .returned (src, dst) _ =>
              match destroy_n src 0 p.size_ with
              | some src1 =>
                .returned
                  (Stored.RawMemory.dtor
                    ((h1.write new_data.buffer_ dst).write p.data_.buffer_ src1) p.data_,
                   { data_ := new_data, size_ := p.size_ + 1 }) p.size_
              | none => .undefined
            | .thrown (src, dst) =>
              match destroyAt dst p.size_ with
              | some dst1 =>
                .thrown
                  (Stored.RawMemory.dtor
                    ((h1.write new_data.buffer_ dst1).write p.data_.buffer_ src) new_data, p)
              | none => .undefined
            | .undefined => .undefined
          else
            match uninitialized_copy_n E (h1.cells p.data_.buffer_) 0 p.size_ nd 0 with
            | .returned dst _ =>
              match destroy_n (h1.cells p.data_.buffer_) 0 p.size_ with
              | some src1 =>
                .returned
                  (Stored.RawMemory.dtor
                    ((h1.write new_data.buffer_ dst).write p.data_.buffer_ src1) p.data_,
                   { data_ := new_data, size_ := p.size_ + 1 }) p.size_
              | none => .undefined
            | .thrown dst =>
              match destroyAt dst p.size_ with
              | some dst1 =>
                .thrown (Stored.RawMemory.dtor (h1.write new_data.buffer_ dst1) new_data, p)
              | none => .undefined
            | .undefined => .undefined
  else
    match args with
    | none => .thrown (h, p)
    | some x =>
      match constructAt (h.cells p.data_.buffer_) p.size_ x with
      | none => .undefined
      | some m =>
        .returned (h.write p.data_.buffer_ m, { data_ := p.data_, size_ := p.size_ + 1 }) p.size_

/-- The member `Vector::PushBack(const T& value)` on the store. -/
def Stored.Vector.PushBack (E : Traits α) (h : Store α) (p : Stored.Vector) (value : α) :
    Outcome (Store α × Stored.Vector) Unit :=
  match Stored.Vector.EmplaceBack E h p (E.copyCtor value) with
  | .returned s _ => .returned s ()
  | .thrown s => .thrown s
  | .undefined => .undefined

/-- The member `Vector::Emplace(pos, args...)` on the store, with `position = pos - begin()`.
The growth branch builds the array in the block of `new_data` and swaps; `~RawMemory()`
of `new_data` then releases the former block of the array, or the new block when the call
throws. -/
def Stored.Vector.Emplace (E : Traits α) (h : Store α) (p : Stored.Vector) (position : Nat)
    (args : Option α) : Outcome (Store α × Stored.Vector) Nat :=
  if position ≤ p.size_ then
    if p.size_ = p.data_.capacity_ then
      match Stored.RawMemory.ofCapacity E h (if p.size_ = 0 then 1 else p.size_ * 2) with
      | none => .thrown (h, p)
      | some (h1, new_data) =>
        match args with
        | none => .thrown (Stored.RawMemory.dtor h1 new_data, p)
        | some x =>
          match constructAt (h1.cells new_data.buffer_) position x with
          | none => .undefined
          | some nd =>
            if E.relocateByMove then
              match uninitialized_move_n E (h1.cells p.data_.buffer_) 0 position nd 0 with
              | .returned (src, dst) _ =>
                match uninitialized_move_n E src position (p.size_ - position) dst
                    (position + 1) with
                | .returned (src1, dst1) _ =>
                  match destroy_n src1 0 p.size_ with
                  | some src2 =>
                    .returned
                      (Stored.RawMemory.dtor
                        ((h1.write new_data.buffer_ dst1).write p.data_.buffer_ src2) p.data_,
                       { data_ := new_data, size_ := p.size_ + 1 }) position
                  | none => .undefined
                | .thrown (src1, dst1) =>
                  -- `std::destroy_n(begin(), position + 1)`: `begin()` is the old buffer
                  match destroy_n src1 0 (position + 1) with
                  | some src2 =>
                    .thrown
                      (Stored.RawMemory.dtor
                        ((h1.write new_data.buffer_ dst1).write p.data_.buffer_ src2) new_data,
                       p)
                  | none => .undefined
                | .undefined => .undefined
              | .thrown (src, dst) =>
                match destroyAt dst position with
                | some dst1 =>
                  .thrown
                    (Stored.RawMemory.dtor
                      ((h1.write new_data.buffer_ dst1).write p.data_.buffer_ src) new_data, p)
                | none => .undefined
              | .undefined => .undefined
            else
              match uninitialized_copy_n E (h1.cells p.data_.buffer_) 0 position nd 0 with
              | .returned dst _ =>
                match uninitialized_copy_n E (h1.cells p.data_.buffer_) position
                    (p.size_ - position) dst (position + 1) with
                | .returned dst1 _ =>
                  match destroy_n (h1.cells p.data_.buffer_) 0 p.size_ with
                  | some src2 =>
                    .returned
                      (Stored.RawMemory.dtor
                        ((h1.write new_data.buffer_ dst1).write p.data_.buffer_ src2) p.data_,
                       { data_ := new_data, size_ := p.size_ + 1 }) position
                  | none => .undefined
                | .thrown dst1 =>
                  -- `std::destroy_n(begin(), position + 1)`: `begin()` is the old buffer
                  match destroy_n (h1.cells p.data_.buffer_) 0 (position + 1) with
                  | some src2 =>
                    .thrown
                      (Stored.RawMemory.dtor
                        ((h1.write new_data.buffer_ dst1).write p.data_.buffer_ src2) new_data,
                       p)
                  | none => .undefined
                | .undefined => .undefined
              | .thrown dst =>
                match destroyAt dst position with
                | some dst1 =>
                  .thrown (Stored.RawMemory.dtor (h1.write new_data.buffer_ dst1) new_data, p)
                | none => .undefined
              | .undefined => .undefined
    else
      if position ≠ p.size_ then
        match args with
        | none => .thrown (h, p)
        | some temp =>
          -- `new (end()) T(std::move(*(end() - 1)))`
          match readAt (h.cells p.data_.buffer_) (p.size_ - 1) with
          | none => .undefined
          | some l =>
            if E.moveThrows l then .thrown (h, p)
            else
              match constructAt (h.cells p.data_.buffer_) p.size_ l with
              | none => .undefined
              | some m0 =>
                match move_backward E (m0.set (p.size_ - 1) (some (E.movedFrom l))) position
                    (p.size_ - 1) p.size_ with
                | .returned m2 _ =>
                  -- `data_[position] = std::move(temp)`
                  match readAt m2 position with
                  | none => .undefined
                  | some _ =>
                    if E.moveAssignThrows temp then
                      -- `std::destroy_at(end())`
                      match destroyAt m2 p.size_ with
                      | some m3 => .thrown (h.write p.data_.buffer_ m3, p)
                      | none => .undefined
                    else
                      .returned
                        (h.write p.data_.buffer_ (m2.set position (some temp)),
                         { data_ := p.data_, size_ := p.size_ + 1 }) position
                | .thrown m2 => .thrown (h.write p.data_.buffer_ m2, p)
                | .undefined => .undefined
      else
        match args with
        | none =>
          -- `std::destroy_at(end())` in the handler
          match destroyAt (h.cells p.data_.buffer_) p.size_ with
          | some m => .thrown (h.write p.data_.buffer_ m, p)
          | none => .undefined
        | some x =>
          match constructAt (h.cells p.data_.buffer_) p.size_ x with
          | none => .undefined
          | some m =>
            .returned (h.write p.data_.buffer_ m, { data_ := p.data_, size_ := p.size_ + 1 })
              position
  else .undefined

/-- The member `Vector::Insert(pos, const T& value)` on the store. -/
def Stored.Vector.Insert (E : Traits α) (h : Store α) (p : Stored.Vector) (position : Nat)
    (value : α) : Outcome (Store α × Stored.Vector) Nat :=
  Stored.Vector.Emplace E h p position (E.copyCtor value)

/-- The member `Vector::Erase(pos)` on the store, with `position = pos - begin()`. -/
def Stored.Vector.Erase (E : Traits α) (h : Store α) (p : Stored.Vector) (position : Nat) :
    Outcome (Store α × Stored.Vector) Nat :=
  if position < p.size_ then
    match move E (h.cells p.data_.buffer_) (position + 1) p.size_ position with
    | .returned m _ =>
      match destroyAt m (p.size_ - 1) with
      | some m1 =>
        .returned (h.write p.data_.buffer_ m1, { data_ := p.data_, size_ := p.size_ - 1 })
          position
      | none => .undefined
    | .thrown m => .thrown (h.write p.data_.buffer_ m, p)
    | .undefined => .undefined
  else .undefined

/-- The member `Vector::Reserve` on the store, with the byte count in `size_t`
arithmetic.  `~RawMemory()` of `new_data` releases the former block of the array, or the
new block when the call throws. -/
def Stored.Vector.ReserveSized (w sizeofT : Nat) (E : Traits α) (h : Store α)
    (p : Stored.Vector) (new_capacity : Nat) : Outcome (Store α × Stored.Vector) Unit :=
  if new_capacity ≤ p.data_.capacity_ then .returned (h, p) ()
  else
    match Stored.RawMemory.ofCapacitySized w sizeofT E h new_capacity with
    | none => .thrown (h, p)
    | some (h1, new_data) =>
      if E.relocateByMove then
        match uninitialized_move_n E (h1.cells p.data_.buffer_) 0 p.size_
            (h1.cells new_data.buffer_) 0 with
        | .returned (src, dst) _ =>
          match destroy_n src 0 p.size_ with
          | some src1 =>
            .returned
              (Stored.RawMemory.dtor
                ((h1.write new_data.buffer_ dst).write p.data_.buffer_ src1) p.data_,
               { data_ := new_data, size_ := p.size_ }) ()
          | none => .undefined
        | .thrown (src, dst) =>
          .thrown
            (Stored.RawMemory.dtor
              ((h1.write new_data.buffer_ dst).write p.data_.buffer_ src) new_data, p)
        | .undefined => .undefined
      else
        match uninitialized_copy_n E (h1.cells p.data_.buffer_) 0 p.size_
            (h1.cells new_data.buffer_) 0 with
        | .returned dst _ =>
          match destroy_n (h1.cells p.data_.buffer_) 0 p.size_ with
          | some src1 =>
            .returned
              (Stored.RawMemory.dtor
                ((h1.write new_data.buffer_ dst).write p.data_.buffer_ src1) p.data_,
               { data_ := new_data, size_ := p.size_ }) ()
          | none => .undefined
        | .thrown dst =>
          .thrown (Stored.RawMemory.dtor (h1.write new_data.buffer_ dst) new_data, p)
        | .undefined => .undefined

/-- The member `Vector::Resize` on the store, with the byte count in `size_t` arithmetic. -/
def Stored.Vector.ResizeSized (w sizeofT : Nat) (E : Traits α) (h : Store α)
    (p : Stored.Vector) (new_size : Nat) : Outcome (Store α × Stored.Vector) Unit :=
  if new_size < p.size_ then
    match destroy_n (h.cells p.data_.buffer_) new_size (p.size_ - new_size) with
    | some m => .returned (h.write p.data_.buffer_ m, { data_ := p.data_, size_ := new_size }) ()
    | none => .undefined
  else
    match Stored.Vector.ReserveSized w sizeofT E h p new_size with
    | .returned (h1, p1) _ =>
      match uninitialized_value_construct_n E (h1.cells p1.data_.buffer_) p1.size_
          (new_size - p1.size_) with
      | .returned m _ =>
        .returned (h1.write p1.data_.buffer_ m, { data_ := p1.data_, size_ := new_size }) ()
      | .thrown m => .thrown (h1.write p1.data_.buffer_ m, p1)
      | .undefined => .undefined
    | .thrown s => .thrown s
    | .undefined => .undefined

/-- The assignment `v[index] = value` on the store. -/
def Stored.Vector.assignAt (E : Traits α) (h : Store α) (p : Stored.Vector) (index : Nat)
    (value : α) : Outcome (Store α × Stored.Vector) Unit :=
  if index < p.size_ then
    if index < p.data_.capacity_ then
      match readAt (h.cells p.data_.buffer_) index with
      | some _ =>
        if E.copyAssignThrows value then .thrown (h, p)
        else
          .returned
            (h.write p.data_.buffer_ ((h.cells p.data_.buffer_).set index (some value)), p) ()
      | none => .undefined
    else .undefined
  else .undefined

/-- A mutating call on a stored array that returns: the store and the array after it;
`none` when the call does not return. -/
def Stored.Vector.mutate (w sizeofT : Nat) (E : Traits α) (h : Store α) (p : Stored.Vector)
    (mu : Mutation α) : Option (Store α × Stored.Vector) :=
  match mu with
  | .PushBack value => ((Stored.Vector.PushBack E h p value).returnedPart).map Prod.fst
  | .Insert position value =>
    ((Stored.Vector.Insert E h p position value).returnedPart).map Prod.fst
  | .Erase position => ((Stored.Vector.Erase E h p position).returnedPart).map Prod.fst
  | .Resize new_size =>
    ((Stored.Vector.ResizeSized w sizeofT E h p new_size).returnedPart).map Prod.fst
  | .Assign index value =>
    ((Stored.Vector.assignAt E h p index value).returnedPart).map Prod.fst

/-- The stored array that denotes `v` after a call on the stored array `p` that has written
through `data_` only: the block of `p` holds the slots of `v`, the pointer is the one of
`p`. -/
def Stored.Vector.commitInPlace (h : Store α) (p : Stored.Vector)
    (v : AdvancedVector.Vector α) : Store α × Stored.Vector :=
  (h.write p.data_.buffer_ v.data_.cells,
   { data_ := { buffer_ := p.data_.buffer_, capacity_ := v.data_.capacity_ },
     size_ := v.size_ })

/-- The stored array that denotes `v` after a call on the stored array `p` that has built
the array in a `RawMemory new_data` and ended with `data_.Swap(new_data)`: the block of `v`
comes from `operator new`, and the former block of `p` has been released. -/
def Stored.Vector.commitNew (h : Store α) (p : Stored.Vector)
    (v : AdvancedVector.Vector α) : Store α × Stored.Vector :=
  ((((h.new v.data_.cells.length).1).write (some (h.new v.data_.cells.length).2)
      v.data_.cells).delete p.data_.buffer_,
   { data_ := { buffer_ := some (h.new v.data_.cells.length).2, capacity_ := v.data_.capacity_ },
     size_ := v.size_ })

/-- Mutating calls on two stored arrays `a` and `b` of one store, in the order of the
script: an entry `(true, mu)` is the call `mu` on `a`, an entry `(false, mu)` the call `mu`
on `b`; `none` when one of the calls does not return. -/
def Stored.mutateBoth (w sizeofT : Nat) (E : Traits α) (h : Store α) (a b : Stored.Vector)
    (script : List (Bool × Mutation α)) : Option (Store α × Stored.Vector × Stored.Vector) :=
  match script with
  | [] => some (h, a, b)
  | (onFirst, mu) :: rest =>
    if onFirst then
      match a.mutate w sizeofT E h mu with
      | some (h1, a1) => Stored.mutateBoth w sizeofT E h1 a1 b rest
      | none => none
    else
      match b.mutate w sizeofT E h mu with
      | some (h1, b1) => Stored.mutateBoth w sizeofT E h1 a b1 rest
      | none => none

/-- The calls of a script on its first array (`true`) or on its second array (`false`),
in order. -/
def Mutation.callsOn (first : Bool) (script : List (Bool × Mutation α)) : List (Mutation α) :=
  (script.filter (fun s => s.1 == first)).map Prod.snd

/-! ## Lists and slots -/

theorem getElem?_mid {β : Type} (A : List β) (x : β) (B : List β) (i : Nat)
    (h : i = A.length) : (A ++ x :: B)[i]? = some x := by
  subst h
  rw [List.getElem?_append_right (Nat.le_refl _)]
  simp

theorem set_mid {β : Type} (A : List β) (x y : β) (B : List β) (i : Nat)
    (h : i = A.length) : (A ++ x :: B).set i y = A ++ y :: B := by
  subst h; simp

theorem readAt_mid (A : Mem α) (x : α) (B : Mem α) (i : Nat) (h : i = A.length) :
    readAt (A ++ some x :: B) i = some x := by
  simp [readAt, getElem?_mid A (some x) B i h]

theorem readAt_mid_none (A : Mem α) (B : Mem α) (i : Nat) (h : i = A.length) :
    readAt (A ++ none :: B) i = none := by
  simp [readAt, getElem?_mid A none B i h]

theorem constructAt_mid (A : Mem α) (s : Slot α) (x : α) (B : Mem α) (i : Nat)
    (h : i = A.length) : constructAt (A ++ s :: B) i x = some (A ++ some x :: B) := by
  subst h; simp [constructAt]

theorem destroyAt_mid (A : Mem α) (x : α) (B : Mem α) (i : Nat) (h : i = A.length) :
    destroyAt (A ++ some x :: B) i = some (A ++ none :: B) := by
  simp [destroyAt, getElem?_mid A (some x) B i h, set_mid A (some x) none B i h]

theorem destroyAt_mid_none (A : Mem α) (B : Mem α) (i : Nat) (h : i = A.length) :
    destroyAt (A ++ none :: B) i = none := by
  simp [destroyAt, getElem?_mid A none B i h]

theorem destroy_n_live (ys : List α) :
    ∀ (A B : Mem α) (first n : Nat), first = A.length → n = ys.length →
      destroy_n (A ++ ys.map some ++ B) first n = some (A ++ List.replicate n none ++ B) := by
  induction ys with
  | nil =>
    intro A B first n _ hn
    subst hn; simp [destroy_n]
  | cons y ys ih =>
    intro A B first n hf hn
    subst hn
    simp only [List.length_cons, destroy_n, List.map_cons, List.append_assoc, List.cons_append]
    rw [destroyAt_mid A y _ first hf]
    have := ih (A ++ [none]) B (first + 1) ys.length (by simp [hf]) rfl
    simp only [List.append_assoc, List.cons_append, List.nil_append] at this
    simp only [this, List.replicate_succ, List.cons_append]

/-! ## The loops on well-formed blocks -/

theorem uninitialized_copy_n_returned (E : Traits α) (ys : List α) :
    ∀ (S1 S2 D1 D2 Z : Mem α) (first d_first n : Nat) (d : Mem α),
      first = S1.length → d_first = D1.length → n = ys.length → Z.length = ys.length →
      (uninitialized_copy_n E (S1 ++ ys.map some ++ S2) first n (D1 ++ Z ++ D2) d_first
          = .returned d () ↔
        (∀ y ∈ ys, E.copyThrows y = false) ∧ d = D1 ++ ys.map some ++ D2) := by
  induction ys with
  | nil =>
    intro S1 S2 D1 D2 Z first d_first n d _ _ hn hZ
    subst hn
    have hZ0 : Z = [] := List.length_eq_zero.mp hZ
    subst hZ0
    simp only [uninitialized_copy_n, List.length_nil, List.map_nil, List.append_nil,
      Outcome.returned.injEq, and_true, List.not_mem_nil, false_imp_iff, implies_true, true_and]
    exact eq_comm
  | cons y ys ih =>
    intro S1 S2 D1 D2 Z first d_first n d hf hd hn hZ
    subst hn
    obtain ⟨z, Z1, rfl⟩ : ∃ z Z1, Z = z :: Z1 := by
      cases Z with
      | nil => simp at hZ
      | cons z Z1 => exact ⟨z, Z1, rfl⟩
    simp only [List.length_cons, uninitialized_copy_n, List.map_cons, List.append_assoc,
      List.cons_append]
    rw [readAt_mid S1 y _ first hf]
    simp only []
    by_cases hy : E.copyThrows y = true
    · simp [hy]
    · have hy0 : E.copyThrows y = false := by simpa using hy
      simp only [hy0, Bool.false_eq_true, if_false]
      rw [constructAt_mid D1 z y _ d_first hd]
      simp only []
      have ih1 := ih (S1 ++ [some y]) S2 (D1 ++ [some y]) D2 Z1 (first + 1) (d_first + 1)
        ys.length d (by simp [hf]) (by simp [hd]) rfl (by simpa using hZ)
      simp only [List.append_assoc, List.cons_append, List.nil_append] at ih1
      generalize uninitialized_copy_n E (S1 ++ some y :: (List.map some ys ++ S2)) (first + 1)
        ys.length (D1 ++ some y :: (Z1 ++ D2)) (d_first + 1) = o at ih1 ⊢
      cases o with
      | returned d1 r =>
        simp only [List.mem_cons, forall_eq_or_imp, hy0, true_and]
        exact ih1
      | thrown d1 =>
        simp only [List.mem_cons, forall_eq_or_imp, hy0, true_and]
        cases destroyAt d1 d_first <;> simpa using ih1
      | undefined =>
        simp only [List.mem_cons, forall_eq_or_imp, hy0, true_and]
        simpa using ih1

theorem uninitialized_move_n_returned (E : Traits α) (ys : List α) :
    ∀ (S1 S2 D1 D2 Z : Mem α) (first d_first n : Nat) (s d : Mem α),
      first = S1.length → d_first = D1.length → n = ys.length → Z.length = ys.length →
      (uninitialized_move_n E (S1 ++ ys.map some ++ S2) first n (D1 ++ Z ++ D2) d_first
          = .returned (s, d) () ↔
        (∀ y ∈ ys, E.moveThrows y = false) ∧
          s = S1 ++ ys.map (fun y => some (E.movedFrom y)) ++ S2 ∧
          d = D1 ++ ys.map some ++ D2) := by
  induction ys with
  | nil =>
    intro S1 S2 D1 D2 Z first d_first n s d _ _ hn hZ
    subst hn
    have hZ0 : Z = [] := List.length_eq_zero.mp hZ
    subst hZ0
    simp only [uninitialized_move_n, List.length_nil, List.map_nil, List.append_nil,
      Outcome.returned.injEq, and_true, List.not_mem_nil, false_imp_iff, implies_true, true_and,
      Prod.mk.injEq]
    constructor
    · rintro ⟨h1, h2⟩; exact ⟨h1.symm, h2.symm⟩
    · rintro ⟨h1, h2⟩; exact ⟨h1.symm, h2.symm⟩
  | cons y ys ih =>
    intro S1 S2 D1 D2 Z first d_first n s d hf hd hn hZ
    subst hn
    obtain ⟨z, Z1, rfl⟩ : ∃ z Z1, Z = z :: Z1 := by
      cases Z with
      | nil => simp at hZ
      | cons z Z1 => exact ⟨z, Z1, rfl⟩
    simp only [List.length_cons, uninitialized_move_n, List.map_cons, List.append_assoc,
      List.cons_append]
    rw [readAt_mid S1 y _ first hf]
    simp only []
    by_cases hy : E.moveThrows y = true
    · simp [hy]
    · have hy0 : E.moveThrows y = false := by simpa using hy
      simp only [hy0, Bool.false_eq_true, if_false]
      rw [constructAt_mid D1 z y _ d_first hd, set_mid S1 (some y) _ _ first hf]
      simp only []
      have ih1 := ih (S1 ++ [some (E.movedFrom y)]) S2 (D1 ++ [some y]) D2 Z1 (first + 1)
        (d_first + 1) ys.length s d (by simp [hf]) (by simp [hd]) rfl (by simpa using hZ)
      simp only [List.append_assoc, List.cons_append, List.nil_append] at ih1
      generalize uninitialized_move_n E (S1 ++ some (E.movedFrom y) :: (List.map some ys ++ S2))
        (first + 1) ys.length (D1 ++ some y :: (Z1 ++ D2)) (d_first + 1) = o at ih1 ⊢
      cases o with
      | returned d1 r =>
        simp only [List.mem_cons, forall_eq_or_imp, hy0, true_and]
        exact ih1
      | thrown d1 =>
        obtain ⟨s1, d1⟩ := d1
        simp only [List.mem_cons, forall_eq_or_imp, hy0, true_and]
        cases destroyAt d1 d_first <;> simpa using ih1
      | undefined =>
        simp only [List.mem_cons, forall_eq_or_imp, hy0, true_and]
        simpa using ih1

theorem uninitialized_value_construct_n_returned (E : Traits α) (n : Nat) :
    ∀ (D1 D2 Z : Mem α) (first : Nat) (d : Mem α), first = D1.length → Z.length = n →
      (uninitialized_value_construct_n E (D1 ++ Z ++ D2) first n = .returned d () ↔
        (n ≠ 0 → ∃ x, E.valueInit = some x) ∧ d = D1 ++ List.replicate n E.valueInit ++ D2) := by
  induction n with
  | zero =>
    intro D1 D2 Z first d _ hZ
    have hZ0 : Z = [] := List.length_eq_zero.mp hZ
    subst hZ0
    simp only [uninitialized_value_construct_n, List.append_nil, Outcome.returned.injEq, and_true,
      ne_eq, not_true_eq_false, false_imp_iff, List.replicate_zero, true_and]
    exact eq_comm
  | succ k ih =>
    intro D1 D2 Z first d hf hZ
    obtain ⟨z, Z1, rfl⟩ : ∃ z Z1, Z = z :: Z1 := by
      cases Z with
      | nil => simp at hZ
      | cons z Z1 => exact ⟨z, Z1, rfl⟩
    simp only [uninitialized_value_construct_n, List.append_assoc, List.cons_append]
    cases hv : E.valueInit with
    | none => simp
    | some x =>
      simp only [constructAt_mid D1 z x _ first hf]
      have ih1 := ih (D1 ++ [some x]) D2 Z1 (first + 1) d (by simp [hf]) (by simpa using hZ)
      simp only [List.append_assoc, List.cons_append, List.nil_append, hv] at ih1
      generalize uninitialized_value_construct_n E (D1 ++ some x :: (Z1 ++ D2)) (first + 1) k
        = o at ih1 ⊢
      have hk : (k ≠ 0 → ∃ x_1, some x = some x_1) := fun _ => ⟨x, rfl⟩
      replace ih1 := ih1.trans (and_iff_right hk)
      cases o with
      | returned d1 r =>
        simpa [List.replicate_succ] using ih1
      | thrown d1 =>
        cases hdd : destroyAt d1 first <;> simpa [hdd, List.replicate_succ] using ih1
      | undefined =>
        simpa [List.replicate_succ] using ih1

theorem copyLoop_returned (E : Traits α) (ys : List α) :
    ∀ (S1 S2 D1 D2 : Mem α) (zs : List α) (first d_first n : Nat) (d : Mem α),
      first = S1.length → d_first = D1.length → n = ys.length → zs.length = ys.length →
      (copyLoop E (S1 ++ ys.map some ++ S2) first (D1 ++ zs.map some ++ D2) d_first n
          = .returned d () ↔
        (∀ y ∈ ys, E.copyAssignThrows y = false) ∧ d = D1 ++ ys.map some ++ D2) := by
  induction ys with
  | nil =>
    intro S1 S2 D1 D2 zs first d_first n d _ _ hn hZ
    subst hn
    have hZ0 : zs = [] := List.length_eq_zero.mp hZ
    subst hZ0
    simp only [copyLoop, List.length_nil, List.map_nil, List.append_nil,
      Outcome.returned.injEq, and_true, List.not_mem_nil, false_imp_iff, implies_true, true_and]
    exact eq_comm
  | cons y ys ih =>
    intro S1 S2 D1 D2 zs first d_first n d hf hd hn hZ
    subst hn
    obtain ⟨z, Z1, rfl⟩ : ∃ z Z1, zs = z :: Z1 := by
      cases zs with
      | nil => simp at hZ
      | cons z Z1 => exact ⟨z, Z1, rfl⟩
    simp only [List.length_cons, copyLoop, List.map_cons, List.append_assoc, List.cons_append]
    rw [readAt_mid S1 y _ first hf, readAt_mid D1 z _ d_first hd]
    simp only []
    by_cases hy : E.copyAssignThrows y = true
    · simp [hy]
    · have hy0 : E.copyAssignThrows y = false := by simpa using hy
      simp only [hy0, Bool.false_eq_true, if_false]
      rw [set_mid D1 (some z) _ _ d_first hd]
      have ih1 := ih (S1 ++ [some y]) S2 (D1 ++ [some y]) D2 Z1 (first + 1) (d_first + 1)
        ys.length d (by simp [hf]) (by simp [hd]) rfl (by simpa using hZ)
      simp only [List.append_assoc, List.cons_append, List.nil_append] at ih1
      simp only [List.mem_cons, forall_eq_or_imp, hy0, true_and]
      exact ih1

theorem getLast?_elim_cons {β : Type} (f : β → β) (a y : β) (ys : List β) :
    ((y :: ys).getLast?).elim a f = (ys.getLast?).elim (f y) f := by
  cases ys with
  | nil => rfl
  | cons y1 ys1 =>
    rw [List.getLast?_cons_cons]
    cases h : (y1 :: ys1).getLast? with
    | none => simp at h
    | some w => rfl

theorem moveLoop_shift_left (E : Traits α) (ys : List α) :
    ∀ (A B : Mem α) (a : α) (first d_first n : Nat) (d : Mem α),
      d_first = A.length → first = A.length + 1 → n = ys.length →
      (moveLoop E (A ++ some a :: (ys.map some ++ B)) first d_first n = .returned d () ↔
        (∀ y ∈ ys, E.moveAssignThrows y = false) ∧
          d = A ++ ys.map some ++ some ((ys.getLast?).elim a E.movedFrom) :: B) := by
  induction ys with
  | nil =>
    intro A B a first d_first n d _ _ hn
    subst hn
    simp only [moveLoop, List.length_nil, List.map_nil, List.append_nil, List.nil_append,
      Outcome.returned.injEq, and_true, List.not_mem_nil, false_imp_iff, implies_true, true_and,
      List.getLast?_nil, Option.elim_none]
    exact eq_comm
  | cons y ys ih =>
    intro A B a first d_first n d hd hf hn
    subst hn
    simp only [List.length_cons, moveLoop, List.map_cons, List.cons_append]
    have e1 : A ++ some a :: some y :: (List.map some ys ++ B)
        = (A ++ [some a]) ++ some y :: (List.map some ys ++ B) := by simp
    rw [readAt_mid A a _ d_first hd]
    rw [e1, readAt_mid (A ++ [some a]) y _ first (by simp [hf])]
    simp only []
    by_cases hy : E.moveAssignThrows y = true
    · simp [hy]
    · have hy0 : E.moveAssignThrows y = false := by simpa using hy
      simp only [hy0, Bool.false_eq_true, if_false]
      rw [← e1, set_mid A (some a) _ _ d_first hd]
      have e2 : A ++ some y :: some y :: (List.map some ys ++ B)
          = (A ++ [some y]) ++ some y :: (List.map some ys ++ B) := by simp
      rw [e2, set_mid (A ++ [some y]) (some y) _ _ first (by simp [hf])]
      have ih1 := ih (A ++ [some y]) B (E.movedFrom y) (first + 1) (d_first + 1)
        ys.length d (by simp [hd]) (by simp [hf]) rfl
      simp only [List.append_assoc, List.cons_append, List.nil_append] at ih1 ⊢
      simp only [List.mem_cons, forall_eq_or_imp, hy0, true_and, getLast?_elim_cons]
      exact ih1

theorem head?_elim_append {β : Type} (f : β → β) (a y : β) (ys : List β) :
    ((ys ++ [y]).head?).elim a f = (ys.head?).elim (f y) f := by
  cases ys with
  | nil => rfl
  | cons y1 ys1 => simp

theorem moveBackwardLoop_shift_right (E : Traits α) (n : Nat) :
    ∀ (ys : List α) (A B : Mem α) (a : α) (last d_last : Nat) (d : Mem α),
      n = ys.length → last = A.length + ys.length → d_last = last + 1 →
      (moveBackwardLoop E (A ++ ys.map some ++ some a :: B) last d_last n = .returned d () ↔
        (∀ y ∈ ys, E.moveAssignThrows y = false) ∧
          d = A ++ some ((ys.head?).elim a E.movedFrom) :: (ys.map some ++ B)) := by
  induction n with
  | zero =>
    intro ys A B a last d_last d hn _ _
    have hys : ys = [] := List.length_eq_zero.mp hn.symm
    subst hys
    simp only [moveBackwardLoop, List.map_nil, List.append_nil, List.nil_append,
      Outcome.returned.injEq, and_true, List.not_mem_nil, false_imp_iff, implies_true, true_and,
      List.head?_nil, Option.elim_none]
    exact eq_comm
  | succ k ih =>
    intro ys A B a last d_last d hn hl hdl
    obtain ⟨ys1, y, rfl⟩ : ∃ ys1 y, ys = ys1 ++ [y] := by
      rcases List.eq_nil_or_concat ys with h | ⟨ys1, y, h⟩
      · subst h; simp at hn
      · exact ⟨ys1, y, by simpa using h⟩
    have hk : k = ys1.length := by simpa using hn
    simp only [moveBackwardLoop, List.map_append, List.map_cons, List.map_nil,
      List.append_assoc, List.cons_append, List.nil_append]
    have e1 : A ++ (List.map some ys1 ++ some y :: some a :: B)
        = (A ++ List.map some ys1) ++ some y :: (some a :: B) := by simp
    have e2 : A ++ (List.map some ys1 ++ some y :: some a :: B)
        = (A ++ List.map some ys1 ++ [some y]) ++ some a :: B := by simp
    have hl1 : last - 1 = (A ++ List.map some ys1).length := by
      simp at hl ⊢; omega
    have hdl1 : d_last - 1 = (A ++ List.map some ys1 ++ [some y]).length := by
      simp at hl ⊢; omega
    rw [e1, readAt_mid _ y _ (last - 1) hl1]
    rw [← e1, e2, readAt_mid _ a _ (d_last - 1) hdl1]
    simp only []
    by_cases hy : E.moveAssignThrows y = true
    · simp only [hy, if_true]
      constructor
      · intro h; cases h
      · rintro ⟨h, _⟩
        have := h y (by simp)
        simp [hy] at this
    · have hy0 : E.moveAssignThrows y = false := by simpa using hy
      simp only [hy0, Bool.false_eq_true, if_false]
      rw [set_mid _ (some a) _ _ (d_last - 1) hdl1]
      have e3 : A ++ List.map some ys1 ++ [some y] ++ some y :: B
          = (A ++ List.map some ys1) ++ some y :: (some y :: B) := by simp
      rw [e3, set_mid _ (some y) _ _ (last - 1) hl1]
      have ih1 := ih ys1 A (some y :: B) (E.movedFrom y) (last - 1) (d_last - 1) d hk
        (by simp at hl ⊢; omega) (by simp at hl ⊢; omega)
      rw [ih1]
      simp only [List.mem_append, List.mem_singleton, head?_elim_append, List.append_assoc,
        List.cons_append, List.nil_append]
      constructor
      · rintro ⟨h1, h2⟩
        refine ⟨?_, h2⟩
        rintro w (hw | hw)
        · exact h1 w hw
        · subst hw; exact hy0
      · rintro ⟨h1, h2⟩
        exact ⟨fun w hw => h1 w (Or.inl hw), h2⟩

/-! ## Buffers and the invariant -/

theorem ofCapacity_eq (E : Traits α) (c : Nat) :
    RawMemory.ofCapacity E c =
      if c ≠ 0 ∧ E.badAlloc c = true then none
      else some { buffer_ := if c ≠ 0 then some (List.replicate c none) else none,
                  capacity_ := c } := by
  unfold RawMemory.ofCapacity RawMemory.Allocate
  by_cases hc : c = 0
  · simp [hc]
  · by_cases hb : E.badAlloc c = true
    · simp [hc, hb]
    · simp [hc, hb]

theorem cells_fresh (c : Nat) :
    RawMemory.cells ({ buffer_ := if c ≠ 0 then some (List.replicate c none) else none,
                       capacity_ := c } : RawMemory α) = List.replicate c none := by
  by_cases hc : c = 0
  · simp [RawMemory.cells, hc]
  · simp [RawMemory.cells, hc]

theorem cells_store (r : RawMemory α) (m : Mem α) (h : m.length = r.cells.length) :
    (r.store m).cells = m := by
  cases r with
  | mk b c =>
    cases b with
    | none =>
      simp only [RawMemory.cells, Option.getD_none, List.length_nil] at h
      simp [RawMemory.cells, RawMemory.store, List.length_eq_zero.mp h]
    | some m0 => simp [RawMemory.cells, RawMemory.store]

theorem capacity_store (r : RawMemory α) (m : Mem α) :
    (r.store m).capacity_ = r.capacity_ := rfl

theorem map_some_reduceOption (l : Mem α) (h : ∀ s ∈ l, s.isSome = true) :
    l.reduceOption.map some = l := by
  induction l with
  | nil => rfl
  | cons s l ih =>
    have hs := h s (by simp)
    cases s with
    | none => simp at hs
    | some x =>
      simp only [List.reduceOption_cons_of_some, List.map_cons]
      rw [ih (fun t ht => h t (by simp [ht]))]

theorem reduceOption_map_some (xs : List α) : (xs.map some).reduceOption = xs := by
  induction xs with
  | nil => rfl
  | cons x xs ih => simp [List.reduceOption_cons_of_some, ih]

theorem Vector.Holds.elems_eq {v : Vector α} {xs : List α} {k : Nat} (h : v.Holds xs k) :
    v.elems = xs := by
  obtain ⟨hc, hs, _⟩ := h
  unfold Vector.elems
  rw [hc, hs]
  have : (List.map some xs ++ List.replicate k none).take xs.length = List.map some xs := by
    rw [List.take_append_of_le_length (by simp)]
    simp
  rw [this, reduceOption_map_some]

theorem Vector.Holds.inv {v : Vector α} {xs : List α} {k : Nat} (h : v.Holds xs k) :
    v.Inv := by
  obtain ⟨hc, hs, hk⟩ := h
  refine ⟨?_, ?_, ?_, ?_⟩
  · rw [hc, hk]; simp
  · omega
  · intro i hi
    rw [hc]
    have hi1 : i < xs.length := by omega
    simp [readAt, List.getElem?_append_left, hi1]
  · intro i hi1 hi2
    rw [hc, List.getElem?_append_right (by simp; omega)]
    simp only [List.length_map]
    rw [List.getElem?_replicate]
    rw [if_pos (by omega)]

theorem Vector.Inv.holds {v : Vector α} (h : v.Inv) :
    v.Holds v.elems (v.data_.capacity_ - v.size_) := by
  obtain ⟨hlen, hle, hlive, hraw⟩ := h
  have htake : ∀ s ∈ v.data_.cells.take v.size_, s.isSome = true := by
    intro s hs
    obtain ⟨i, hi, rfl⟩ := List.getElem_of_mem hs
    have hi1 : i < v.size_ := by
      simp only [List.length_take] at hi; omega
    have := hlive i hi1
    rw [List.getElem_take]
    unfold readAt at this
    have hi2 : i < v.data_.cells.length := by omega
    rw [List.getElem?_eq_getElem hi2] at this
    cases hx : v.data_.cells[i] with
    | none => simp [hx] at this
    | some x => rfl
  have h1 : (v.data_.cells.take v.size_).reduceOption.map some = v.data_.cells.take v.size_ :=
    map_some_reduceOption _ htake
  have h2 : v.data_.cells.drop v.size_ = List.replicate (v.data_.capacity_ - v.size_) none := by
    apply List.ext_getElem?
    intro i
    rw [List.getElem?_drop, List.getElem?_replicate]
    by_cases hi : i < v.data_.capacity_ - v.size_
    · rw [if_pos hi]
      exact hraw (v.size_ + i) (by omega) (by omega)
    · rw [if_neg hi]
      exact List.getElem?_eq_none (by omega)
  refine ⟨?_, ?_, ?_⟩
  · unfold Vector.elems
    rw [h1, ← h2, List.take_append_drop]
  · unfold Vector.elems
    have := congrArg List.length h1
    simp only [List.length_map, List.length_take] at this
    omega
  · unfold Vector.elems
    have := congrArg List.length h1
    simp only [List.length_map, List.length_take] at this
    omega

theorem Vector.inv_iff_holds (v : Vector α) : v.Inv ↔ ∃ xs k, v.Holds xs k :=
  ⟨fun h => ⟨_, _, h.holds⟩, fun ⟨_, _, h⟩ => h.inv⟩

theorem Vector.Holds.get {v : Vector α} {xs : List α} {k : Nat} (h : v.Holds xs k) (i : Nat) :
    v.get i = xs[i]? := by
  obtain ⟨hc, hs, _⟩ := h
  unfold Vector.get
  by_cases hi : i < xs.length
  · rw [if_pos (by omega), hc]
    simp [readAt, List.getElem?_append_left, hi]
  · rw [if_neg (by omega)]
    exact (List.getElem?_eq_none (by omega)).symm

/-! ## The operations on arrays that satisfy the invariant -/

theorem outcome_cases {σ : Type} (o : Outcome σ Unit) (P : Prop) (e : σ)
    (h : ∀ d, o = .returned d () ↔ P ∧ d = e) :
    (P ∧ o = .returned e ()) ∨ (¬P ∧ ∀ d r, o ≠ .returned d r) := by
  by_cases hP : P
  · exact Or.inl ⟨hP, (h e).mpr ⟨hP, rfl⟩⟩
  · refine Or.inr ⟨hP, ?_⟩
    intro d r heq
    cases r
    exact hP ((h d).mp heq).1

theorem move_n_cases (E : Traits α) (ys : List α) (S1 S2 D1 D2 Z : Mem α) (first d_first n : Nat)
    (hf : first = S1.length) (hd : d_first = D1.length) (hn : n = ys.length)
    (hZ : Z.length = ys.length) :
    ((∀ y ∈ ys, E.moveThrows y = false) ∧
      uninitialized_move_n E (S1 ++ ys.map some ++ S2) first n (D1 ++ Z ++ D2) d_first
        = .returned (S1 ++ ys.map (fun y => some (E.movedFrom y)) ++ S2,
            D1 ++ ys.map some ++ D2) ()) ∨
    (¬(∀ y ∈ ys, E.moveThrows y = false) ∧
      ∀ d r, uninitialized_move_n E (S1 ++ ys.map some ++ S2) first n (D1 ++ Z ++ D2) d_first
        ≠ .returned d r) := by
  apply outcome_cases
  rintro ⟨s, d⟩
  rw [uninitialized_move_n_returned E ys S1 S2 D1 D2 Z first d_first n s d hf hd hn hZ]
  simp only [Prod.mk.injEq]

theorem copy_n_cases (E : Traits α) (ys : List α) (S1 S2 D1 D2 Z : Mem α) (first d_first n : Nat)
    (hf : first = S1.length) (hd : d_first = D1.length) (hn : n = ys.length)
    (hZ : Z.length = ys.length) :
    ((∀ y ∈ ys, E.copyThrows y = false) ∧
      uninitialized_copy_n E (S1 ++ ys.map some ++ S2) first n (D1 ++ Z ++ D2) d_first
        = .returned (D1 ++ ys.map some ++ D2) ()) ∨
    (¬(∀ y ∈ ys, E.copyThrows y = false) ∧
      ∀ d r, uninitialized_copy_n E (S1 ++ ys.map some ++ S2) first n (D1 ++ Z ++ D2) d_first
        ≠ .returned d r) := by
  apply outcome_cases
  intro d
  exact uninitialized_copy_n_returned E ys S1 S2 D1 D2 Z first d_first n d hf hd hn hZ

theorem destroy_n_moved (E : Traits α) (xs : List α) (B : Mem α) (n : Nat) (hn : n = xs.length) :
    destroy_n (xs.map (fun y => some (E.movedFrom y)) ++ B) 0 n
      = some (List.replicate n none ++ B) := by
  have := destroy_n_live (xs.map E.movedFrom) [] B 0 n rfl (by simp [hn])
  simpa using this

theorem destroy_n_front (xs : List α) (B : Mem α) (n : Nat) (hn : n = xs.length) :
    destroy_n (xs.map some ++ B) 0 n = some (List.replicate n none ++ B) := by
  have := destroy_n_live xs [] B 0 n rfl hn
  simpa using this

theorem replicate_split (c n : Nat) (h : n ≤ c) :
    (List.replicate c none : Mem α)
      = List.replicate n none ++ List.replicate (c - n) none := by
  rw [← List.replicate_add]
  congr 1
  omega

theorem Vector.Reserve_returned (E : Traits α) (v : Vector α) (xs : List α) (k c : Nat)
    (h : v.Holds xs k) (hc : xs.length + k < c) (w : Vector α) :
    v.Reserve E c = .returned w () ↔
      E.badAlloc c = false ∧ E.RelocOk xs ∧
        w = { data_ := { buffer_ := some (xs.map some ++ List.replicate (c - xs.length) none),
                         capacity_ := c },
              size_ := xs.length } := by
  obtain ⟨hcells, hsize, hcap⟩ := h
  have hc0 : c ≠ 0 := by omega
  unfold Vector.Reserve
  rw [if_neg (by simp only [RawMemory.Capacity]; omega), ofCapacity_eq]
  by_cases hb : E.badAlloc c = true
  · simp [hc0, hb]
  · have hb0 : E.badAlloc c = false := by simpa using hb
    simp only [hc0, hb0, ne_eq, not_false_eq_true, Bool.false_eq_true, and_false, if_false,
      true_and, if_true]
    simp only [RawMemory.cells, RawMemory.store, Option.getD_some, Option.map_some']
    simp only [RawMemory.cells] at hcells
    rw [hcells, hsize, replicate_split c xs.length (by omega)]
    unfold Traits.RelocOk
    by_cases hm : E.relocateByMove = true
    · simp only [hm, if_true]
      rcases move_n_cases E xs [] (List.replicate k none) []
          (List.replicate (c - xs.length) none) (List.replicate xs.length none) 0 0 xs.length
          rfl rfl rfl (by simp) with ⟨hok, heq⟩ | ⟨hno, hne⟩
      · simp only [List.nil_append] at heq
        rw [heq]
        simp only [destroy_n_moved E xs _ xs.length rfl, Outcome.returned.injEq, and_true]
        exact ⟨fun e => ⟨hok, e.symm⟩, fun e => e.2.symm⟩
      · simp only [List.nil_append] at hne
        simp only [hno, false_and, iff_false]
        generalize uninitialized_move_n E (List.map some xs ++ List.replicate k none) 0 xs.length
          (List.replicate xs.length none ++ List.replicate (c - xs.length) none) 0 = o at hne ⊢
        cases o with
        | returned d r => exact absurd rfl (hne d r)
        | thrown d => simp
        | undefined => simp
    · simp only [hm, if_false]
      have hm0 : E.relocateByMove = false := by simpa using hm
      simp only [hm0, Bool.false_eq_true, if_false]
      rcases copy_n_cases E xs [] (List.replicate k none) []
          (List.replicate (c - xs.length) none) (List.replicate xs.length none) 0 0 xs.length
          rfl rfl rfl (by simp) with ⟨hok, heq⟩ | ⟨hno, hne⟩
      · simp only [List.nil_append] at heq
        rw [heq]
        simp only [destroy_n_front xs _ xs.length rfl, Outcome.returned.injEq, and_true]
        exact ⟨fun e => ⟨hok, e.symm⟩, fun e => e.2.symm⟩
      · simp only [List.nil_append] at hne
        simp only [hno, false_and, iff_false]
        generalize uninitialized_copy_n E (List.map some xs ++ List.replicate k none) 0 xs.length
          (List.replicate xs.length none ++ List.replicate (c - xs.length) none) 0 = o at hne ⊢
        cases o with
        | returned d r => exact absurd rfl (hne d r)
        | thrown d => simp
        | undefined => simp

theorem relocOk_append (E : Traits α) (T D : List α) :
    E.RelocOk (T ++ D) ↔ E.RelocOk T ∧ E.RelocOk D := by
  unfold Traits.RelocOk
  by_cases hm : E.relocateByMove = true
  · simp only [hm, if_true, List.mem_append]
    exact ⟨fun h => ⟨fun y hy => h y (Or.inl hy), fun y hy => h y (Or.inr hy)⟩,
      fun h y hy => hy.elim (h.1 y) (h.2 y)⟩
  · simp only [hm, if_false, List.mem_append]
    exact ⟨fun h => ⟨fun y hy => h y (Or.inl hy), fun y hy => h y (Or.inr hy)⟩,
      fun h y hy => hy.elim (h.1 y) (h.2 y)⟩

theorem fresh_split (c p : Nat) (h : p < c) :
    (List.replicate c none : Mem α)
      = List.replicate p none ++ none :: List.replicate (c - p - 1) none := by
  have : c = p + ((c - p - 1) + 1) := by omega
  conv_lhs => rw [this, List.replicate_add, List.replicate_succ]

theorem Vector.Emplace_growth (E : Traits α) (v : Vector α) (T D : List α) (x : α)
    (h : v.Holds (T ++ D) 0) (w : Vector α) (r : Nat) :
    v.Emplace E T.length (some x) = .returned w r ↔
      E.badAlloc (if T.length + D.length = 0 then 1 else (T.length + D.length) * 2) = false ∧
      E.RelocOk (T ++ D) ∧
      w = { data_ :=
              { buffer_ := some ((T ++ x :: D).map some ++
                  List.replicate ((if T.length + D.length = 0 then 1
                    else (T.length + D.length) * 2) - (T.length + D.length + 1)) none),
                capacity_ := if T.length + D.length = 0 then 1 else (T.length + D.length) * 2 },
            size_ := T.length + D.length + 1 } ∧
      r = T.length := by
  obtain ⟨hcells, hsize, hcap⟩ := h
  simp only [List.length_append, List.replicate_zero, List.append_nil, Nat.add_zero,
    List.map_append] at hcells hsize hcap
  generalize hc : (if T.length + D.length = 0 then 1 else (T.length + D.length) * 2) = c
  have hc0 : c ≠ 0 := by
    rw [← hc]; split <;> omega
  have hcn : T.length + D.length + 1 ≤ c := by
    rw [← hc]; split <;> omega
  unfold Vector.Emplace
  rw [if_pos (by omega), if_pos (by simp only [Vector.Capacity, RawMemory.Capacity]; omega),
    hsize, hc, ofCapacity_eq]
  by_cases hb : E.badAlloc c = true
  · simp [hc0, hb]
  · have hb0 : E.badAlloc c = false := by simpa using hb
    simp only [hc0, hb0, ne_eq, not_false_eq_true, Bool.false_eq_true, and_false, if_false,
      true_and, if_true]
    simp only [RawMemory.cells, RawMemory.store, Option.getD_some, Option.map_some']
    simp only [RawMemory.cells] at hcells
    rw [hcells, fresh_split c T.length (by omega),
      constructAt_mid _ none x _ T.length (by simp)]
    simp only [Nat.add_sub_cancel_left]
    have hZ2 : (List.replicate (c - T.length - 1) none : Mem α)
        = List.replicate D.length none ++ List.replicate (c - (T.length + D.length + 1)) none := by
      rw [← List.replicate_add]; congr 1; omega
    rw [relocOk_append]
    unfold Traits.RelocOk
    by_cases hm : E.relocateByMove = true
    · simp only [hm, if_true]
      rcases move_n_cases E T [] (List.map some D) []
          (some x :: List.replicate (c - T.length - 1) none) (List.replicate T.length none)
          0 0 T.length rfl rfl rfl (by simp) with ⟨hok, heq⟩ | ⟨hno, hne⟩
      · simp only [List.nil_append] at heq
        rw [heq]
        simp only []
        rcases move_n_cases E D (List.map (fun y => some (E.movedFrom y)) T) []
            (List.map some T ++ [some x]) (List.replicate (c - (T.length + D.length + 1)) none)
            (List.replicate D.length none) T.length (T.length + 1) D.length
            (by simp) (by simp) rfl (by simp) with ⟨hok2, heq2⟩ | ⟨hno2, hne2⟩
        · simp only [List.append_nil, List.append_assoc, List.cons_append, List.nil_append,
            ← hZ2] at heq2
          rw [heq2]
          simp only []
          have hd := destroy_n_moved E (T ++ D) [] (T.length + D.length) (by simp)
          simp only [List.map_append, List.append_nil] at hd
          rw [hd]
          simp only [Outcome.returned.injEq, List.map_append, List.map_cons, List.append_assoc]
          exact ⟨fun e => ⟨⟨hok, hok2⟩, e.1.symm, e.2.symm⟩, fun e => ⟨e.2.1.symm, e.2.2.symm⟩⟩
        · simp only [List.append_nil, List.append_assoc, List.cons_append, List.nil_append,
            ← hZ2] at hne2
          simp only [hno2, and_false, false_and, iff_false]
          generalize uninitialized_move_n E (List.map (fun y => some (E.movedFrom y)) T ++
            List.map some D) T.length D.length
            (List.map some T ++ some x :: List.replicate (c - T.length - 1) none)
            (T.length + 1) = o at hne2 ⊢
          cases o with
          | returned d r => exact absurd rfl (hne2 d r)
          | thrown d => simp only []; split <;> simp
          | undefined => simp
      · simp only [List.nil_append] at hne
        simp only [hno, false_and, iff_false]
        generalize uninitialized_move_n E (List.map some T ++ List.map some D) 0 T.length
          (List.replicate T.length none ++ some x :: List.replicate (c - T.length - 1) none) 0
          = o at hne ⊢
        cases o with
        | returned d r => exact absurd rfl (hne d r)
        | thrown d => simp only []; split <;> simp
        | undefined => simp
    · have hm0 : E.relocateByMove = false := by simpa using hm
      simp only [hm0, Bool.false_eq_true, if_false]
      rcases copy_n_cases E T [] (List.map some D) []
          (some x :: List.replicate (c - T.length - 1) none) (List.replicate T.length none)
          0 0 T.length rfl rfl rfl (by simp) with ⟨hok, heq⟩ | ⟨hno, hne⟩
      · simp only [List.nil_append] at heq
        rw [heq]
        simp only []
        rcases copy_n_cases E D (List.map some T) []
            (List.map some T ++ [some x]) (List.replicate (c - (T.length + D.length + 1)) none)
            (List.replicate D.length none) T.length (T.length + 1) D.length
            (by simp) (by simp) rfl (by simp) with ⟨hok2, heq2⟩ | ⟨hno2, hne2⟩
        · simp only [List.append_nil, List.append_assoc, List.cons_append, List.nil_append,
            ← hZ2] at heq2
          rw [heq2]
          simp only []
          have hd := destroy_n_front (T ++ D) [] (T.length + D.length) (by simp)
          simp only [List.map_append, List.append_nil] at hd
          rw [hd]
          simp only [Outcome.returned.injEq, List.map_append, List.map_cons, List.append_assoc]
          exact ⟨fun e => ⟨⟨hok, hok2⟩, e.1.symm, e.2.symm⟩, fun e => ⟨e.2.1.symm, e.2.2.symm⟩⟩
        · simp only [List.append_nil, List.append_assoc, List.cons_append, List.nil_append,
            ← hZ2] at hne2
          simp only [hno2, and_false, false_and, iff_false]
          generalize uninitialized_copy_n E (List.map some T ++ List.map some D) T.length D.length
            (List.map some T ++ some x :: List.replicate (c - T.length - 1) none)
            (T.length + 1) = o at hne2 ⊢
          cases o with
          | returned d r => exact absurd rfl (hne2 d r)
          | thrown d => simp only []; split <;> simp
          | undefined => simp
      · simp only [List.nil_append] at hne
        simp only [hno, false_and, iff_false]
        generalize uninitialized_copy_n E (List.map some T ++ List.map some D) 0 T.length
          (List.replicate T.length none ++ some x :: List.replicate (c - T.length - 1) none) 0
          = o at hne ⊢
        cases o with
        | returned d r => exact absurd rfl (hne d r)
        | thrown d => simp only []; split <;> simp
        | undefined => simp

theorem Vector.Emplace_inplace_end (E : Traits α) (v : Vector α) (xs : List α) (k : Nat) (x : α)
    (h : v.Holds xs (k + 1)) (w : Vector α) (r : Nat) :
    v.Emplace E xs.length (some x) = .returned w r ↔
      w = { data_ := v.data_.store ((xs ++ [x]).map some ++ List.replicate k none),
            size_ := xs.length + 1 } ∧
      r = xs.length := by
  obtain ⟨hcells, hsize, hcap⟩ := h
  unfold Vector.Emplace
  rw [if_pos (by omega), if_neg (by simp only [Vector.Capacity, RawMemory.Capacity]; omega),
    if_neg (by simp [hsize])]
  simp only [hcells, hsize, List.replicate_succ]
  rw [constructAt_mid _ none x _ xs.length (by simp)]
  simp only [Outcome.returned.injEq, List.map_append, List.map_cons, List.map_nil,
    List.append_assoc, List.cons_append, List.nil_append]
  exact ⟨fun e => ⟨e.1.symm, e.2.symm⟩, fun e => ⟨e.1.symm, e.2.symm⟩⟩

theorem Vector.Emplace_inplace_mid (E : Traits α) (v : Vector α) (T D : List α) (l : α)
    (k : Nat) (x : α) (h : v.Holds (T ++ D ++ [l]) (k + 1)) (w : Vector α) (r : Nat) :
    v.Emplace E T.length (some x) = .returned w r ↔
      E.moveThrows l = false ∧ (∀ y ∈ D, E.moveAssignThrows y = false) ∧
      E.moveAssignThrows x = false ∧
      w = { data_ := v.data_.store ((T ++ x :: D ++ [l]).map some ++ List.replicate k none),
            size_ := T.length + D.length + 1 + 1 } ∧
      r = T.length := by
  obtain ⟨hcells, hsize, hcap⟩ := h
  simp only [List.length_append, List.length_singleton, List.map_append, List.map_cons,
    List.map_nil, List.replicate_succ] at hcells hsize hcap
  unfold Vector.Emplace
  rw [if_pos (by omega), if_neg (by simp only [Vector.Capacity, RawMemory.Capacity]; omega),
    if_pos (by omega)]
  simp only [hcells, hsize, Nat.add_sub_cancel]
  have e1 : List.map some T ++ List.map some D ++ [some l] ++ none :: List.replicate k none
      = (List.map some T ++ List.map some D) ++ some l :: (none :: List.replicate k none) := by
    simp
  rw [e1, readAt_mid _ l _ (T.length + D.length) (by simp)]
  simp only []
  by_cases hl : E.moveThrows l = true
  · simp [hl]
  · have hl0 : E.moveThrows l = false := by simpa using hl
    simp only [hl0, Bool.false_eq_true, if_false, true_and]
    rw [← e1, constructAt_mid _ none l _ (T.length + D.length + 1)
      (by simp only [List.length_append, List.length_map, List.length_singleton])]
    simp only []
    have e2 : List.map some T ++ List.map some D ++ [some l] ++ some l :: List.replicate k none
        = (List.map some T ++ List.map some D) ++ some l :: (some l :: List.replicate k none) := by
      simp
    rw [e2, set_mid _ (some l) _ _ (T.length + D.length) (by simp)]
    unfold move_backward
    rw [Nat.add_sub_cancel_left]
    rcases outcome_cases _ _ _ (fun d => moveBackwardLoop_shift_right E D.length D
        (List.map some T) (some l :: List.replicate k none) (E.movedFrom l)
        (T.length + D.length) (T.length + D.length + 1) d rfl (by simp) rfl)
      with ⟨hok, heq⟩ | ⟨hno, hne⟩
    · rw [heq]
      simp only []
      rw [readAt_mid _ _ _ T.length (by simp)]
      simp only []
      by_cases hx : E.moveAssignThrows x = true
      · simp only [hx, if_true, Bool.true_eq_false, false_and, and_false, iff_false]
        split <;> simp
      · have hx0 : E.moveAssignThrows x = false := by simpa using hx
        simp only [hx0, Bool.false_eq_true, if_false, true_and]
        rw [set_mid _ _ _ _ T.length (by simp)]
        simp only [Outcome.returned.injEq, List.map_append, List.map_cons, List.map_nil,
          List.append_assoc, List.cons_append, List.nil_append]
        exact ⟨fun e => ⟨hok, e.1.symm, e.2.symm⟩, fun e => ⟨e.2.1.symm, e.2.2.symm⟩⟩
    · simp only [hno, false_and, iff_false]
      generalize moveBackwardLoop E (List.map some T ++ List.map some D ++
        some (E.movedFrom l) :: some l :: List.replicate k none) (T.length + D.length)
        (T.length + D.length + 1) D.length = o at hne ⊢
      cases o with
      | returned d r => exact absurd rfl (hne d r)
      | thrown d => simp
      | undefined => simp

theorem Vector.Emplace_none_not_returned (E : Traits α) (v : Vector α) (p : Nat)
    (w : Vector α) (r : Nat) : v.Emplace E p none ≠ .returned w r := by
  unfold Vector.Emplace
  intro h
  by_cases h1 : p ≤ v.size_
  · rw [if_pos h1] at h
    by_cases h2 : v.size_ = v.Capacity
    · rw [if_pos h2] at h
      cases ho : RawMemory.ofCapacity E (if v.size_ = 0 then 1 else v.size_ * 2) <;>
        simp [ho] at h
    · rw [if_neg h2] at h
      by_cases h3 : p = v.size_
      · rw [if_neg (by simpa using h3)] at h
        cases hd : destroyAt v.data_.cells v.size_ <;> simp [hd] at h
      · rw [if_pos h3] at h
        simp at h
  · rw [if_neg h1] at h
    cases h

theorem Vector.Emplace_returned_holds (E : Traits α) (v : Vector α) (xs : List α) (k p : Nat)
    (x : α) (h : v.Holds xs k) (hp : p ≤ xs.length) (w : Vector α) (r : Nat)
    (hr : v.Emplace E p (some x) = .returned w r) :
    w.Holds (xs.take p ++ x :: xs.drop p)
      (if k = 0 then (if xs.length = 0 then 1 else xs.length * 2) - (xs.length + 1) else k - 1) ∧
    r = p := by
  have hT : (xs.take p).length = p := by simp [hp]
  have hxs : xs.take p ++ xs.drop p = xs := List.take_append_drop p xs
  have hlen : (xs.take p).length + (xs.drop p).length = xs.length := by
    rw [← List.length_append, hxs]
  cases k with
  | zero =>
    have h0 : v.Holds (xs.take p ++ xs.drop p) 0 := by rw [hxs]; exact h
    have key := (Vector.Emplace_growth E v (xs.take p) (xs.drop p) x h0 w r).mp
      (by rw [hT]; exact hr)
    obtain ⟨_, _, hw, hr1⟩ := key
    rw [hlen] at hw
    refine ⟨?_, by rw [hr1, hT]⟩
    subst hw
    refine ⟨by simp [RawMemory.cells], by simp; omega, ?_⟩
    simp only [List.length_append, List.length_cons, if_true]
    split <;> omega
  | succ k =>
    rcases Nat.lt_or_ge p xs.length with hlt | hge
    · have hne : xs.drop p ≠ [] := by
        intro e
        have := congrArg List.length e
        simp at this; omega
      obtain ⟨D, l, hD⟩ : ∃ D l, xs.drop p = D ++ [l] := by
        rcases List.eq_nil_or_concat (xs.drop p) with e | ⟨D, l, e⟩
        · exact absurd e hne
        · exact ⟨D, l, by simpa using e⟩
      have hxs1 : xs.take p ++ D ++ [l] = xs := by
        rw [List.append_assoc, ← hD, hxs]
      have h0 : v.Holds (xs.take p ++ D ++ [l]) (k + 1) := by rw [hxs1]; exact h
      have key := (Vector.Emplace_inplace_mid E v (xs.take p) D l k x h0 w r).mp
        (by rw [hT]; exact hr)
      obtain ⟨_, _, _, hw, hr1⟩ := key
      have hDl : D.length + 1 = xs.length - p := by
        have := congrArg List.length hD
        simp at this; omega
      refine ⟨?_, by rw [hr1, hT]⟩
      subst hw
      obtain ⟨hcells, hsize, hcap⟩ := h
      refine ⟨?_, ?_, ?_⟩
      · simp only [Nat.add_one_ne_zero, if_false, Nat.add_sub_cancel]
        rw [cells_store _ _ (by rw [hcells]; simp; omega), hD]
        simp
      · simp only [hT, List.length_append, List.length_cons, List.length_drop]
        omega
      · simp only [capacity_store, hcap, List.length_append, List.length_cons, List.length_drop,
          hT, Nat.add_one_ne_zero, if_false]
        omega
    · have hpe : p = xs.length := by omega
      subst hpe
      have key := (Vector.Emplace_inplace_end E v xs k x h w r).mp hr
      obtain ⟨hw, hr1⟩ := key
      refine ⟨?_, hr1⟩
      subst hw
      obtain ⟨hcells, hsize, hcap⟩ := h
      refine ⟨?_, ?_, ?_⟩
      · simp only [Nat.add_one_ne_zero, if_false, Nat.add_sub_cancel]
        rw [cells_store _ _ (by rw [hcells]; simp)]
        simp
      · simp
      · simp only [capacity_store, hcap, List.length_append, List.length_cons, List.length_drop,
          List.length_take, Nat.add_one_ne_zero, if_false]
        omega

theorem Traits.NoThrow.relocOk {E : Traits α} (h : E.NoThrow) (xs : List α) : E.RelocOk xs := by
  obtain ⟨_, hc, hm, _, _, _⟩ := h
  unfold Traits.RelocOk
  split
  · exact fun y _ => hm y
  · exact fun y _ => hc y

theorem Vector.Emplace_nothrow (E : Traits α) (v : Vector α) (xs : List α) (k p : Nat)
    (x : α) (h : v.Holds xs k) (hp : p ≤ xs.length) (hE : E.NoThrow) :
    ∃ w, v.Emplace E p (some x) = .returned w p := by
  have hT : (xs.take p).length = p := by simp [hp]
  have hxs : xs.take p ++ xs.drop p = xs := List.take_append_drop p xs
  have hE1 := hE
  obtain ⟨_, hcopy, hmove, _, hmassign, halloc⟩ := hE1
  cases k with
  | zero =>
    have h0 : v.Holds (xs.take p ++ xs.drop p) 0 := by rw [hxs]; exact h
    have key := (Vector.Emplace_growth E v (xs.take p) (xs.drop p) x h0 _ (xs.take p).length).mpr
      ⟨halloc _, hE.relocOk _, rfl, rfl⟩
    rw [hT] at key
    exact ⟨_, key⟩
  | succ k =>
    rcases Nat.lt_or_ge p xs.length with hlt | hge
    · have hne : xs.drop p ≠ [] := by
        intro e
        have := congrArg List.length e
        simp at this; omega
      obtain ⟨D, l, hD⟩ : ∃ D l, xs.drop p = D ++ [l] := by
        rcases List.eq_nil_or_concat (xs.drop p) with e | ⟨D, l, e⟩
        · exact absurd e hne
        · exact ⟨D, l, by simpa using e⟩
      have hxs1 : xs.take p ++ D ++ [l] = xs := by
        rw [List.append_assoc, ← hD, hxs]
      have h0 : v.Holds (xs.take p ++ D ++ [l]) (k + 1) := by rw [hxs1]; exact h
      have key := (Vector.Emplace_inplace_mid E v (xs.take p) D l k x h0 _
        (xs.take p).length).mpr ⟨hmove l, fun y _ => hmassign y, hmassign x, rfl, rfl⟩
      rw [hT] at key
      exact ⟨_, key⟩
    · have hpe : p = xs.length := by omega
      subst hpe
      exact ⟨_, (Vector.Emplace_inplace_end E v xs k x h _ xs.length).mpr ⟨rfl, rfl⟩⟩

theorem Vector.ofList_holds (xs : List α) (k : Nat) : (Vector.ofList xs k).Holds xs k := by
  refine ⟨?_, rfl, rfl⟩
  unfold Vector.ofList RawMemory.cells
  by_cases h : xs.length + k = 0
  · have h1 : xs = [] := List.length_eq_zero.mp (by omega)
    have h2 : k = 0 := by omega
    subst h1 h2
    rfl
  · simp [h]

theorem insert_at_spec (xs : List α) (p : Nat) (x : α) (hp : p ≤ xs.length) :
    (xs.take p ++ x :: xs.drop p)[p]? = some x ∧
      (xs.take p ++ x :: xs.drop p).length = xs.length + 1 := by
  constructor
  · exact getElem?_mid _ _ _ _ (by simp [hp])
  · simp only [List.length_append, List.length_cons, List.length_take, List.length_drop]
    omega

theorem Vector.EmplaceBack_growth (E : Traits α) (v : Vector α) (xs : List α) (x : α)
    (h : v.Holds xs 0) (w : Vector α) (r : Nat) :
    v.EmplaceBack E (some x) = .returned w r ↔
      E.badAlloc (if xs.length = 0 then 1 else xs.length * 2) = false ∧
      E.RelocOk xs ∧
      w = { data_ :=
              { buffer_ := some ((xs ++ [x]).map some ++
                  List.replicate ((if xs.length = 0 then 1 else xs.length * 2)
                    - (xs.length + 1)) none),
                capacity_ := if xs.length = 0 then 1 else xs.length * 2 },
            size_ := xs.length + 1 } ∧
      r = xs.length := by
  obtain ⟨hcells, hsize, hcap⟩ := h
  simp only [List.replicate_zero, List.append_nil, Nat.add_zero] at hcells hsize hcap
  generalize hc : (if xs.length = 0 then 1 else xs.length * 2) = c
  have hc0 : c ≠ 0 := by
    rw [← hc]; split <;> omega
  have hcn : xs.length + 1 ≤ c := by
    rw [← hc]; split <;> omega
  unfold Vector.EmplaceBack
  rw [if_pos (by simp only [Vector.Capacity, RawMemory.Capacity]; omega), hsize, hc,
    ofCapacity_eq]
  by_cases hb : E.badAlloc c = true
  · simp [hc0, hb]
  · have hb0 : E.badAlloc c = false := by simpa using hb
    simp only [hc0, hb0, ne_eq, not_false_eq_true, Bool.false_eq_true, and_false, if_false,
      true_and, if_true]
    simp only [RawMemory.cells, RawMemory.store, Option.getD_some, Option.map_some']
    simp only [RawMemory.cells] at hcells
    rw [hcells, fresh_split c xs.length (by omega),
      constructAt_mid _ none x _ xs.length (by simp)]
    simp only []
    have hZ2 : (List.replicate (c - xs.length - 1) none : Mem α)
        = List.replicate (c - (xs.length + 1)) none := by
      congr 1
    unfold Traits.RelocOk
    by_cases hm : E.relocateByMove = true
    · simp only [hm, if_true]
      rcases move_n_cases E xs [] [] []
          (some x :: List.replicate (c - xs.length - 1) none) (List.replicate xs.length none)
          0 0 xs.length rfl rfl rfl (by simp) with ⟨hok, heq⟩ | ⟨hno, hne⟩
      · simp only [List.nil_append, List.append_nil] at heq
        rw [heq]
        simp only []
        have hd := destroy_n_moved E xs [] xs.length rfl
        simp only [List.append_nil] at hd
        rw [hd]
        simp only [Outcome.returned.injEq, List.map_append, List.map_cons, List.map_nil,
          List.append_assoc, List.cons_append, List.nil_append, hZ2]
        exact ⟨fun e => ⟨hok, e.1.symm, e.2.symm⟩, fun e => ⟨e.2.1.symm, e.2.2.symm⟩⟩
      · simp only [List.nil_append, List.append_nil] at hne
        simp only [hno, false_and, iff_false]
        generalize uninitialized_move_n E (List.map some xs) 0 xs.length
          (List.replicate xs.length none ++ some x :: List.replicate (c - xs.length - 1) none) 0
          = o at hne ⊢
        cases o with
        | returned d r => exact absurd rfl (hne d r)
        | thrown d => simp only []; split <;> simp
        | undefined => simp
    · have hm0 : E.relocateByMove = false := by simpa using hm
      simp only [hm0, Bool.false_eq_true, if_false]
      rcases copy_n_cases E xs [] [] []
          (some x :: List.replicate (c - xs.length - 1) none) (List.replicate xs.length none)
          0 0 xs.length rfl rfl rfl (by simp) with ⟨hok, heq⟩ | ⟨hno, hne⟩
      · simp only [List.nil_append, List.append_nil] at heq
        rw [heq]
        simp only []
        have hd := destroy_n_front xs [] xs.length rfl
        simp only [List.append_nil] at hd
        rw [hd]
        simp only [Outcome.returned.injEq, List.map_append, List.map_cons, List.map_nil,
          List.append_assoc, List.cons_append, List.nil_append, hZ2]
        exact ⟨fun e => ⟨hok, e.1.symm, e.2.symm⟩, fun e => ⟨e.2.1.symm, e.2.2.symm⟩⟩
      · simp only [List.nil_append, List.append_nil] at hne
        simp only [hno, false_and, iff_false]
        generalize uninitialized_copy_n E (List.map some xs) 0 xs.length
          (List.replicate xs.length none ++ some x :: List.replicate (c - xs.length - 1) none) 0
          = o at hne ⊢
        cases o with
        | returned d r => exact absurd rfl (hne d r)
        | thrown d => simp only []; split <;> simp
        | undefined => simp

theorem Vector.EmplaceBack_inplace (E : Traits α) (v : Vector α) (xs : List α) (k : Nat)
    (x : α) (h : v.Holds xs (k + 1)) (w : Vector α) (r : Nat) :
    v.EmplaceBack E (some x) = .returned w r ↔
      w = { data_ := v.data_.store ((xs ++ [x]).map some ++ List.replicate k none),
            size_ := xs.length + 1 } ∧
      r = xs.length := by
  obtain ⟨hcells, hsize, hcap⟩ := h
  unfold Vector.EmplaceBack
  rw [if_neg (by simp only [Vector.Capacity, RawMemory.Capacity]; omega)]
  simp only [hcells, hsize, List.replicate_succ]
  rw [constructAt_mid _ none x _ xs.length (by simp)]
  simp only [Outcome.returned.injEq, List.map_append, List.map_cons, List.map_nil,
    List.append_assoc, List.cons_append, List.nil_append]
  exact ⟨fun e => ⟨e.1.symm, e.2.symm⟩, fun e => ⟨e.1.symm, e.2.symm⟩⟩

theorem Vector.EmplaceBack_none_not_returned (E : Traits α) (v : Vector α)
    (w : Vector α) (r : Nat) : v.EmplaceBack E none ≠ .returned w r := by
  unfold Vector.EmplaceBack
  intro h
  by_cases h2 : v.size_ = v.Capacity
  · rw [if_pos h2] at h
    cases ho : RawMemory.ofCapacity E (if v.size_ = 0 then 1 else v.size_ * 2) <;>
      simp [ho] at h
  · rw [if_neg h2] at h
    simp at h

theorem Vector.EmplaceBack_returned_holds (E : Traits α) (v : Vector α) (xs : List α) (k : Nat)
    (x : α) (h : v.Holds xs k) (w : Vector α) (r : Nat)
    (hr : v.EmplaceBack E (some x) = .returned w r) :
    w.Holds (xs ++ [x])
      (if k = 0 then (if xs.length = 0 then 1 else xs.length * 2) - (xs.length + 1) else k - 1) ∧
    r = xs.length := by
  cases k with
  | zero =>
    obtain ⟨_, _, hw, hr1⟩ := (Vector.EmplaceBack_growth E v xs x h w r).mp hr
    refine ⟨?_, hr1⟩
    subst hw
    refine ⟨by simp [RawMemory.cells], by simp, ?_⟩
    simp only [List.length_append, List.length_singleton, if_true]
    split <;> omega
  | succ k =>
    obtain ⟨hw, hr1⟩ := (Vector.EmplaceBack_inplace E v xs k x h w r).mp hr
    refine ⟨?_, hr1⟩
    subst hw
    obtain ⟨hcells, hsize, hcap⟩ := h
    refine ⟨?_, ?_, ?_⟩
    · simp only [Nat.add_one_ne_zero, if_false, Nat.add_sub_cancel]
      rw [cells_store _ _ (by rw [hcells]; simp)]
    · simp
    · simp only [capacity_store, hcap, List.length_append, List.length_singleton,
        Nat.add_one_ne_zero, if_false]
      omega

theorem Vector.EmplaceBack_nothrow (E : Traits α) (v : Vector α) (xs : List α) (k : Nat)
    (x : α) (h : v.Holds xs k) (hE : E.NoThrow) :
    ∃ w, v.EmplaceBack E (some x) = .returned w xs.length := by
  cases k with
  | zero =>
    exact ⟨_, (Vector.EmplaceBack_growth E v xs x h _ xs.length).mpr
      ⟨hE.2.2.2.2.2 _, hE.relocOk _, rfl, rfl⟩⟩
  | succ k =>
    exact ⟨_, (Vector.EmplaceBack_inplace E v xs k x h _ xs.length).mpr ⟨rfl, rfl⟩⟩

theorem Vector.PushBack_returned (E : Traits α) (v w : Vector α) (x : α) :
    v.PushBack E x = .returned w () ↔
      E.copyThrows x = false ∧ ∃ r, v.EmplaceBack E (some x) = .returned w r := by
  unfold Vector.PushBack Traits.copyCtor
  by_cases hx : E.copyThrows x = true
  · simp only [hx, if_true, Bool.true_eq_false, false_and, iff_false]
    intro h
    have hn := Vector.EmplaceBack_none_not_returned E v
    generalize v.EmplaceBack E none = o at h hn
    cases o with
    | returned s r => exact hn s r rfl
    | thrown s => cases h
    | undefined => cases h
  · have hx0 : E.copyThrows x = false := by simpa using hx
    simp only [hx0, Bool.false_eq_true, if_false, true_and]
    generalize v.EmplaceBack E (some x) = o
    cases o with
    | returned s r => simp
    | thrown s => simp
    | undefined => simp

theorem Vector.EmplaceBackAll_holds (E : Traits α) (values : List α) :
    ∀ (v : Vector α) (xs : List α) (k : Nat) (w : Vector α) (rs : List Nat),
      v.Holds xs k → v.EmplaceBackAll E values = .returned w rs →
      (∃ j, w.Holds (xs ++ values) j) ∧ rs = List.range' xs.length values.length := by
  induction values with
  | nil =>
    intro v xs k w rs h hr
    simp only [Vector.EmplaceBackAll, Outcome.returned.injEq] at hr
    obtain ⟨rfl, rfl⟩ := hr
    exact ⟨⟨k, by simpa using h⟩, by simp⟩
  | cons x rest ih =>
    intro v xs k w rs h hr
    simp only [Vector.EmplaceBackAll] at hr
    cases h1 : v.EmplaceBack E (some x) with
    | returned v1 r =>
      rw [h1] at hr
      simp only [] at hr
      obtain ⟨hv1, hr1⟩ := Vector.EmplaceBack_returned_holds E v xs k x h v1 r h1
      cases h2 : Vector.EmplaceBackAll E v1 rest with
      | returned v2 rs2 =>
        rw [h2] at hr
        simp only [Outcome.returned.injEq] at hr
        obtain ⟨rfl, rfl⟩ := hr
        obtain ⟨⟨j, hj⟩, hrs⟩ := ih v1 (xs ++ [x]) _ v2 rs2 hv1 h2
        refine ⟨⟨j, by simpa using hj⟩, ?_⟩
        rw [hrs, hr1]
        simp [List.range'_succ]
      | thrown s => rw [h2] at hr; cases hr
      | undefined => rw [h2] at hr; cases hr
    | thrown s => rw [h1] at hr; cases hr
    | undefined => rw [h1] at hr; cases hr

theorem Vector.EmplaceBackAll_nothrow (E : Traits α) (hE : E.NoThrow) (values : List α) :
    ∀ (v : Vector α) (xs : List α) (k : Nat), v.Holds xs k →
      ∃ w, v.EmplaceBackAll E values = .returned w (List.range' xs.length values.length) ∧
        v.PushBackAll E values = .returned w () := by
  induction values with
  | nil =>
    intro v xs k _
    exact ⟨v, by simp [Vector.EmplaceBackAll], by simp [Vector.PushBackAll]⟩
  | cons x rest ih =>
    intro v xs k h
    obtain ⟨v1, h1⟩ := Vector.EmplaceBack_nothrow E v xs k x h hE
    obtain ⟨hv1, _⟩ := Vector.EmplaceBack_returned_holds E v xs k x h v1 _ h1
    obtain ⟨w, hw1, hw2⟩ := ih v1 (xs ++ [x]) _ hv1
    refine ⟨w, ?_, ?_⟩
    · simp only [List.length_append, List.length_singleton] at hw1
      simp only [Vector.EmplaceBackAll, h1, hw1, List.length_cons, List.range'_succ]
    · have hp : v.PushBack E x = .returned v1 () :=
        (Vector.PushBack_returned E v v1 x).mpr ⟨hE.2.1 x, _, h1⟩
      simp only [Vector.PushBackAll, hp, hw2]

theorem Vector.PushBackAll_returned (E : Traits α) (values : List α) :
    ∀ (v w : Vector α), v.PushBackAll E values = .returned w () →
      ∃ rs, v.EmplaceBackAll E values = .returned w rs := by
  induction values with
  | nil =>
    intro v w hr
    simp only [Vector.PushBackAll, Outcome.returned.injEq, and_true] at hr
    exact ⟨[], by simp [Vector.EmplaceBackAll, hr]⟩
  | cons x rest ih =>
    intro v w hr
    simp only [Vector.PushBackAll] at hr
    cases h1 : v.PushBack E x with
    | returned v1 u =>
      rw [h1] at hr
      simp only [] at hr
      obtain ⟨_, r, hr1⟩ := (Vector.PushBack_returned E v v1 x).mp h1
      obtain ⟨rs, hrs⟩ := ih v1 w hr
      exact ⟨r :: rs, by simp only [Vector.EmplaceBackAll, hr1, hrs]⟩
    | thrown s => rw [h1] at hr; cases hr
    | undefined => rw [h1] at hr; cases hr

theorem Vector.empty_holds : (Vector.empty : Vector α).Holds [] 0 := ⟨rfl, rfl, rfl⟩

theorem Vector.Erase_returned (E : Traits α) (v : Vector α) (T D : List α) (a : α) (k : Nat)
    (h : v.Holds (T ++ a :: D) k) (w : Vector α) (r : Nat) :
    v.Erase E T.length = .returned w r ↔
      (∀ y ∈ D, E.moveAssignThrows y = false) ∧
      w = { data_ := v.data_.store ((T ++ D).map some ++ List.replicate (k + 1) none),
            size_ := T.length + D.length } ∧
      r = T.length := by
  obtain ⟨hcells, hsize, hcap⟩ := h
  simp only [List.length_append, List.length_cons, List.map_append, List.map_cons,
    List.append_assoc, List.cons_append] at hcells hsize hcap
  unfold Vector.Erase move
  rw [if_pos (by omega)]
  simp only [hcells, hsize]
  have hcount : T.length + (D.length + 1) - (T.length + 1) = D.length := by omega
  rw [hcount]
  rcases outcome_cases _ _ _ (fun d => moveLoop_shift_left E D (List.map some T)
      (List.replicate k none) a (T.length + 1) T.length D.length d (by simp) (by simp) rfl)
    with ⟨hok, heq⟩ | ⟨hno, hne⟩
  · rw [heq]
    simp only []
    have e3 : T.length + (D.length + 1) - 1 = T.length + D.length := by omega
    rw [destroyAt_mid _ _ _ (T.length + (D.length + 1) - 1) (by simp)]
    simp only [Outcome.returned.injEq, List.replicate_succ, List.append_assoc, e3,
      List.map_append]
    exact ⟨fun e => ⟨hok, e.1.symm, e.2.symm⟩, fun e => ⟨e.2.1.symm, e.2.2.symm⟩⟩
  · simp only [hno, false_and, iff_false]
    generalize moveLoop E (List.map some T ++ some a :: (List.map some D ++
      List.replicate k none)) (T.length + 1) T.length D.length = o at hne ⊢
    cases o with
    | returned d r => exact absurd rfl (hne d r)
    | thrown d => simp
    | undefined => simp

theorem split_at_index (xs : List α) (p : Nat) (hp : p < xs.length) :
    xs.take p ++ xs[p] :: xs.drop (p + 1) = xs ∧ (xs.take p).length = p ∧
      (xs.drop (p + 1)).length = xs.length - (p + 1) := by
  refine ⟨?_, by simp; omega, by simp⟩
  rw [← List.drop_eq_getElem_cons hp, List.take_append_drop]

theorem Vector.Erase_returned_holds (E : Traits α) (v : Vector α) (xs : List α) (k p : Nat)
    (h : v.Holds xs k) (hp : p < xs.length) (w : Vector α) (r : Nat)
    (hr : v.Erase E p = .returned w r) :
    w.Holds (xs.take p ++ xs.drop (p + 1)) (k + 1) ∧ r = p := by
  obtain ⟨hxs, hT, hD⟩ := split_at_index xs p hp
  have h0 : v.Holds (xs.take p ++ xs[p] :: xs.drop (p + 1)) k := by rw [hxs]; exact h
  obtain ⟨_, hw, hr1⟩ := (Vector.Erase_returned E v _ _ _ k h0 w r).mp (by rw [hT]; exact hr)
  refine ⟨?_, by rw [hr1, hT]⟩
  subst hw
  obtain ⟨hcells, hsize, hcap⟩ := h
  refine ⟨?_, ?_, ?_⟩
  · rw [cells_store _ _ (by rw [hcells]; simp; omega)]
  · simp
  · simp only [capacity_store, hcap, List.length_append, hT, hD]
    omega

theorem Vector.Erase_nothrow (E : Traits α) (v : Vector α) (xs : List α) (k p : Nat)
    (h : v.Holds xs k) (hp : p < xs.length)
    (hE : ∀ y ∈ xs.drop (p + 1), E.moveAssignThrows y = false) :
    ∃ w, v.Erase E p = .returned w p := by
  obtain ⟨hxs, hT, hD⟩ := split_at_index xs p hp
  have h0 : v.Holds (xs.take p ++ xs[p] :: xs.drop (p + 1)) k := by rw [hxs]; exact h
  have key := (Vector.Erase_returned E v _ _ _ k h0 _ (xs.take p).length).mpr ⟨hE, rfl, rfl⟩
  rw [hT] at key
  exact ⟨_, key⟩

theorem Vector.copyCtor_returned (E : Traits α) (s : Vector α) (ys : List α) (j : Nat)
    (h : s.Holds ys j) (w : Vector α) :
    Vector.copyCtor E s = .returned () w ↔
      (ys.length ≠ 0 → E.badAlloc ys.length = false) ∧ (∀ y ∈ ys, E.copyThrows y = false) ∧
      w = { data_ := { buffer_ := if ys.length ≠ 0 then some (ys.map some) else none,
                       capacity_ := ys.length },
            size_ := ys.length } := by
  obtain ⟨hcells, hsize, hcap⟩ := h
  unfold Vector.copyCtor
  rw [hsize, ofCapacity_eq]
  by_cases hb : ys.length ≠ 0 ∧ E.badAlloc ys.length = true
  · rw [if_pos hb]
    constructor
    · intro e; cases e
    · rintro ⟨hb1, _⟩
      rw [hb1 hb.1] at hb
      exact absurd hb.2 (by simp)
  · rw [if_neg hb]
    have hb1 : ys.length ≠ 0 → E.badAlloc ys.length = false := by
      intro h0
      cases hbb : E.badAlloc ys.length with
      | false => rfl
      | true => exact absurd ⟨h0, hbb⟩ hb
    simp only [cells_fresh, hcells]
    rcases copy_n_cases E ys [] (List.replicate j none) [] [] (List.replicate ys.length none)
        0 0 ys.length rfl rfl rfl (by simp) with ⟨hok, heq⟩ | ⟨hno, hne⟩
    · simp only [List.nil_append, List.append_nil] at heq
      rw [heq]
      simp only [Outcome.returned.injEq, true_and]
      have hst : (RawMemory.store
          { buffer_ := if ys.length ≠ 0 then some (List.replicate ys.length none) else none,
            capacity_ := ys.length } (List.map some ys) : RawMemory α)
          = { buffer_ := if ys.length ≠ 0 then some (ys.map some) else none,
              capacity_ := ys.length } := by
        by_cases h0 : ys.length = 0
        · simp [RawMemory.store, h0]
        · simp [RawMemory.store, h0]
      rw [hst]
      exact ⟨fun e => ⟨hb1, hok, e.symm⟩, fun e => e.2.2.symm⟩
    · simp only [List.nil_append, List.append_nil] at hne
      simp only [hno, false_and, and_false, iff_false]
      generalize uninitialized_copy_n E (List.map some ys ++ List.replicate j none) 0 ys.length
        (List.replicate ys.length none) 0 = o at hne ⊢
      cases o with
      | returned d r => exact absurd rfl (hne d r)
      | thrown d => simp
      | undefined => simp

theorem Vector.copyCtor_holds (ys : List α) :
    Vector.Holds ({ data_ := { buffer_ := if ys.length ≠ 0 then some (ys.map some) else none,
                               capacity_ := ys.length },
                    size_ := ys.length } : Vector α) ys 0 := by
  refine ⟨?_, rfl, rfl⟩
  by_cases h0 : ys.length = 0
  · have : ys = [] := List.length_eq_zero.mp h0
    subst this
    rfl
  · simp [RawMemory.cells, h0]

theorem Vector.dtor_holds {v : Vector α} {xs : List α} {k : Nat} (h : v.Holds xs k) :
    v.dtor = true := by
  obtain ⟨hcells, hsize, _⟩ := h
  unfold Vector.dtor
  rw [hcells, hsize, destroy_n_front xs _ xs.length rfl]
  rfl

theorem Vector.copyAssign_grow (E : Traits α) (a b : Vector α) (xs ys : List α) (k j : Nat)
    (ha : a.Holds xs k) (hb : b.Holds ys j) (hlt : xs.length + k < ys.length) (w : Vector α) :
    a.copyAssign E b = .returned w () ↔
      E.badAlloc ys.length = false ∧ (∀ y ∈ ys, E.copyThrows y = false) ∧
      w = { data_ := { buffer_ := some (ys.map some), capacity_ := ys.length },
            size_ := ys.length } := by
  have h0 : ys.length ≠ 0 := by omega
  have key := fun u => Vector.copyCtor_returned E b ys j hb u
  simp only [h0, ne_eq, not_false_eq_true, true_implies, if_true] at key
  unfold Vector.copyAssign
  rw [if_pos (by simp only [RawMemory.Capacity, hb.2.1, ha.2.2]; omega)]
  cases ho : Vector.copyCtor E b with
  | returned u rc =>
    obtain ⟨h1, h2, h3⟩ := (key rc).mp (by rw [ho])
    have hd : (Vector.Swap a rc).2.dtor = true := @Vector.dtor_holds α _ xs k ha
    simp only [hd, if_true, Outcome.returned.injEq, and_true]
    have hs : (Vector.Swap a rc).1 = rc := rfl
    rw [hs, h3]
    exact ⟨fun e => ⟨h1, h2, e.symm⟩, fun e => e.2.2.symm⟩
  | thrown u =>
    constructor
    · intro e; cases e
    · intro hr
      have := (key _).mpr hr
      rw [ho] at this
      cases this
  | undefined =>
    constructor
    · intro e; cases e
    · intro hr
      have := (key _).mpr hr
      rw [ho] at this
      cases this

theorem Vector.copyAssign_shrink (E : Traits α) (a b : Vector α) (X1 X2 ys : List α)
    (k j : Nat) (ha : a.Holds (X1 ++ X2) k) (hb : b.Holds ys j) (hX1 : X1.length = ys.length)
    (hX2 : 0 < X2.length) (w : Vector α) :
    a.copyAssign E b = .returned w () ↔
      (∀ y ∈ ys, E.copyAssignThrows y = false) ∧
      w = { data_ := a.data_.store (ys.map some ++ List.replicate (X2.length + k) none),
            size_ := ys.length } := by
  obtain ⟨hac, has, hacap⟩ := ha
  obtain ⟨hbc, hbs, hbcap⟩ := hb
  simp only [List.length_append, List.map_append] at hac has hacap
  unfold Vector.copyAssign copy
  rw [if_neg (by simp only [RawMemory.Capacity]; omega), if_pos (by omega)]
  simp only [hac, hbc, has, hbs, Nat.sub_zero, List.append_assoc]
  rcases outcome_cases _ _ _ (fun d => copyLoop_returned E ys [] (List.replicate j none) []
      (List.map some X2 ++ List.replicate k none) X1 0 0 ys.length d rfl rfl rfl hX1)
    with ⟨hok, heq⟩ | ⟨hno, hne⟩
  · simp only [List.nil_append, List.append_assoc] at heq
    rw [heq]
    simp only []
    have hd := destroy_n_live X2 (List.map some ys) (List.replicate k none) ys.length
      (X1.length + X2.length - ys.length) (by simp) (by omega)
    simp only [List.append_assoc] at hd
    rw [hd]
    simp only [Outcome.returned.injEq, and_true]
    have hrep : (List.replicate (X1.length + X2.length - ys.length) none ++ List.replicate k none
        : Mem α) = List.replicate (X2.length + k) none := by
      rw [← List.replicate_add]; congr 1; omega
    rw [hrep]
    exact ⟨fun e => ⟨hok, e.symm⟩, fun e => e.2.symm⟩
  · simp only [List.nil_append, List.append_assoc] at hne
    simp only [hno, false_and, iff_false]
    generalize copyLoop E (List.map some ys ++ List.replicate j none) 0
      (List.map some X1 ++ (List.map some X2 ++ List.replicate k none)) 0 ys.length = o at hne ⊢
    cases o with
    | returned d r => exact absurd rfl (hne d r)
    | thrown d => simp
    | undefined => simp

theorem Vector.copyAssign_extend (E : Traits α) (a b : Vector α) (xs Y1 Y2 : List α)
    (k j : Nat) (ha : a.Holds xs (Y2.length + k)) (hb : b.Holds (Y1 ++ Y2) j)
    (hY1 : Y1.length = xs.length) (w : Vector α) :
    a.copyAssign E b = .returned w () ↔
      (∀ y ∈ Y1, E.copyAssignThrows y = false) ∧ (∀ y ∈ Y2, E.copyThrows y = false) ∧
      w = { data_ := a.data_.store ((Y1 ++ Y2).map some ++ List.replicate k none),
            size_ := Y1.length + Y2.length } := by
  obtain ⟨hac, has, hacap⟩ := ha
  obtain ⟨hbc, hbs, hbcap⟩ := hb
  simp only [List.length_append, List.map_append, List.replicate_add] at hac hbc hbs hbcap
  unfold Vector.copyAssign copy
  rw [if_neg (by simp only [RawMemory.Capacity]; omega), if_neg (by omega)]
  simp only [hac, hbc, has, hbs, Nat.sub_zero, List.append_assoc]
  rcases outcome_cases _ _ _ (fun d => copyLoop_returned E Y1 []
      (List.map some Y2 ++ List.replicate j none) []
      (List.replicate Y2.length none ++ List.replicate k none) xs 0 0 xs.length d rfl rfl
      hY1.symm hY1.symm)
    with ⟨hok, heq⟩ | ⟨hno, hne⟩
  · simp only [List.nil_append, List.append_assoc] at heq
    rw [heq]
    simp only []
    rcases copy_n_cases E Y2 (List.map some Y1) (List.replicate j none) (List.map some Y1)
        (List.replicate k none) (List.replicate Y2.length none) xs.length xs.length
        (Y1.length + Y2.length - xs.length) (by simp [hY1]) (by simp [hY1]) (by omega) (by simp)
      with ⟨hok2, heq2⟩ | ⟨hno2, hne2⟩
    · simp only [List.append_assoc] at heq2
      rw [heq2]
      simp only [Outcome.returned.injEq, and_true, List.map_append, List.append_assoc]
      exact ⟨fun e => ⟨hok, hok2, e.symm⟩, fun e => e.2.2.symm⟩
    · simp only [List.append_assoc] at hne2
      simp only [hno2, false_and, and_false, iff_false]
      generalize uninitialized_copy_n E (List.map some Y1 ++ (List.map some Y2 ++
        List.replicate j none)) xs.length (Y1.length + Y2.length - xs.length)
        (List.map some Y1 ++ (List.replicate Y2.length none ++ List.replicate k none))
        xs.length = o at hne2 ⊢
      cases o with
      | returned d r => exact absurd rfl (hne2 d r)
      | thrown d => simp
      | undefined => simp
  · simp only [List.nil_append, List.append_assoc] at hne
    simp only [hno, false_and, iff_false]
    generalize copyLoop E (List.map some Y1 ++ (List.map some Y2 ++ List.replicate j none)) 0
      (List.map some xs ++ (List.replicate Y2.length none ++ List.replicate k none)) 0
      xs.length = o at hne ⊢
    cases o with
    | returned d r => exact absurd rfl (hne d r)
    | thrown d => simp
    | undefined => simp

theorem Vector.copyAssign_cases (E : Traits α) (a b : Vector α) (xs ys : List α) (k j : Nat)
    (ha : a.Holds xs k) (hb : b.Holds ys j) :
    (∀ w, a.copyAssign E b = .returned w () →
      w.Holds ys (if xs.length + k < ys.length then 0 else xs.length + k - ys.length)) ∧
    (E.NoThrow → ∃ w, a.copyAssign E b = .returned w ()) := by
  rcases Nat.lt_or_ge (xs.length + k) ys.length with hgrow | hfit
  · constructor
    · intro w hr
      obtain ⟨_, _, hw⟩ := (Vector.copyAssign_grow E a b xs ys k j ha hb hgrow w).mp hr
      subst hw
      rw [if_pos hgrow]
      exact ⟨by simp [RawMemory.cells], rfl, rfl⟩
    · intro hE
      exact ⟨_, (Vector.copyAssign_grow E a b xs ys k j ha hb hgrow _).mpr
        ⟨hE.2.2.2.2.2 _, fun y _ => hE.2.1 y, rfl⟩⟩
  · rw [if_neg (by omega)]
    rcases Nat.lt_or_ge ys.length xs.length with hshrink | hext
    · have hX1 : (xs.take ys.length).length = ys.length := by simp; omega
      have hX2 : (xs.drop ys.length).length = xs.length - ys.length := by simp
      have ha0 : a.Holds (xs.take ys.length ++ xs.drop ys.length) k := by
        rw [List.take_append_drop]; exact ha
      constructor
      · intro w hr
        obtain ⟨_, hw⟩ := (Vector.copyAssign_shrink E a b _ _ ys k j ha0 hb hX1
          (by omega) w).mp hr
        subst hw
        refine ⟨?_, rfl, ?_⟩
        · rw [cells_store _ _ (by rw [ha.1]; simp; omega), hX2]
          congr 2
          omega
        · simp only [capacity_store, ha.2.2]
          omega
      · intro hE
        exact ⟨_, (Vector.copyAssign_shrink E a b _ _ ys k j ha0 hb hX1 (by omega) _).mpr
          ⟨fun y _ => hE.2.2.2.1 y, rfl⟩⟩
    · have hY1 : (ys.take xs.length).length = xs.length := by simp; omega
      have hY2 : (ys.drop xs.length).length = ys.length - xs.length := by simp
      have hys : ys.take xs.length ++ ys.drop xs.length = ys := List.take_append_drop _ _
      have hb0 : b.Holds (ys.take xs.length ++ ys.drop xs.length) j := by
        rw [hys]; exact hb
      have hk : k = (ys.drop xs.length).length + (xs.length + k - ys.length) := by omega
      have ha0 : a.Holds xs ((ys.drop xs.length).length + (xs.length + k - ys.length)) := by
        rw [← hk]; exact ha
      constructor
      · intro w hr
        obtain ⟨_, _, hw⟩ := (Vector.copyAssign_extend E a b xs _ _ _ j ha0 hb0 hY1 w).mp hr
        subst hw
        rw [hys]
        refine ⟨?_, ?_, ?_⟩
        · rw [cells_store _ _ (by rw [ha.1]; simp; omega)]
        · simp only [hY1, hY2]; omega
        · simp only [capacity_store, ha.2.2]
          omega
      · intro hE
        exact ⟨_, (Vector.copyAssign_extend E a b xs _ _ _ j ha0 hb0 hY1 _).mpr
          ⟨fun y _ => hE.2.2.2.1 y, fun y _ => hE.2.1 y, rfl⟩⟩

theorem Vector.Reserve_noop (E : Traits α) (v : Vector α) (c : Nat) (hc : c ≤ v.Capacity) :
    v.Reserve E c = .returned v () := by
  unfold Vector.Reserve
  rw [if_pos (show c ≤ v.data_.Capacity from hc)]

theorem Vector.Reserve_cases (E : Traits α) (v : Vector α) (xs : List α) (k c : Nat)
    (h : v.Holds xs k) :
    (∀ w, v.Reserve E c = .returned w () →
      w.Holds xs (if c ≤ xs.length + k then k else c - xs.length)) ∧
    (E.NoThrow → ∃ w, v.Reserve E c = .returned w ()) := by
  rcases Nat.lt_or_ge (xs.length + k) c with hgrow | hfit
  · constructor
    · intro w hr
      obtain ⟨_, _, hw⟩ := (Vector.Reserve_returned E v xs k c h hgrow w).mp hr
      subst hw
      rw [if_neg (by omega)]
      exact ⟨by simp [RawMemory.cells], rfl, by simp; omega⟩
    · intro hE
      exact ⟨_, (Vector.Reserve_returned E v xs k c h hgrow _).mpr
        ⟨hE.2.2.2.2.2 _, hE.relocOk _, rfl⟩⟩
  · have hno := Vector.Reserve_noop E v c
      (by simp only [Vector.Capacity, RawMemory.Capacity, h.2.2]; omega)
    constructor
    · intro w hr
      rw [hno] at hr
      simp only [Outcome.returned.injEq, and_true] at hr
      subst hr
      rw [if_pos hfit]
      exact h
    · intro _
      exact ⟨v, hno⟩

theorem replicate_valueInit (E : Traits α) (n : Nat) (hn : n ≠ 0 → ∃ x, E.valueInit = some x) :
    ∃ ds : List α, ds.map some = List.replicate n E.valueInit ∧ ds.length = n ∧
      ∀ d, E.valueInit = some d → ds = List.replicate n d := by
  by_cases h0 : n = 0
  · subst h0
    exact ⟨[], rfl, rfl, fun _ _ => rfl⟩
  · obtain ⟨x, hx⟩ := hn h0
    refine ⟨List.replicate n x, by simp [hx], by simp, ?_⟩
    intro d hd
    rw [hx] at hd
    cases hd
    rfl

theorem Vector.Resize_shrink (E : Traits α) (v : Vector α) (xs : List α) (k m : Nat)
    (h : v.Holds xs k) (hm : m < xs.length) :
    v.Resize E m = .returned
      { data_ := v.data_.store ((xs.take m).map some ++ List.replicate (xs.length - m + k) none),
        size_ := m } () := by
  obtain ⟨hcells, hsize, hcap⟩ := h
  unfold Vector.Resize
  rw [if_pos (by omega), hcells, hsize]
  have hx : List.map some xs = List.map some (xs.take m) ++ List.map some (xs.drop m) := by
    rw [← List.map_append, List.take_append_drop]
  have hd := destroy_n_live (xs.drop m) (List.map some (xs.take m)) (List.replicate k none) m
    (xs.length - m) (by simp; omega) (by simp)
  rw [hx, hd]
  simp only [List.append_assoc, ← List.replicate_add]

theorem Vector.Resize_extend (E : Traits α) (v v1 : Vector α) (xs : List α) (j m : Nat)
    (hm : xs.length ≤ m) (hr : v.Reserve E m = .returned v1 ())
    (h1 : v1.Holds xs (m - xs.length + j)) (hsz : v.size_ = xs.length) (w : Vector α) :
    v.Resize E m = .returned w () ↔
      (m - xs.length ≠ 0 → ∃ x, E.valueInit = some x) ∧
      w = { data_ := v1.data_.store (xs.map some ++ List.replicate (m - xs.length) E.valueInit
              ++ List.replicate j none),
            size_ := m } := by
  obtain ⟨hcells, hsize, hcap⟩ := h1
  unfold Vector.Resize
  rw [if_neg (by omega), hr]
  simp only [hcells, hsize, List.replicate_add]
  rcases outcome_cases _ _ _ (fun d => uninitialized_value_construct_n_returned E
      (m - xs.length) (List.map some xs) (List.replicate j none)
      (List.replicate (m - xs.length) none) xs.length d (by simp) (by simp))
    with ⟨hok, heq⟩ | ⟨hno, hne⟩
  · simp only [← List.append_assoc] at heq ⊢
    rw [heq]
    simp only [Outcome.returned.injEq, and_true]
    exact ⟨fun e => ⟨hok, e.symm⟩, fun e => e.2.symm⟩
  · simp only [hno, false_and, iff_false]
    simp only [← List.append_assoc] at hne ⊢
    generalize uninitialized_value_construct_n E (List.map some xs ++
      List.replicate (m - xs.length) none ++ List.replicate j none) xs.length (m - xs.length)
      = o at hne ⊢
    cases o with
    | returned d r => exact absurd rfl (hne d r)
    | thrown d => simp
    | undefined => simp

theorem Vector.Resize_cases (E : Traits α) (v : Vector α) (xs : List α) (k m : Nat)
    (h : v.Holds xs k) :
    (∀ w, v.Resize E m = .returned w () →
      ∃ ds : List α, w.Holds (xs.take m ++ ds) (xs.length + k - m) ∧
        ds.map some = List.replicate (m - xs.length) E.valueInit ∧
        (∀ d, E.valueInit = some d → ds = List.replicate (m - xs.length) d)) ∧
    ((m ≤ xs.length ∨ E.NoThrow) → ∃ w, v.Resize E m = .returned w ()) := by
  rcases Nat.lt_or_ge m xs.length with hlt | hge
  · have hs := Vector.Resize_shrink E v xs k m h hlt
    constructor
    · intro w hr
      rw [hs] at hr
      simp only [Outcome.returned.injEq, and_true] at hr
      subst hr
      have h0 : m - xs.length = 0 := by omega
      refine ⟨[], ?_, by simp [h0], fun _ _ => by simp [h0]⟩
      obtain ⟨hcells, hsize, hcap⟩ := h
      refine ⟨?_, ?_, ?_⟩
      · rw [cells_store _ _ (by rw [hcells]; simp; omega)]
        simp only [List.append_nil]
        congr 2
        omega
      · simp; omega
      · simp only [capacity_store, hcap, List.append_nil, List.length_take]
        omega
    · intro _
      exact ⟨_, hs⟩
  · obtain ⟨hR1, hR2⟩ := Vector.Reserve_cases E v xs k m h
    have htake : xs.take m = xs := List.take_of_length_le hge
    rw [htake]
    constructor
    · intro w hr
      cases hres : v.Reserve E m with
      | returned v1 u =>
        have hv1 := hR1 v1 hres
        have hk1 : (if m ≤ xs.length + k then k else m - xs.length)
            = m - xs.length + (xs.length + k - m) := by
          split <;> omega
        rw [hk1] at hv1
        obtain ⟨hok, hw⟩ := (Vector.Resize_extend E v v1 xs _ m hge hres hv1 h.2.1 w).mp hr
        obtain ⟨ds, hds, hlen, hall⟩ := replicate_valueInit E (m - xs.length) hok
        refine ⟨ds, ?_, hds, hall⟩
        subst hw
        refine ⟨?_, ?_, ?_⟩
        · rw [cells_store _ _ (by rw [hv1.1]; simp), ← hds]
          simp
        · simp [hlen]; omega
        · simp only [capacity_store, hv1.2.2, List.length_append, hlen]
          omega
      | thrown s =>
        unfold Vector.Resize at hr
        rw [if_neg (by rw [h.2.1]; omega), hres] at hr
        cases hr
      | undefined =>
        unfold Vector.Resize at hr
        rw [if_neg (by rw [h.2.1]; omega), hres] at hr
        cases hr
    · intro hcond
      have hret : ∃ v1, v.Reserve E m = .returned v1 () := by
        rcases hcond with hle | hE
        · exact ⟨v, Vector.Reserve_noop E v m
            (by simp only [Vector.Capacity, RawMemory.Capacity, h.2.2]; omega)⟩
        · exact hR2 hE
      obtain ⟨v1, hres⟩ := hret
      have hv1 := hR1 v1 hres
      have hk1 : (if m ≤ xs.length + k then k else m - xs.length)
          = m - xs.length + (xs.length + k - m) := by
        split <;> omega
      rw [hk1] at hv1
      refine ⟨_, (Vector.Resize_extend E v v1 xs _ m hge hres hv1 h.2.1 _).mpr ⟨?_, rfl⟩⟩
      intro hne
      rcases hcond with hle | hE
      · omega
      · exact hE.1

theorem Vector.PopBack_returned (v : Vector α) (xs : List α) (l : α) (k : Nat)
    (h : v.Holds (xs ++ [l]) k) :
    v.PopBack = .returned
      { data_ := v.data_.store (xs.map some ++ List.replicate (k + 1) none),
        size_ := xs.length } () := by
  obtain ⟨hcells, hsize, hcap⟩ := h
  simp only [List.length_append, List.length_singleton, List.map_append, List.map_cons,
    List.map_nil, List.append_assoc, List.cons_append, List.nil_append] at hcells hsize hcap
  unfold Vector.PopBack
  rw [if_pos (by omega), hcells, hsize, destroyAt_mid _ l _ _ (by simp)]
  simp only [Nat.add_sub_cancel, List.replicate_succ]

theorem Vector.ofSize_returned (E : Traits α) (n : Nat) (w : Vector α)
    (h : Vector.ofSize E n = .returned () w) :
    ∃ ds : List α, w.Holds ds 0 ∧ ds.map some = List.replicate n E.valueInit ∧ ds.length = n := by
  unfold Vector.ofSize at h
  rw [ofCapacity_eq] at h
  by_cases hb : n ≠ 0 ∧ E.badAlloc n = true
  · rw [if_pos hb] at h
    cases h
  · rw [if_neg hb] at h
    simp only [cells_fresh] at h
    have key := fun d => uninitialized_value_construct_n_returned E n [] []
      (List.replicate n none) 0 d rfl (by simp)
    simp only [List.nil_append, List.append_nil] at key
    cases ho : uninitialized_value_construct_n E (List.replicate n none) 0 n with
    | returned d r =>
      rw [ho] at h
      simp only [Outcome.returned.injEq, true_and] at h
      obtain ⟨hok, hd⟩ := (key d).mp (by rw [ho])
      obtain ⟨ds, hds, hlen, _⟩ := replicate_valueInit E n hok
      refine ⟨ds, ?_, hds, hlen⟩
      subst h
      refine ⟨?_, hlen.symm, by simp [capacity_store, hlen]⟩
      rw [cells_store _ _ (by rw [cells_fresh, hd]; simp), hd, ← hds]
      simp
    | thrown d => rw [ho] at h; cases h
    | undefined => rw [ho] at h; cases h

theorem Vector.PushBackMove_returned (E : Traits α) (v w : Vector α) (x : α)
    (h : v.PushBackMove E x = .returned w ()) :
    ∃ r, v.EmplaceBack E (some x) = .returned w r := by
  unfold Vector.PushBackMove Traits.moveCtor at h
  by_cases hx : E.moveThrows x = true
  · simp only [hx, if_true] at h
    have hn := Vector.EmplaceBack_none_not_returned E v
    generalize v.EmplaceBack E none = o at h hn
    cases o with
    | returned s r => exact absurd rfl (hn s r)
    | thrown s => cases h
    | undefined => cases h
  · have hx0 : E.moveThrows x = false := by simpa using hx
    simp only [hx0, Bool.false_eq_true, if_false] at h
    generalize v.EmplaceBack E (some x) = o at h
    cases o with
    | returned s r =>
      simp only [Outcome.returned.injEq, and_true] at h
      exact ⟨r, by rw [h]⟩
    | thrown s => cases h
    | undefined => cases h

theorem Vector.EmplaceBack_inv (E : Traits α) (v : Vector α) (args : Option α) (w : Vector α)
    (r : Nat) (hinv : v.Inv) (h : v.EmplaceBack E args = .returned w r) : w.Inv := by
  cases args with
  | none => exact absurd h (Vector.EmplaceBack_none_not_returned E v w r)
  | some x => exact (Vector.EmplaceBack_returned_holds E v _ _ x hinv.holds w r h).1.inv

theorem Vector.Emplace_inv (E : Traits α) (v : Vector α) (p : Nat) (args : Option α)
    (w : Vector α) (r : Nat) (hinv : v.Inv) (hp : p ≤ v.size_)
    (h : v.Emplace E p args = .returned w r) : w.Inv := by
  cases args with
  | none => exact absurd h (Vector.Emplace_none_not_returned E v p w r)
  | some x =>
    have hh := hinv.holds
    exact (Vector.Emplace_returned_holds E v _ _ p x hh (by rw [← hh.2.1]; exact hp) w r h).1.inv

theorem Vector.EmplaceBack_capacity (E : Traits α) (v : Vector α) (xs : List α) (k : Nat)
    (x : α) (h : v.Holds xs k) (w : Vector α) (r : Nat)
    (hr : v.EmplaceBack E (some x) = .returned w r) :
    w.data_.capacity_ =
      if k = 0 then (if xs.length = 0 then 1 else xs.length * 2) else xs.length + k := by
  have hw := (Vector.EmplaceBack_returned_holds E v xs k x h w r hr).1.2.2
  simp only [List.length_append, List.length_singleton] at hw
  rw [hw]
  split
  · split <;> omega
  · omega

theorem Vector.EmplaceBack_result (E : Traits α) (v : Vector α) (args : Option α)
    (w : Vector α) (r : Nat) (h : v.EmplaceBack E args = .returned w r) :
    r = v.size_ ∧ ∃ x, args = some x := by
  cases args with
  | none => exact absurd h (Vector.EmplaceBack_none_not_returned E v w r)
  | some x =>
    refine ⟨?_, x, rfl⟩
    unfold Vector.EmplaceBack at h
    repeat' split at h
    all_goals first
      | (injection h with _ h2; exact h2.symm)
      | cases h

theorem GrowthCapacity.step (n k : Nat) (h : GrowthCapacity n (n + k)) :
    GrowthCapacity (n + 1)
      (if k = 0 then (if n = 0 then 1 else n * 2) else n + k) := by
  rcases h with ⟨h1, h2⟩ | ⟨e, he, h1, h2⟩
  · have hk : k = 0 := by omega
    subst h1 hk
    exact Or.inr ⟨0, by simp⟩
  · by_cases hk : k = 0
    · subst hk
      have hn : n ≠ 0 := by omega
      simp only [if_true, hn, if_false]
      refine Or.inr ⟨e + 1, ?_, ?_, ?_⟩
      · rw [Nat.pow_succ, ← he]; omega
      · omega
      · omega
    · simp only [hk, if_false]
      exact Or.inr ⟨e, he, by omega, by omega⟩

theorem Vector.EmplaceBackAll_capacity (E : Traits α) (values : List α) :
    ∀ (v : Vector α) (xs : List α) (k : Nat) (w : Vector α) (rs : List Nat),
      v.Holds xs k → GrowthCapacity xs.length (xs.length + k) →
      v.EmplaceBackAll E values = .returned w rs →
      GrowthCapacity (xs.length + values.length) w.data_.capacity_ := by
  induction values with
  | nil =>
    intro v xs k w rs h hg hr
    simp only [Vector.EmplaceBackAll, Outcome.returned.injEq] at hr
    obtain ⟨rfl, rfl⟩ := hr
    rw [h.2.2]
    simpa using hg
  | cons x rest ih =>
    intro v xs k w rs h hg hr
    simp only [Vector.EmplaceBackAll] at hr
    cases h1 : v.EmplaceBack E (some x) with
    | returned v1 r =>
      rw [h1] at hr
      simp only [] at hr
      obtain ⟨hv1, _⟩ := Vector.EmplaceBack_returned_holds E v xs k x h v1 r h1
      have hcap := Vector.EmplaceBack_capacity E v xs k x h v1 r h1
      have hg1 := GrowthCapacity.step xs.length k hg
      rw [← hcap, hv1.2.2] at hg1
      cases h2 : Vector.EmplaceBackAll E v1 rest with
      | returned v2 rs2 =>
        rw [h2] at hr
        simp only [Outcome.returned.injEq] at hr
        obtain ⟨rfl, rfl⟩ := hr
        have := ih v1 (xs ++ [x]) _ v2 rs2 hv1
          (by simpa [List.length_append] using hg1) h2
        simpa [List.length_append, Nat.add_assoc, Nat.add_comm 1] using this
      | thrown s => rw [h2] at hr; cases hr
      | undefined => rw [h2] at hr; cases hr
    | thrown s => rw [h1] at hr; cases hr
    | undefined => rw [h1] at hr; cases hr

theorem GrowthCapacity.least (n c : Nat) (hn : n ≠ 0) (h : GrowthCapacity n c) :
    c = 2 ^ Nat.clog 2 n ∧ n ≤ c ∧ ∀ e, n ≤ 2 ^ e → c ≤ 2 ^ e := by
  rcases h with ⟨h1, _⟩ | ⟨e, he, h1, h2⟩
  · exact absurd h1 hn
  · have hleast : ∀ e1, n ≤ 2 ^ e1 → c ≤ 2 ^ e1 := by
      intro e1 h3
      rw [he]
      apply Nat.pow_le_pow_right (by decide)
      by_contra hlt
      have h4 : e1 + 1 ≤ e := by omega
      have h5 : 2 ^ (e1 + 1) ≤ 2 ^ e := Nat.pow_le_pow_right (by decide) h4
      rw [Nat.pow_succ] at h5
      omega
    refine ⟨?_, h1, hleast⟩
    have h6 : c ≤ 2 ^ Nat.clog 2 n := hleast _ (Nat.le_pow_clog (by decide) n)
    have h7 : Nat.clog 2 n ≤ e := (Nat.le_pow_iff_clog_le (by decide)).mp (by rw [← he]; exact h1)
    have h8 : 2 ^ Nat.clog 2 n ≤ 2 ^ e := Nat.pow_le_pow_right (by decide) h7
    omega

theorem Vector.Emplace_at_end_eq (E : Traits α) (v : Vector α) (x : α) :
    v.Emplace E v.size_ (some x) = v.EmplaceBack E (some x) := by
  unfold Vector.Emplace Vector.EmplaceBack
  simp only [Nat.le_refl, if_true, ne_eq, not_true_eq_false, if_false, Nat.sub_self,
    uninitialized_move_n, uninitialized_copy_n]

theorem Vector.EmplaceBackAll_relocations (E : Traits α) (values : List α) :
    ∀ (v : Vector α) (xs : List α) (k : Nat) (w : Vector α) (rs : List Nat),
      v.Holds xs k → 1 ≤ xs.length + k →
      v.EmplaceBackAll E values = .returned w rs →
      v.EmplaceBackAllRelocations E values + (xs.length + k) = w.data_.capacity_ := by
  induction values with
  | nil =>
    intro v xs k w rs h _ hr
    simp only [Vector.EmplaceBackAll, Outcome.returned.injEq] at hr
    obtain ⟨rfl, rfl⟩ := hr
    simp only [Vector.EmplaceBackAllRelocations, Nat.zero_add]
    exact h.2.2.symm
  | cons x rest ih =>
    intro v xs k w rs h hpos hr
    simp only [Vector.EmplaceBackAll] at hr
    cases h1 : v.EmplaceBack E (some x) with
    | returned v1 r =>
      rw [h1] at hr
      simp only [] at hr
      obtain ⟨hv1, _⟩ := Vector.EmplaceBack_returned_holds E v xs k x h v1 r h1
      have hcap := Vector.EmplaceBack_capacity E v xs k x h v1 r h1
      cases h2 : Vector.EmplaceBackAll E v1 rest with
      | returned v2 rs2 =>
        rw [h2] at hr
        simp only [Outcome.returned.injEq] at hr
        obtain ⟨rfl, rfl⟩ := hr
        have hc1 := hv1.2.2
        have := ih v1 (xs ++ [x]) _ v2 rs2 hv1 (by rw [← hc1, hcap]; split <;> [split; skip] <;> omega) h2
        rw [← hc1, hcap] at this
        simp only [Vector.EmplaceBackAllRelocations, h1, Vector.EmplaceBackRelocations,
          Vector.Capacity, RawMemory.Capacity, h.2.1, h.2.2]
        rw [← this]
        by_cases hk : k = 0
        · subst hk
          have hn : xs.length ≠ 0 := by omega
          simp only [Nat.add_zero, if_true, hn, if_false]
          omega
        · have hne : ¬ xs.length = xs.length + k := by omega
          simp only [hk, hne, if_false]
          omega
      | thrown s => rw [h2] at hr; cases hr
      | undefined => rw [h2] at hr; cases hr
    | thrown s => rw [h1] at hr; cases hr
    | undefined => rw [h1] at hr; cases hr

theorem Vector.EmplaceBackAll_relocations_empty (E : Traits α) (values : List α)
    (w : Vector α) (rs : List Nat)
    (hr : (Vector.empty : Vector α).EmplaceBackAll E values = .returned w rs) :
    (values ≠ [] →
      (Vector.empty : Vector α).EmplaceBackAllRelocations E values + 1 = w.data_.capacity_) ∧
    (Vector.empty : Vector α).EmplaceBackAllRelocations E values ≤ 2 * values.length := by
  cases values with
  | nil =>
    exact ⟨fun h => absurd rfl h, by simp [Vector.EmplaceBackAllRelocations]⟩
  | cons x rest =>
    have hg := Vector.EmplaceBackAll_capacity E (x :: rest) Vector.empty [] 0 w rs
      Vector.empty_holds (Or.inl ⟨rfl, rfl⟩) hr
    have hbound : w.data_.capacity_ < 2 * (x :: rest).length := by
      rcases hg with ⟨h0, _⟩ | ⟨e, _, _, h2⟩
      · simp at h0
      · simpa using h2
    have hrun := hr
    simp only [Vector.EmplaceBackAll] at hrun
    cases h1 : (Vector.empty : Vector α).EmplaceBack E (some x) with
    | returned v1 r =>
      rw [h1] at hrun
      simp only [] at hrun
      obtain ⟨hv1, _⟩ :=
        Vector.EmplaceBack_returned_holds E Vector.empty [] 0 x Vector.empty_holds v1 r h1
      simp only [List.nil_append, List.length_nil, if_true, Nat.zero_add,
        Nat.sub_self] at hv1
      cases h2 : Vector.EmplaceBackAll E v1 rest with
      | returned v2 rs2 =>
        rw [h2] at hrun
        simp only [Outcome.returned.injEq] at hrun
        obtain ⟨rfl, rfl⟩ := hrun
        have := Vector.EmplaceBackAll_relocations E rest v1 [x] 0 v2 rs2 hv1 (by simp) h2
        simp only [List.length_singleton, Nat.add_zero] at this
        have hfirst : (Vector.empty : Vector α).EmplaceBackRelocations = 0 := by
          simp [Vector.EmplaceBackRelocations, Vector.empty]
        have htotal : (Vector.empty : Vector α).EmplaceBackAllRelocations E (x :: rest)
            = Vector.EmplaceBackAllRelocations E v1 rest := by
          simp only [Vector.EmplaceBackAllRelocations, h1, hfirst, Nat.zero_add]
        rw [htotal]
        exact ⟨fun _ => this, by omega⟩
      | thrown s => rw [h2] at hrun; cases hrun
      | undefined => rw [h2] at hrun; cases hrun
    | thrown s => rw [h1] at hrun; cases hrun
    | undefined => rw [h1] at hrun; cases hrun

theorem Vector.Emplace_inplace_mid_assign_throws (E : Traits α) (v : Vector α) (T D : List α)
    (l : α) (k : Nat) (x : α) (h : v.Holds (T ++ D ++ [l]) (k + 1))
    (hl : E.moveThrows l = false) (hD : ∀ y ∈ D, E.moveAssignThrows y = false)
    (hx : E.moveAssignThrows x = true) :
    v.Emplace E T.length (some x) = .thrown
      { data_ := v.data_.store
          ((T ++ (D.head?).elim (E.movedFrom l) E.movedFrom :: D).map some ++
            List.replicate (k + 1) none),
        size_ := T.length + D.length + 1 } := by
  obtain ⟨hcells, hsize, hcap⟩ := h
  simp only [List.length_append, List.length_singleton, List.map_append, List.map_cons,
    List.map_nil, List.replicate_succ] at hcells hsize hcap
  unfold Vector.Emplace
  rw [if_pos (by omega), if_neg (by simp only [Vector.Capacity, RawMemory.Capacity]; omega),
    if_pos (by omega)]
  simp only [hcells, hsize, Nat.add_sub_cancel]
  have e1 : List.map some T ++ List.map some D ++ [some l] ++ none :: List.replicate k none
      = (List.map some T ++ List.map some D) ++ some l :: (none :: List.replicate k none) := by
    simp
  rw [e1, readAt_mid _ l _ (T.length + D.length) (by simp)]
  simp only [hl, Bool.false_eq_true, if_false]
  rw [← e1, constructAt_mid _ none l _ (T.length + D.length + 1)
    (by simp only [List.length_append, List.length_map, List.length_singleton])]
  simp only []
  have e2 : List.map some T ++ List.map some D ++ [some l] ++ some l :: List.replicate k none
      = (List.map some T ++ List.map some D) ++ some l :: (some l :: List.replicate k none) := by
    simp
  rw [e2, set_mid _ (some l) _ _ (T.length + D.length) (by simp)]
  unfold move_backward
  rw [Nat.add_sub_cancel_left]
  have hloop := (moveBackwardLoop_shift_right E D.length D (List.map some T)
    (some l :: List.replicate k none) (E.movedFrom l) (T.length + D.length)
    (T.length + D.length + 1) _ rfl (by simp) rfl).mpr ⟨hD, rfl⟩
  rw [hloop]
  simp only []
  rw [readAt_mid _ _ _ T.length (by simp)]
  simp only [hx, if_true]
  have e3 : List.map some T ++ some ((D.head?).elim (E.movedFrom l) E.movedFrom) ::
        (List.map some D ++ some l :: List.replicate k none)
      = (List.map some T ++ some ((D.head?).elim (E.movedFrom l) E.movedFrom) ::
          List.map some D) ++ some l :: List.replicate k none := by
    simp
  rw [e3, destroyAt_mid _ l _ (T.length + D.length + 1) (by simp; omega)]
  simp only [List.map_append, List.map_cons, List.append_assoc, List.cons_append,
    List.replicate_succ]

theorem shifted_get (T D : List α) (z l : α) (i : Nat) :
    (i < T.length → (T ++ z :: D)[i]? = (T ++ D ++ [l])[i]?) ∧
    (T.length ≤ i → i + 1 < T.length + D.length + 1 →
      (T ++ z :: D)[i + 1]? = (T ++ D ++ [l])[i]?) := by
  constructor
  · intro hi
    rw [List.append_assoc, List.getElem?_append_left hi, List.getElem?_append_left hi]
  · intro h1 h2
    rw [List.append_assoc, List.getElem?_append_right (by omega),
      List.getElem?_append_right h1]
    have e : i + 1 - T.length = (i - T.length) + 1 := by omega
    rw [e, List.getElem?_cons_succ, List.getElem?_append_left (by omega)]

theorem split_last (xs : List α) (p : Nat) (hp : p < xs.length) :
    ∃ D l, xs = xs.take p ++ D ++ [l] ∧ (xs.take p).length = p ∧
      D.length + 1 = xs.length - p := by
  have hne : xs.drop p ≠ [] := by
    intro e
    have := congrArg List.length e
    simp at this; omega
  rcases List.eq_nil_or_concat (xs.drop p) with e | ⟨D, l, e⟩
  · exact absurd e hne
  · have hD : xs.drop p = D ++ [l] := by simpa using e
    refine ⟨D, l, ?_, by simp; omega, ?_⟩
    · rw [List.append_assoc, ← hD, List.take_append_drop]
    · have := congrArg List.length hD
      simp at this; omega

theorem Vector.Emplace_end_construction_throws (E : Traits α) (v : Vector α) (hinv : v.Inv)
    (hroom : v.size_ < v.Capacity) :
    destroyAt v.data_.cells v.size_ = none ∧ v.Emplace E v.size_ none = .undefined ∧
      v.EmplaceBack E none = .thrown v := by
  have hraw := hinv.2.2.2 v.size_ hroom (Nat.le_refl _)
  have hd : destroyAt v.data_.cells v.size_ = none := by
    simp [destroyAt, hraw]
  refine ⟨hd, ?_, ?_⟩
  · unfold Vector.Emplace
    rw [if_pos (Nat.le_refl _), if_neg (by omega), if_neg (by simp)]
    simp only [hd]
  · unfold Vector.EmplaceBack
    rw [if_neg (by omega)]

theorem RawMemory.AllocateRequest_exact (w sizeofT n : Nat) (hn : n ≠ 0)
    (hs : 1 ≤ sizeofT) (hfit : n * sizeofT < 2 ^ w) :
    RawMemory.AllocateRequest w sizeofT n = some (n * sizeofT) ∧
      RawMemory.requestedSlots w sizeofT n = n := by
  have h1 : RawMemory.AllocateRequest w sizeofT n = some (n * sizeofT) := by
    simp [RawMemory.AllocateRequest, hn, Nat.mod_eq_of_lt hfit]
  refine ⟨h1, ?_⟩
  simp only [RawMemory.requestedSlots, h1]
  exact Nat.mul_div_cancel n (by omega)

theorem Stored.RawMemory.moveAssign_leaks (h : Store α) (d s : Stored.RawMemory) (a : Nat)
    (_hd : d.buffer_ = some a) (ha : h.Allocated a) (hs : s.buffer_ ≠ some a) :
    (Stored.RawMemory.dtor
        (Stored.RawMemory.dtor h (Stored.RawMemory.moveAssign d s).1)
        (Stored.RawMemory.moveAssign d s).2).Allocated a ∧
      (Stored.RawMemory.moveAssign d s).1.buffer_ ≠ some a ∧
      (Stored.RawMemory.moveAssign d s).2.buffer_ ≠ some a := by
  refine ⟨?_, hs, by simp [Stored.RawMemory.moveAssign]⟩
  obtain ⟨m, hm⟩ := ha
  simp only [Stored.RawMemory.dtor, Stored.RawMemory.Deallocate, Stored.RawMemory.moveAssign,
    Store.delete]
  cases hb : s.buffer_ with
  | none => exact ⟨m, hm⟩
  | some b =>
    have hne : b ≠ a := by
      intro e
      rw [hb, e] at hs
      exact hs rfl
    exact ⟨m, by simp only [List.getElem?_set_ne hne, hm]⟩

theorem Store.Allocated.lt {h : Store α} {a : Nat} (ha : h.Allocated a) :
    a < h.blocks.length := by
  obtain ⟨m, hm⟩ := ha
  by_contra hlt
  rw [List.getElem?_eq_none (by omega)] at hm
  cases hm

theorem Store.allocated_iff_block (h : Store α) (a : Nat) :
    h.Allocated a ↔ ∃ m, h.block (some a) = some m := by
  unfold Store.Allocated Store.block
  constructor
  · rintro ⟨m, hm⟩
    exact ⟨m, by simp [hm]⟩
  · rintro ⟨m, hm⟩
    refine ⟨m, ?_⟩
    cases hb : h.blocks[a]? with
    | none => simp [hb] at hm
    | some b =>
      cases b with
      | none => simp [hb] at hm
      | some m1 =>
        simp only [hb, Option.join] at hm
        rw [← hm]
        rfl

theorem Store.block_new_old (h : Store α) (n a : Nat) (ha : a < h.blocks.length) :
    (h.new n).1.block (some a) = h.block (some a) := by
  simp only [Store.block, Store.new, List.getElem?_append_left ha]

theorem Store.block_new_fresh (h : Store α) (n : Nat) :
    (h.new n).1.block (some (h.new n).2) = some (List.replicate n none) := by
  simp only [Store.block, Store.new]
  rw [List.getElem?_append_right (Nat.le_refl _)]
  simp

theorem Store.block_write_ne (h : Store α) (a b : Nat) (m : Mem α) (hne : a ≠ b) :
    (h.write (some a) m).block (some b) = h.block (some b) := by
  simp only [Store.block, Store.write, List.getElem?_set_ne hne]

theorem Store.block_write_same (h : Store α) (a : Nat) (m : Mem α)
    (ha : a < h.blocks.length) : (h.write (some a) m).block (some a) = some m := by
  simp only [Store.block, Store.write, List.getElem?_set_self ha]
  rfl

theorem Store.block_delete_ne (h : Store α) (a b : Nat) (hne : a ≠ b) :
    (h.delete (some a)).block (some b) = h.block (some b) := by
  simp only [Store.block, Store.delete, List.getElem?_set_ne hne]

theorem Stored.Vector.view_write_other (h : Store α) (x : Stored.Vector) (q : Option Nat)
    (m : Mem α) (hne : ∀ a, q = some a → x.data_.buffer_ ≠ some a) :
    x.view (h.write q m) = x.view h := by
  cases q with
  | none => rfl
  | some a =>
    unfold Stored.Vector.view
    cases hb : x.data_.buffer_ with
    | none => rfl
    | some b =>
      have hab : a ≠ b := by
        intro e
        exact hne a rfl (by rw [hb, e])
      rw [Store.block_write_ne h a b m hab]

theorem Stored.Vector.view_delete_other (h : Store α) (x : Stored.Vector) (q : Option Nat)
    (hne : ∀ a, q = some a → x.data_.buffer_ ≠ some a) :
    x.view (h.delete q) = x.view h := by
  cases q with
  | none => rfl
  | some a =>
    unfold Stored.Vector.view
    cases hb : x.data_.buffer_ with
    | none => rfl
    | some b =>
      have hab : a ≠ b := by
        intro e
        exact hne a rfl (by rw [hb, e])
      rw [Store.block_delete_ne h a b hab]

theorem Stored.Vector.view_new (h : Store α) (x : Stored.Vector) (n : Nat) (hx : x.Valid h) :
    x.view (h.new n).1 = x.view h := by
  unfold Stored.Vector.view
  cases hb : x.data_.buffer_ with
  | none => rfl
  | some b => rw [Store.block_new_old h n b (hx b hb).lt]

theorem Stored.Vector.copyCtor_simulates (E : Traits α) (h : Store α) (p : Stored.Vector)
    (h1 : Store α) (c : Stored.Vector) (hv : p.Valid h)
    (hr : Stored.Vector.copyCtor E h p = .returned h1 c) :
    AdvancedVector.Vector.copyCtor E (p.view h) = .returned () (c.view h1) ∧
      p.view h1 = p.view h ∧ p.Valid h1 ∧ c.Valid h1 ∧
      (∀ a, c.data_.buffer_ = some a → p.data_.buffer_ ≠ some a) := by
  unfold Stored.Vector.copyCtor Stored.RawMemory.ofCapacity Stored.RawMemory.Allocate at hr
  by_cases hn : p.size_ = 0
  · simp only [hn, ne_eq, not_true_eq_false, if_false, uninitialized_copy_n,
      Outcome.returned.injEq] at hr
    obtain ⟨rfl, rfl⟩ := hr
    refine ⟨?_, rfl, hv, ?_, ?_⟩
    · simp only [AdvancedVector.Vector.copyCtor, Stored.Vector.view, hn, ofCapacity_eq,
        ne_eq, not_true_eq_false, false_and, if_false, uninitialized_copy_n]
      rfl
    · intro a ha
      cases ha
    · intro a ha
      cases ha
  · by_cases hb : E.badAlloc p.size_ = true
    · simp only [hn, ne_eq, not_false_eq_true, if_true, hb] at hr
      cases hr
    · have hb0 : E.badAlloc p.size_ = false := by simpa using hb
      simp only [hn, ne_eq, not_false_eq_true, if_true, hb0, Bool.false_eq_true,
        if_false] at hr
      have hsrc : (h.new p.size_).1.cells p.data_.buffer_ = h.cells p.data_.buffer_ := by
        unfold Store.cells
        cases hpb : p.data_.buffer_ with
        | none => rfl
        | some a => rw [Store.block_new_old h p.size_ a (hv a hpb).lt]
      have hdst : (h.new p.size_).1.cells (some (h.new p.size_).2)
          = List.replicate p.size_ none := by
        unfold Store.cells
        rw [Store.block_new_fresh]
        rfl
      rw [hsrc, hdst] at hr
      have hfresh : (h.new p.size_).2 = h.blocks.length := rfl
      have hlen : (h.new p.size_).2 < (h.new p.size_).1.blocks.length := by
        simp [Store.new]
      cases ho : uninitialized_copy_n E (h.cells p.data_.buffer_) 0 p.size_
          (List.replicate p.size_ none) 0 with
      | returned m u =>
        rw [ho] at hr
        simp only [Outcome.returned.injEq] at hr
        obtain ⟨rfl, rfl⟩ := hr
        have hdistinct : ∀ a, p.data_.buffer_ = some a → (h.new p.size_).2 ≠ a := by
          intro a ha e
          have := (hv a ha).lt
          rw [hfresh] at e
          omega
        have hview : p.view ((h.new p.size_).1.write (some (h.new p.size_).2) m)
            = p.view h := by
          rw [Stored.Vector.view_write_other _ p _ m
            (fun a ha hpa => hdistinct a hpa (by cases ha; rfl))]
          exact Stored.Vector.view_new h p p.size_ hv
        refine ⟨?_, hview, ?_, ?_, ?_⟩
        · have hcells : (p.view h).data_.cells = h.cells p.data_.buffer_ := rfl
          simp only [AdvancedVector.Vector.copyCtor, ofCapacity_eq]
          have hsz : (p.view h).size_ = p.size_ := rfl
          rw [hsz, if_neg (by simp [hb0])]
          simp only [cells_fresh, hcells, ho]
          simp only [Stored.Vector.view, Store.block_write_same _ _ m hlen, RawMemory.store,
            hn, ne_eq, not_false_eq_true, if_true, Option.map_some']
        · intro a ha
          rw [Store.allocated_iff_block]
          have hblock := congrArg (fun x => x.data_.buffer_) hview
          simp only [Stored.Vector.view, ha] at hblock
          rw [hblock]
          exact (Store.allocated_iff_block h a).mp (hv a ha)
        · intro a ha
          simp only [Option.some.injEq] at ha
          subst ha
          rw [Store.allocated_iff_block]
          exact ⟨m, Store.block_write_same _ _ m hlen⟩
        · intro a ha hpa
          simp only [Option.some.injEq] at ha
          exact hdistinct a hpa ha
      | thrown d => rw [ho] at hr; cases hr
      | undefined => rw [ho] at hr; cases hr

/-! ## The counted relocations are those of the loops -/

theorem uninitialized_copy_n_counted_erase (E : Traits α) (src : Mem α) (n : Nat) :
    ∀ (first : Nat) (dst : Mem α) (d_first : Nat),
      (uninitialized_copy_n_counted E src first n dst d_first).mapResult (fun _ => ())
        = uninitialized_copy_n E src first n dst d_first := by
  induction n with
  | zero => intro first dst d_first; rfl
  | succ k ih =>
    intro first dst d_first
    simp only [uninitialized_copy_n_counted, uninitialized_copy_n]
    cases readAt src first with
    | none => rfl
    | some x =>
      simp only []
      by_cases hx : E.copyThrows x = true
      · simp only [hx, if_true]; rfl
      · simp only [hx, Bool.false_eq_true, if_false]
        cases constructAt dst d_first x with
        | none => rfl
        | some dst1 =>
          simp only []
          rw [← ih (first + 1) dst1 (d_first + 1)]
          cases uninitialized_copy_n_counted E src (first + 1) k dst1 (d_first + 1) with
          | returned d c => rfl
          | thrown d =>
            simp only [Outcome.mapResult]
            cases destroyAt d d_first <;> rfl
          | undefined => rfl

theorem uninitialized_copy_n_counted_count (E : Traits α) (src : Mem α) (n : Nat) :
    ∀ (first : Nat) (dst : Mem α) (d_first : Nat) (d : Mem α) (c : Nat),
      uninitialized_copy_n_counted E src first n dst d_first = .returned d c → c = n := by
  induction n with
  | zero =>
    intro first dst d_first d c h
    simp only [uninitialized_copy_n_counted, Outcome.returned.injEq] at h
    exact h.2.symm
  | succ k ih =>
    intro first dst d_first d c h
    simp only [uninitialized_copy_n_counted] at h
    cases hr : readAt src first with
    | none => rw [hr] at h; cases h
    | some x =>
      rw [hr] at h
      simp only [] at h
      by_cases hx : E.copyThrows x = true
      · simp only [hx, if_true] at h; cases h
      · simp only [hx, Bool.false_eq_true, if_false] at h
        cases hc : constructAt dst d_first x with
        | none => rw [hc] at h; cases h
        | some dst1 =>
          rw [hc] at h
          simp only [] at h
          cases hl : uninitialized_copy_n_counted E src (first + 1) k dst1 (d_first + 1) with
          | returned d2 c2 =>
            rw [hl] at h
            simp only [Outcome.returned.injEq] at h
            have := ih _ _ _ _ _ hl
            have h2 := h.2
            omega
          | thrown d2 =>
            rw [hl] at h
            simp only [] at h
            cases hd : destroyAt d2 d_first <;> rw [hd] at h <;> cases h
          | undefined => rw [hl] at h; cases h

theorem uninitialized_move_n_counted_erase (E : Traits α) (n : Nat) :
    ∀ (src : Mem α) (first : Nat) (dst : Mem α) (d_first : Nat),
      (uninitialized_move_n_counted E src first n dst d_first).mapResult (fun _ => ())
        = uninitialized_move_n E src first n dst d_first := by
  induction n with
  | zero => intro src first dst d_first; rfl
  | succ k ih =>
    intro src first dst d_first
    simp only [uninitialized_move_n_counted, uninitialized_move_n]
    cases readAt src first with
    | none => rfl
    | some x =>
      simp only []
      by_cases hx : E.moveThrows x = true
      · simp only [hx, if_true]; rfl
      · simp only [hx, Bool.false_eq_true, if_false]
        cases constructAt dst d_first x with
        | none => rfl
        | some dst1 =>
          simp only []
          rw [← ih (src.set first (some (E.movedFrom x))) (first + 1) dst1 (d_first + 1)]
          cases uninitialized_move_n_counted E (src.set first (some (E.movedFrom x)))
              (first + 1) k dst1 (d_first + 1) with
          | returned d c => rfl
          | thrown d =>
            obtain ⟨s, d⟩ := d
            simp only [Outcome.mapResult]
            cases destroyAt d d_first <;> rfl
          | undefined => rfl

theorem uninitialized_move_n_counted_count (E : Traits α) (n : Nat) :
    ∀ (src : Mem α) (first : Nat) (dst : Mem α) (d_first : Nat) (d : Mem α × Mem α) (c : Nat),
      uninitialized_move_n_counted E src first n dst d_first = .returned d c → c = n := by
  induction n with
  | zero =>
    intro src first dst d_first d c h
    simp only [uninitialized_move_n_counted, Outcome.returned.injEq] at h
    exact h.2.symm
  | succ k ih =>
    intro src first dst d_first d c h
    simp only [uninitialized_move_n_counted] at h
    cases hr : readAt src first with
    | none => rw [hr] at h; cases h
    | some x =>
      rw [hr] at h
      simp only [] at h
      by_cases hx : E.moveThrows x = true
      · simp only [hx, if_true] at h; cases h
      · simp only [hx, Bool.false_eq_true, if_false] at h
        cases hc : constructAt dst d_first x with
        | none => rw [hc] at h; cases h
        | some dst1 =>
          rw [hc] at h
          simp only [] at h
          cases hl : uninitialized_move_n_counted E (src.set first (some (E.movedFrom x)))
              (first + 1) k dst1 (d_first + 1) with
          | returned d2 c2 =>
            rw [hl] at h
            simp only [Outcome.returned.injEq] at h
            have := ih _ _ _ _ _ _ hl
            have h2 := h.2
            omega
          | thrown d2 =>
            obtain ⟨s2, d2⟩ := d2
            rw [hl] at h
            simp only [] at h
            cases hd : destroyAt d2 d_first <;> rw [hd] at h <;> cases h
          | undefined => rw [hl] at h; cases h

theorem Vector.EmplaceBackCounted_erase (E : Traits α) (v : Vector α) (args : Option α) :
    (v.EmplaceBackCounted E args).mapResult Prod.fst = v.EmplaceBack E args := by
  unfold Vector.EmplaceBackCounted Vector.EmplaceBack
  by_cases hfull : v.size_ = v.Capacity
  · simp only [if_pos hfull]
    cases RawMemory.ofCapacity E (if v.size_ = 0 then 1 else v.size_ * 2) with
    | none => rfl
    | some new_data =>
      simp only []
      cases args with
      | none => rfl
      | some x =>
        simp only []
        cases constructAt new_data.cells v.size_ x with
        | none => rfl
        | some nd =>
          simp only []
          by_cases hm : E.relocateByMove = true
          · simp only [hm, if_true]
            rw [← uninitialized_move_n_counted_erase]
            cases uninitialized_move_n_counted E v.data_.cells 0 v.size_ nd 0 with
            | returned s c =>
              obtain ⟨src, dst⟩ := s
              simp only [Outcome.mapResult]
              cases destroy_n src 0 v.size_ <;> rfl
            | thrown s =>
              obtain ⟨src, dst⟩ := s
              simp only [Outcome.mapResult]
              cases destroyAt dst v.size_ <;> rfl
            | undefined => rfl
          · simp only [hm, Bool.false_eq_true, if_false]
            rw [← uninitialized_copy_n_counted_erase]
            cases uninitialized_copy_n_counted E v.data_.cells 0 v.size_ nd 0 with
            | returned dst c =>
              simp only [Outcome.mapResult]
              cases destroy_n v.data_.cells 0 v.size_ <;> rfl
            | thrown dst =>
              simp only [Outcome.mapResult]
              cases destroyAt dst v.size_ <;> rfl
            | undefined => rfl
  · simp only [if_neg hfull]
    cases args with
    | none => rfl
    | some x =>
      simp only []
      cases constructAt v.data_.cells v.size_ x <;> rfl

theorem Vector.EmplaceBackCounted_count (E : Traits α) (v : Vector α) (args : Option α)
    (w : Vector α) (r c : Nat) (h : v.EmplaceBackCounted E args = .returned w (r, c)) :
    c = v.EmplaceBackRelocations := by
  unfold Vector.EmplaceBackCounted at h
  unfold Vector.EmplaceBackRelocations
  by_cases hfull : v.size_ = v.Capacity
  · rw [if_pos hfull] at h
    rw [if_pos hfull]
    cases ho : RawMemory.ofCapacity E (if v.size_ = 0 then 1 else v.size_ * 2) with
    | none => rw [ho] at h; cases h
    | some new_data =>
      rw [ho] at h
      simp only [] at h
      cases args with
      | none => cases h
      | some x =>
        simp only [] at h
        cases hc : constructAt new_data.cells v.size_ x with
        | none => rw [hc] at h; cases h
        | some nd =>
          rw [hc] at h
          simp only [] at h
          by_cases hm : E.relocateByMove = true
          · simp only [hm, if_true] at h
            cases hl : uninitialized_move_n_counted E v.data_.cells 0 v.size_ nd 0 with
            | returned s c2 =>
              obtain ⟨src, dst⟩ := s
              rw [hl] at h
              simp only [] at h
              have hcount := uninitialized_move_n_counted_count E _ _ _ _ _ _ _ hl
              cases hd : destroy_n src 0 v.size_ with
              | none => rw [hd] at h; cases h
              | some m =>
                rw [hd] at h
                simp only [Outcome.returned.injEq, Prod.mk.injEq] at h
                have h2 := h.2.2
                omega
            | thrown s =>
              obtain ⟨src, dst⟩ := s
              rw [hl] at h
              simp only [] at h
              cases hd : destroyAt dst v.size_ <;> rw [hd] at h <;> cases h
            | undefined => rw [hl] at h; cases h
          · simp only [hm, Bool.false_eq_true, if_false] at h
            cases hl : uninitialized_copy_n_counted E v.data_.cells 0 v.size_ nd 0 with
            | returned dst c2 =>
              rw [hl] at h
              simp only [] at h
              have hcount := uninitialized_copy_n_counted_count E _ _ _ _ _ _ _ hl
              cases hd : destroy_n v.data_.cells 0 v.size_ with
              | none => rw [hd] at h; cases h
              | some m =>
                rw [hd] at h
                simp only [Outcome.returned.injEq, Prod.mk.injEq] at h
                have h2 := h.2.2
                omega
            | thrown dst =>
              rw [hl] at h
              simp only [] at h
              cases hd : destroyAt dst v.size_ <;> rw [hd] at h <;> cases h
            | undefined => rw [hl] at h; cases h
  · rw [if_neg hfull] at h
    rw [if_neg hfull]
    cases args with
    | none => cases h
    | some x =>
      simp only [] at h
      cases hc : constructAt v.data_.cells v.size_ x with
      | none => rw [hc] at h; cases h
      | some m =>
        rw [hc] at h
        simp only [Outcome.returned.injEq, Prod.mk.injEq] at h
        have h2 := h.2.2
        omega

theorem Vector.EmplaceBackAllCounted_erase (E : Traits α) (values : List α) :
    ∀ v : Vector α,
      (v.EmplaceBackAllCounted E values).mapResult Prod.fst = v.EmplaceBackAll E values := by
  induction values with
  | nil => intro v; rfl
  | cons x rest ih =>
    intro v
    simp only [Vector.EmplaceBackAllCounted, Vector.EmplaceBackAll]
    rw [← Vector.EmplaceBackCounted_erase]
    cases v.EmplaceBackCounted E (some x) with
    | returned v1 rc =>
      obtain ⟨r, c⟩ := rc
      simp only [Outcome.mapResult]
      rw [← ih v1]
      cases Vector.EmplaceBackAllCounted E v1 rest with
      | returned v2 rt => obtain ⟨rs, total⟩ := rt; rfl
      | thrown s => rfl
      | undefined => rfl
    | thrown s => rfl
    | undefined => rfl

theorem Vector.EmplaceBackAllCounted_total (E : Traits α) (values : List α) :
    ∀ (v w : Vector α) (rs : List Nat) (total : Nat),
      v.EmplaceBackAllCounted E values = .returned w (rs, total) →
      v.EmplaceBackAll E values = .returned w rs ∧
        total = v.EmplaceBackAllRelocations E values := by
  induction values with
  | nil =>
    intro v w rs total h
    simp only [Vector.EmplaceBackAllCounted, Outcome.returned.injEq, Prod.mk.injEq] at h
    obtain ⟨rfl, rfl, rfl⟩ := h
    exact ⟨rfl, rfl⟩
  | cons x rest ih =>
    intro v w rs total h
    have he := Vector.EmplaceBackCounted_erase E v (some x)
    simp only [Vector.EmplaceBackAllCounted] at h
    cases h1 : v.EmplaceBackCounted E (some x) with
    | returned v1 rc =>
      obtain ⟨r, c⟩ := rc
      rw [h1] at h he
      simp only [] at h
      simp only [Outcome.mapResult] at he
      have hc := Vector.EmplaceBackCounted_count E v (some x) v1 r c h1
      cases h2 : Vector.EmplaceBackAllCounted E v1 rest with
      | returned v2 rt =>
        obtain ⟨rs2, t2⟩ := rt
        rw [h2] at h
        simp only [Outcome.returned.injEq, Prod.mk.injEq] at h
        obtain ⟨rfl, rfl, rfl⟩ := h
        obtain ⟨hrun, ht⟩ := ih v1 v2 rs2 t2 h2
        simp only [Vector.EmplaceBackAll, Vector.EmplaceBackAllRelocations, ← he, hrun]
        exact ⟨trivial, by rw [hc, ht]⟩
      | thrown s => rw [h2] at h; cases h
      | undefined => rw [h2] at h; cases h
    | thrown s => rw [h1] at h; cases h
    | undefined => rw [h1] at h; cases h

theorem Vector.EmplaceBackAllCounted_returns (E : Traits α) (values : List α) (v w : Vector α)
    (rs : List Nat) (h : v.EmplaceBackAll E values = .returned w rs) :
    ∃ total, v.EmplaceBackAllCounted E values = .returned w (rs, total) := by
  have he := Vector.EmplaceBackAllCounted_erase E values v
  rw [h] at he
  cases hc : v.EmplaceBackAllCounted E values with
  | returned w2 rt =>
    obtain ⟨rs2, total⟩ := rt
    rw [hc] at he
    simp only [Outcome.mapResult, Outcome.returned.injEq] at he
    obtain ⟨rfl, rfl⟩ := he
    exact ⟨total, rfl⟩
  | thrown s => rw [hc] at he; cases he
  | undefined => rw [hc] at he; cases he

/-! ## Allocation with the byte count in `size_t` -/

theorem RawMemory.requestedSlots_le (w sizeofT n : Nat) :
    RawMemory.requestedSlots w sizeofT n ≤ n := by
  unfold RawMemory.requestedSlots RawMemory.AllocateRequest
  by_cases hn : n = 0
  · simp [hn]
  · simp only [hn, ne_eq, not_false_eq_true, if_true]
    rcases Nat.eq_zero_or_pos sizeofT with h0 | hpos
    · simp [h0]
    · calc (n * sizeofT % 2 ^ w) / sizeofT
          ≤ (n * sizeofT) / sizeofT := Nat.div_le_div_right (Nat.mod_le _ _)
        _ = n := Nat.mul_div_cancel n hpos

theorem RawMemory.requestedSlots_fits (w sizeofT n : Nat) (hs : 1 ≤ sizeofT)
    (hfit : n * sizeofT < 2 ^ w) : RawMemory.requestedSlots w sizeofT n = n := by
  by_cases hn : n = 0
  · simp [hn, RawMemory.requestedSlots, RawMemory.AllocateRequest]
  · exact (RawMemory.AllocateRequest_exact w sizeofT n hn hs hfit).2

/-- When the byte count does not wrap, the constructor `RawMemory(size_t)` with the byte
count in `size_t` arithmetic is the constructor that hands out the slots it is asked for. -/
theorem RawMemory.ofCapacitySized_eq (w sizeofT : Nat) (E : Traits α) (c : Nat)
    (h : RawMemory.requestedSlots w sizeofT c = c) :
    RawMemory.ofCapacitySized w sizeofT E c = RawMemory.ofCapacity E c := by
  unfold RawMemory.ofCapacitySized RawMemory.ofCapacity RawMemory.AllocateSized
    RawMemory.Allocate
  rw [h]

theorem Vector.ReserveSized_eq (w sizeofT : Nat) (E : Traits α) (v : Vector α) (k : Nat)
    (h : k ≤ v.data_.Capacity ∨ RawMemory.requestedSlots w sizeofT k = k) :
    v.ReserveSized w sizeofT E k = v.Reserve E k := by
  unfold Vector.ReserveSized Vector.Reserve
  rcases h with h | h
  · rw [if_pos h, if_pos h]
  · rw [RawMemory.ofCapacitySized_eq w sizeofT E k h]

theorem Vector.ResizeSized_eq (w sizeofT : Nat) (E : Traits α) (v : Vector α) (m : Nat)
    (h : m < v.size_ ∨ m ≤ v.data_.Capacity ∨ RawMemory.requestedSlots w sizeofT m = m) :
    v.ResizeSized w sizeofT E m = v.Resize E m := by
  unfold Vector.ResizeSized Vector.Resize
  by_cases hlt : m < v.size_
  · rw [if_pos hlt, if_pos hlt]
  · rw [if_neg hlt, if_neg hlt, Vector.ReserveSized_eq w sizeofT E v m (h.resolve_left hlt)]

theorem constructAt_length (m : Mem α) (i : Nat) (x : α) (m1 : Mem α)
    (h : constructAt m i x = some m1) : m1.length = m.length ∧ i < m.length := by
  unfold constructAt at h
  by_cases hi : i < m.length
  · rw [if_pos hi] at h
    injection h with h
    subst h
    exact ⟨by simp, hi⟩
  · rw [if_neg hi] at h
    cases h

theorem uninitialized_copy_n_length (E : Traits α) (src : Mem α) (n : Nat) :
    ∀ (first : Nat) (dst : Mem α) (d_first : Nat) (d : Mem α),
      uninitialized_copy_n E src first n dst d_first = .returned d () →
      d.length = dst.length ∧ (n ≠ 0 → d_first + n ≤ dst.length) := by
  induction n with
  | zero =>
    intro first dst d_first d h
    simp only [uninitialized_copy_n, Outcome.returned.injEq, and_true] at h
    subst h
    exact ⟨rfl, fun h => absurd rfl h⟩
  | succ k ih =>
    intro first dst d_first d h
    simp only [uninitialized_copy_n] at h
    cases hr : readAt src first with
    | none => rw [hr] at h; cases h
    | some x =>
      rw [hr] at h
      simp only [] at h
      by_cases hx : E.copyThrows x = true
      · simp only [hx, if_true] at h; cases h
      · simp only [hx, Bool.false_eq_true, if_false] at h
        cases hc : constructAt dst d_first x with
        | none => rw [hc] at h; cases h
        | some dst1 =>
          rw [hc] at h
          simp only [] at h
          obtain ⟨hl1, hi⟩ := constructAt_length dst d_first x dst1 hc
          cases hl : uninitialized_copy_n E src (first + 1) k dst1 (d_first + 1) with
          | returned d2 u =>
            rw [hl] at h
            simp only [Outcome.returned.injEq] at h
            obtain ⟨rfl, _⟩ := h
            obtain ⟨h1, h2⟩ := ih _ _ _ _ hl
            refine ⟨by rw [h1, hl1], fun _ => ?_⟩
            by_cases hk : k = 0
            · omega
            · have := h2 hk
              omega
          | thrown d2 =>
            rw [hl] at h
            simp only [] at h
            cases hd : destroyAt d2 d_first <;> rw [hd] at h <;> cases h
          | undefined => rw [hl] at h; cases h

theorem uninitialized_move_n_length (E : Traits α) (n : Nat) :
    ∀ (src : Mem α) (first : Nat) (dst : Mem α) (d_first : Nat) (s d : Mem α),
      uninitialized_move_n E src first n dst d_first = .returned (s, d) () →
      d.length = dst.length ∧ (n ≠ 0 → d_first + n ≤ dst.length) := by
  induction n with
  | zero =>
    intro src first dst d_first s d h
    simp only [uninitialized_move_n, Outcome.returned.injEq, Prod.mk.injEq, and_true] at h
    obtain ⟨_, rfl⟩ := h
    exact ⟨rfl, fun h => absurd rfl h⟩
  | succ k ih =>
    intro src first dst d_first s d h
    simp only [uninitialized_move_n] at h
    cases hr : readAt src first with
    | none => rw [hr] at h; cases h
    | some x =>
      rw [hr] at h
      simp only [] at h
      by_cases hx : E.moveThrows x = true
      · simp only [hx, if_true] at h; cases h
      · simp only [hx, Bool.false_eq_true, if_false] at h
        cases hc : constructAt dst d_first x with
        | none => rw [hc] at h; cases h
        | some dst1 =>
          rw [hc] at h
          simp only [] at h
          obtain ⟨hl1, hi⟩ := constructAt_length dst d_first x dst1 hc
          cases hl : uninitialized_move_n E (src.set first (some (E.movedFrom x))) (first + 1) k
              dst1 (d_first + 1) with
          | returned sd u =>
            obtain ⟨s2, d2⟩ := sd
            rw [hl] at h
            simp only [Outcome.returned.injEq, Prod.mk.injEq] at h
            obtain ⟨⟨rfl, rfl⟩, _⟩ := h
            obtain ⟨h1, h2⟩ := ih _ _ _ _ _ _ hl
            refine ⟨by rw [h1, hl1], fun _ => ?_⟩
            by_cases hk : k = 0
            · omega
            · have := h2 hk
              omega
          | thrown sd =>
            obtain ⟨s2, d2⟩ := sd
            rw [hl] at h
            simp only [] at h
            cases hd : destroyAt d2 d_first <;> rw [hd] at h <;> cases h
          | undefined => rw [hl] at h; cases h

theorem uninitialized_value_construct_n_room (E : Traits α) (n : Nat) :
    ∀ (m : Mem α) (first : Nat) (d : Mem α),
      uninitialized_value_construct_n E m first n = .returned d () →
      n ≠ 0 → first + n ≤ m.length := by
  induction n with
  | zero => intro m first d _ h; exact absurd rfl h
  | succ k ih =>
    intro m first d h _
    simp only [uninitialized_value_construct_n] at h
    cases hv : E.valueInit with
    | none => rw [hv] at h; cases h
    | some x =>
      rw [hv] at h
      simp only [] at h
      cases hc : constructAt m first x with
      | none => rw [hc] at h; cases h
      | some m1 =>
        rw [hc] at h
        simp only [] at h
        obtain ⟨hl1, hi⟩ := constructAt_length m first x m1 hc
        cases hl : uninitialized_value_construct_n E m1 (first + 1) k with
        | returned d2 u =>
          by_cases hk : k = 0
          · omega
          · have := ih _ _ _ hl hk
            omega
        | thrown d2 =>
          rw [hl] at h
          simp only [] at h
          cases hd : destroyAt d2 first <;> rw [hd] at h <;> cases h
        | undefined => rw [hl] at h; cases h

theorem RawMemory.ofCapacitySized_cells (w sizeofT : Nat) (E : Traits α) (c : Nat)
    (new_data : RawMemory α) (hc : c ≠ 0)
    (h : RawMemory.ofCapacitySized w sizeofT E c = some new_data) :
    new_data.cells = List.replicate (RawMemory.requestedSlots w sizeofT c) none ∧
      ∀ m, (new_data.store m).cells = m := by
  unfold RawMemory.ofCapacitySized RawMemory.AllocateSized at h
  rw [if_pos hc] at h
  by_cases hb : E.badAlloc c = true
  · rw [if_pos hb] at h; cases h
  · rw [if_neg hb] at h
    simp only [Option.some.injEq] at h
    subst h
    exact ⟨rfl, fun m => rfl⟩

theorem Vector.ReserveSized_block (w sizeofT : Nat) (E : Traits α) (v v1 : Vector α) (k : Nat)
    (hk : v.data_.Capacity < k) (h : v.ReserveSized w sizeofT E k = .returned v1 ()) :
    v1.data_.cells.length = RawMemory.requestedSlots w sizeofT k ∧ v1.size_ = v.size_ := by
  unfold Vector.ReserveSized at h
  rw [if_neg (by omega)] at h
  cases ho : RawMemory.ofCapacitySized w sizeofT E k with
  | none => rw [ho] at h; cases h
  | some new_data =>
    rw [ho] at h
    simp only [] at h
    obtain ⟨hfresh, hstore⟩ :=
      RawMemory.ofCapacitySized_cells w sizeofT E k new_data (by omega) ho
    by_cases hm : E.relocateByMove = true
    · simp only [hm, if_true] at h
      cases hl : uninitialized_move_n E v.data_.cells 0 v.size_ new_data.cells 0 with
      | returned sd u =>
        obtain ⟨src, dst⟩ := sd
        rw [hl] at h
        simp only [] at h
        cases hd : destroy_n src 0 v.size_ with
        | none => rw [hd] at h; cases h
        | some m0 =>
          rw [hd] at h
          simp only [Outcome.returned.injEq, and_true] at h
          subst h
          have := (uninitialized_move_n_length E _ _ _ _ _ _ _ hl).1
          simp only [hstore, this, hfresh, List.length_replicate, and_self]
      | thrown sd =>
        obtain ⟨src, dst⟩ := sd
        rw [hl] at h
        cases h
      | undefined => rw [hl] at h; cases h
    · simp only [hm, Bool.false_eq_true, if_false] at h
      cases hl : uninitialized_copy_n E v.data_.cells 0 v.size_ new_data.cells 0 with
      | returned dst u =>
        rw [hl] at h
        simp only [] at h
        cases hd : destroy_n v.data_.cells 0 v.size_ with
        | none => rw [hd] at h; cases h
        | some m0 =>
          rw [hd] at h
          simp only [Outcome.returned.injEq, and_true] at h
          subst h
          have := (uninitialized_copy_n_length E _ _ _ _ _ _ hl).1
          simp only [hstore, this, hfresh, List.length_replicate, and_self]
      | thrown dst => rw [hl] at h; cases h
      | undefined => rw [hl] at h; cases h

theorem Vector.ResizeSized_wrapped (w sizeofT : Nat) (E : Traits α) (v : Vector α) (m : Nat)
    (hsize : v.size_ ≤ v.data_.Capacity) (hm : v.data_.Capacity < m)
    (hwrap : RawMemory.requestedSlots w sizeofT m < m) (r : Vector α) :
    v.ResizeSized w sizeofT E m ≠ .returned r () := by
  intro h
  unfold Vector.ResizeSized at h
  rw [if_neg (by omega)] at h
  cases h1 : v.ReserveSized w sizeofT E m with
  | returned v1 u =>
    rw [h1] at h
    simp only [] at h
    obtain ⟨hlen, hsz⟩ := Vector.ReserveSized_block w sizeofT E v v1 m hm h1
    cases h2 : uninitialized_value_construct_n E v1.data_.cells v1.size_ (m - v1.size_) with
    | returned d u2 =>
      have := uninitialized_value_construct_n_room E _ _ _ _ h2 (by omega)
      omega
    | thrown d => rw [h2] at h; cases h
    | undefined => rw [h2] at h; cases h
  | thrown v1 => rw [h1] at h; cases h
  | undefined => rw [h1] at h; cases h

theorem Vector.Resize_spec (E : Traits α) (v : Vector α) (m : Nat) (hinv : v.Inv) :
    (∀ w, v.Resize E m = .returned w () →
      w.size_ = m ∧
      (m < v.size_ → w.elems = v.elems.take m ∧ w.Capacity = v.Capacity) ∧
      (v.size_ ≤ m → w.Capacity = max v.Capacity m ∧
        w.elems.map some = v.elems.map some ++ List.replicate (m - v.size_) E.valueInit ∧
        ∀ d, E.valueInit = some d → w.elems = v.elems ++ List.replicate (m - v.size_) d) ∧
      w.Inv) ∧
    ((m ≤ v.size_ ∨ E.NoThrow) → ∃ w, v.Resize E m = .returned w ()) := by
  have hh := hinv.holds
  have hsz := hh.2.1
  have hcap := hh.2.2
  obtain ⟨h1, h2⟩ := Vector.Resize_cases E v _ _ m hh
  refine ⟨?_, fun hc => h2 (by rw [← hsz]; exact hc)⟩
  intro w hr
  obtain ⟨ds, hw, hds, hall⟩ := h1 w hr
  have hdl : ds.length = m - v.elems.length := by
    have := congrArg List.length hds
    simpa using this
  have hwsz : w.size_ = m := by
    rw [hw.2.1, List.length_append, List.length_take, hdl]; omega
  have hwcap := hw.2.2
  simp only [List.length_append, List.length_take, hdl] at hwcap
  refine ⟨hwsz, ?_, ?_, hw.inv⟩
  · intro hlt
    have hd0 : ds = [] := List.length_eq_zero.mp (by omega)
    refine ⟨by rw [hw.elems_eq, hd0, List.append_nil], ?_⟩
    simp only [Vector.Capacity, RawMemory.Capacity]
    omega
  · intro hge
    have htake : v.elems.take m = v.elems := List.take_of_length_le (by omega)
    refine ⟨?_, ?_, ?_⟩
    · simp only [Vector.Capacity, RawMemory.Capacity]
      rw [hwcap, hcap]
      omega
    · rw [hw.elems_eq, htake, List.map_append, hds, hsz]
    · intro d hd
      rw [hw.elems_eq, htake, hall d hd, hsz]

/-! ## The members with the byte count in `size_t`, when the count does not wrap -/

theorem Vector.ofSizeSized_eq (w sizeofT : Nat) (E : Traits α) (n : Nat)
    (h : RawMemory.requestedSlots w sizeofT n = n) :
    Vector.ofSizeSized w sizeofT E n = Vector.ofSize E n := by
  unfold Vector.ofSizeSized Vector.ofSize
  rw [RawMemory.ofCapacitySized_eq w sizeofT E n h]

theorem Vector.ofSizeSized_wrapped (w sizeofT : Nat) (E : Traits α) (n : Nat)
    (hwrap : RawMemory.requestedSlots w sizeofT n < n) (r : Vector α) :
    Vector.ofSizeSized w sizeofT E n ≠ .returned () r := by
  intro h
  unfold Vector.ofSizeSized at h
  cases ho : RawMemory.ofCapacitySized w sizeofT E n with
  | none => rw [ho] at h; cases h
  | some data =>
    rw [ho] at h
    simp only [] at h
    obtain ⟨hfresh, _⟩ := RawMemory.ofCapacitySized_cells w sizeofT E n data (by omega) ho
    cases hl : uninitialized_value_construct_n E data.cells 0 n with
    | returned m u =>
      have := uninitialized_value_construct_n_room E _ _ _ _ hl (by omega)
      rw [hfresh, List.length_replicate] at this
      omega
    | thrown m => rw [hl] at h; cases h
    | undefined => rw [hl] at h; cases h

/-- The constructor `Vector(size_t)` that returns yields an array that satisfies the
invariant, whatever the width of `size_t`. -/
theorem Vector.ofSizeSized_inv (w sizeofT : Nat) (E : Traits α) (n : Nat) (r : Vector α)
    (h : Vector.ofSizeSized w sizeofT E n = .returned () r) : r.Inv := by
  by_cases hq : RawMemory.requestedSlots w sizeofT n = n
  · rw [Vector.ofSizeSized_eq w sizeofT E n hq] at h
    obtain ⟨ds, hds, _, _⟩ := Vector.ofSize_returned E n r h
    exact hds.inv
  · have hle := RawMemory.requestedSlots_le w sizeofT n
    exact absurd h (Vector.ofSizeSized_wrapped w sizeofT E n (by omega) r)

/-- On an array that satisfies the invariant, `Reserve(k)` within the capacity changes
nothing; beyond the capacity, when the byte count `k * sizeof(T)` does not wrap, a
`Reserve(k)` that returns makes the capacity `k`, keeps the count and the elements, and
yields an array that satisfies the invariant; it returns when nothing throws. -/
theorem Vector.ReserveSized_spec (w sizeofT : Nat) (E : Traits α) (v : Vector α) (k : Nat)
    (hinv : v.Inv) :
    (k ≤ v.Capacity → v.ReserveSized w sizeofT E k = .returned v ()) ∧
    (RawMemory.requestedSlots w sizeofT k = k →
      (∀ r, v.Capacity < k → v.ReserveSized w sizeofT E k = .returned r () →
        r.Capacity = k ∧ r.size_ = v.size_ ∧ r.elems = v.elems ∧ (∀ i, r.get i = v.get i) ∧
          r.Inv) ∧
      (E.NoThrow → ∃ r, v.ReserveSized w sizeofT E k = .returned r ())) := by
  have hh := hinv.holds
  obtain ⟨h1, h2⟩ := Vector.Reserve_cases E v _ _ k hh
  refine ⟨?_, ?_⟩
  · intro hk
    rw [Vector.ReserveSized_eq w sizeofT E v k (Or.inl hk)]
    exact Vector.Reserve_noop E v k hk
  · intro hq
    rw [Vector.ReserveSized_eq w sizeofT E v k (Or.inr hq)]
    refine ⟨?_, h2⟩
    intro r hk hr
    have hw := h1 r hr
    have hcap := hh.2.2
    have hsz := hh.2.1
    simp only [Vector.Capacity, RawMemory.Capacity] at hk
    rw [if_neg (by omega)] at hw
    refine ⟨?_, by rw [hw.2.1, hsz], hw.elems_eq, fun i => by rw [hw.get, hh.get], hw.inv⟩
    simp only [Vector.Capacity, RawMemory.Capacity]
    rw [hw.2.2]
    omega

/-- The invariant holds for every freshly constructed array and for the array left by
every member that returns, when it is applied to arrays satisfying the invariant; for
`Reserve` beyond the capacity this needs a byte count that does not wrap. -/
theorem Vector.invariant_preserved (w sizeofT : Nat) (E : Traits α) :
    (Vector.empty : Vector α).Inv ∧
    (∀ (n : Nat) (r : Vector α), Vector.ofSizeSized w sizeofT E n = .returned () r → r.Inv) ∧
    (∀ s r : Vector α, s.Inv → Vector.copyCtor E s = .returned () r → r.Inv) ∧
    (∀ s : Vector α, s.Inv → (Vector.moveCtor s).1.Inv ∧ (Vector.moveCtor s).2.Inv) ∧
    (∀ a b r : Vector α, a.Inv → b.Inv → a.copyAssign E b = .returned r () → r.Inv) ∧
    (∀ a b : Vector α, a.Inv → b.Inv → (a.moveAssign b).1.Inv ∧ (a.moveAssign b).2.Inv) ∧
    (∀ a b : Vector α, a.Inv → b.Inv → (a.Swap b).1.Inv ∧ (a.Swap b).2.Inv) ∧
    (∀ (v : Vector α) (k : Nat) (r : Vector α), v.Inv →
      (k ≤ v.Capacity ∨ RawMemory.requestedSlots w sizeofT k = k) →
      v.ReserveSized w sizeofT E k = .returned r () → r.Inv) ∧
    (∀ (v : Vector α) (m : Nat) (r : Vector α),
      v.Inv → v.ResizeSized w sizeofT E m = .returned r () → r.Inv) ∧
    (∀ (v : Vector α) (x : α) (r : Vector α),
      v.Inv → v.PushBack E x = .returned r () → r.Inv) ∧
    (∀ (v : Vector α) (x : α) (r : Vector α),
      v.Inv → v.PushBackMove E x = .returned r () → r.Inv) ∧
    (∀ (v : Vector α) (args : Option α) (r : Vector α) (i : Nat),
      v.Inv → v.EmplaceBack E args = .returned r i → r.Inv) ∧
    (∀ v r : Vector α, v.Inv → 0 < v.size_ → v.PopBack = .returned r () → r.Inv) ∧
    (∀ (v : Vector α) (p : Nat) (x : α) (r : Vector α) (i : Nat),
      v.Inv → p ≤ v.size_ → v.Insert E p x = .returned r i → r.Inv) ∧
    (∀ (v : Vector α) (p : Nat) (x : α) (r : Vector α) (i : Nat),
      v.Inv → p ≤ v.size_ → v.InsertMove E p x = .returned r i → r.Inv) ∧
    (∀ (v : Vector α) (p : Nat) (args : Option α) (r : Vector α) (i : Nat),
      v.Inv → p ≤ v.size_ → v.Emplace E p args = .returned r i → r.Inv) ∧
    (∀ (v : Vector α) (p : Nat) (r : Vector α) (i : Nat),
      v.Inv → p < v.size_ → v.Erase E p = .returned r i → r.Inv) := by
  refine ⟨Vector.empty_holds.inv, ?_, ?_, ?_, ?_, ?_, ?_, ?_, ?_, ?_, ?_, ?_, ?_, ?_, ?_, ?_, ?_⟩
  · intro n r h
    exact Vector.ofSizeSized_inv w sizeofT E n r h
  · intro s r hs h
    obtain ⟨_, _, hw⟩ := (Vector.copyCtor_returned E s _ _ hs.holds r).mp h
    rw [hw]
    exact (Vector.copyCtor_holds _).inv
  · intro s hs
    exact ⟨hs, Vector.empty_holds.inv⟩
  · intro a b r ha hb h
    exact ((Vector.copyAssign_cases E a b _ _ _ _ ha.holds hb.holds).1 r h).inv
  · intro a b ha hb
    exact ⟨hb, ha⟩
  · intro a b ha hb
    exact ⟨hb, ha⟩
  · intro v k r hv hq h
    rw [Vector.ReserveSized_eq w sizeofT E v k hq] at h
    exact ((Vector.Reserve_cases E v _ _ k hv.holds).1 r h).inv
  · intro v m r hv h
    by_cases hq : m < v.size_ ∨ m ≤ v.data_.Capacity ∨
        RawMemory.requestedSlots w sizeofT m = m
    · rw [Vector.ResizeSized_eq w sizeofT E v m hq] at h
      exact ((Vector.Resize_spec E v m hv).1 r h).2.2.2
    · have hle := RawMemory.requestedSlots_le w sizeofT m
      have hsc : v.size_ ≤ v.data_.Capacity := hv.2.1
      exact absurd h (Vector.ResizeSized_wrapped w sizeofT E v m hsc (by omega) (by omega) r)
  · intro v x r hv h
    obtain ⟨_, i, hr⟩ := (Vector.PushBack_returned E v r x).mp h
    exact Vector.EmplaceBack_inv E v _ r i hv hr
  · intro v x r hv h
    obtain ⟨i, hr⟩ := Vector.PushBackMove_returned E v r x h
    exact Vector.EmplaceBack_inv E v _ r i hv hr
  · intro v args r i hv h
    exact Vector.EmplaceBack_inv E v args r i hv h
  · intro v r hv hpos h
    have hh := hv.holds
    have hne : v.elems ≠ [] := by
      intro e
      have := hh.2.1
      rw [e] at this
      simp at this
      omega
    obtain ⟨xs, l, hxs⟩ : ∃ xs l, v.elems = xs ++ [l] := by
      rcases List.eq_nil_or_concat v.elems with e | ⟨xs, l, e⟩
      · exact absurd e hne
      · exact ⟨xs, l, by simpa using e⟩
    rw [hxs] at hh
    rw [Vector.PopBack_returned v xs l _ hh] at h
    simp only [Outcome.returned.injEq, and_true] at h
    subst h
    obtain ⟨hcells, hsize, hcap⟩ := hh
    refine @Vector.Holds.inv α _ xs (v.data_.capacity_ - v.size_ + 1) ⟨?_, rfl, ?_⟩
    · rw [cells_store _ _ (by rw [hcells]; simp)]
    · simp only [List.length_append, List.length_singleton] at hcap
      simp only [capacity_store]
      omega
  · intro v p x r i hv hp h
    exact Vector.Emplace_inv E v p _ r i hv hp h
  · intro v p x r i hv hp h
    exact Vector.Emplace_inv E v p _ r i hv hp h
  · intro v p args r i hv hp h
    exact Vector.Emplace_inv E v p args r i hv hp h
  · intro v p r i hv hp h
    have hh := hv.holds
    exact (Vector.Erase_returned_holds E v _ _ p hh (by rw [← hh.2.1]; exact hp) r i h).1.inv

/-! ## Mutations of arrays held by address -/

theorem RawMemory.store_isSome (r : RawMemory α) (m : Mem α) :
    (r.store m).buffer_.isSome = r.buffer_.isSome := by
  unfold RawMemory.store
  cases r.buffer_ <;> rfl

theorem RawMemory.ofCapacity_isSome (E : Traits α) (c : Nat) (new_data : RawMemory α)
    (hc : c ≠ 0) (h : RawMemory.ofCapacity E c = some new_data) :
    new_data.buffer_.isSome = true := by
  rw [ofCapacity_eq] at h
  by_cases hb : c ≠ 0 ∧ E.badAlloc c = true
  · rw [if_pos hb] at h; cases h
  · rw [if_neg hb] at h
    simp only [Option.some.injEq] at h
    subst h
    simp [hc]

theorem Vector.EmplaceBack_buffer (E : Traits α) (v : Vector α) (args : Option α)
    (w : Vector α) (r : Nat) (h : v.EmplaceBack E args = .returned w r) :
    w.data_.buffer_.isSome = (decide (v.size_ = v.Capacity) || v.data_.buffer_.isSome) := by
  have hc0 : (if v.size_ = 0 then 1 else v.size_ * 2) ≠ 0 := by split <;> omega
  unfold Vector.EmplaceBack at h
  by_cases hfull : v.size_ = v.Capacity
  · rw [if_pos hfull] at h
    simp only [hfull, decide_True, Bool.true_or]
    cases ho : RawMemory.ofCapacity E (if v.size_ = 0 then 1 else v.size_ * 2) with
    | none => rw [ho] at h; cases h
    | some new_data =>
      have hsome := RawMemory.ofCapacity_isSome E _ new_data hc0 ho
      rw [ho] at h
      simp only [] at h
      repeat' split at h
      all_goals (cases h <;> simp [RawMemory.store_isSome, hsome])
  · rw [if_neg hfull] at h
    simp only [hfull, decide_False, Bool.false_or]
    repeat' split at h
    all_goals (cases h <;> simp [RawMemory.store_isSome])

theorem Vector.Emplace_buffer (E : Traits α) (v : Vector α) (p : Nat) (args : Option α)
    (w : Vector α) (r : Nat) (h : v.Emplace E p args = .returned w r) :
    w.data_.buffer_.isSome = (decide (v.size_ = v.Capacity) || v.data_.buffer_.isSome) := by
  have hc0 : (if v.size_ = 0 then 1 else v.size_ * 2) ≠ 0 := by split <;> omega
  unfold Vector.Emplace at h
  by_cases hp : p ≤ v.size_
  · rw [if_pos hp] at h
    by_cases hfull : v.size_ = v.Capacity
    · rw [if_pos hfull] at h
      simp only [hfull, decide_True, Bool.true_or]
      cases ho : RawMemory.ofCapacity E (if v.size_ = 0 then 1 else v.size_ * 2) with
      | none => rw [ho] at h; cases h
      | some new_data =>
        have hsome := RawMemory.ofCapacity_isSome E _ new_data hc0 ho
        rw [ho] at h
        simp only [] at h
        repeat' split at h
        all_goals (cases h <;> simp [RawMemory.store_isSome, hsome])
    · rw [if_neg hfull] at h
      simp only [hfull, decide_False, Bool.false_or]
      repeat' split at h
      all_goals (cases h <;> simp [RawMemory.store_isSome])
  · rw [if_neg hp] at h
    cases h

theorem RawMemory.ofCapacitySized_isSome (w sizeofT : Nat) (E : Traits α) (c : Nat)
    (new_data : RawMemory α) (hc : c ≠ 0)
    (h : RawMemory.ofCapacitySized w sizeofT E c = some new_data) :
    new_data.buffer_.isSome = true := by
  unfold RawMemory.ofCapacitySized RawMemory.AllocateSized at h
  rw [if_pos hc] at h
  by_cases hb : E.badAlloc c = true
  · rw [if_pos hb] at h; cases h
  · rw [if_neg hb] at h
    simp only [Option.some.injEq] at h
    subst h
    rfl

theorem Vector.ReserveSized_buffer (ws sizeofT : Nat) (E : Traits α) (v : Vector α) (k : Nat)
    (w : Vector α) (h : v.ReserveSized ws sizeofT E k = .returned w ()) :
    w.data_.buffer_.isSome = (decide (v.Capacity < k) || v.data_.buffer_.isSome) := by
  unfold Vector.ReserveSized at h
  by_cases hk : k ≤ v.data_.Capacity
  · rw [if_pos hk] at h
    injection h with h1 h2
    subst h1
    have : ¬ v.Capacity < k := by simp only [Vector.Capacity]; omega
    simp only [this, decide_False, Bool.false_or]
  · rw [if_neg hk] at h
    have : v.Capacity < k := by simp only [Vector.Capacity]; omega
    simp only [this, decide_True, Bool.true_or]
    cases ho : RawMemory.ofCapacitySized ws sizeofT E k with
    | none => rw [ho] at h; cases h
    | some new_data =>
      have hsome := RawMemory.ofCapacitySized_isSome ws sizeofT E _ new_data (by omega) ho
      rw [ho] at h
      simp only [] at h
      repeat' split at h
      all_goals (cases h <;> simp [RawMemory.store_isSome, hsome])

theorem Vector.mutate_buffer (ws sizeofT : Nat) (E : Traits α) (v : Vector α)
    (mu : Mutation α) (w : Vector α) (h : v.mutate ws sizeofT E mu = .returned w ()) :
    w.data_.buffer_.isSome = (v.reallocates mu || v.data_.buffer_.isSome) := by
  cases mu with
  | PushBack value =>
    simp only [Vector.mutate, Vector.PushBack] at h
    cases he : v.EmplaceBack E (E.copyCtor value) with
    | returned s r =>
      rw [he] at h
      simp only [Outcome.returned.injEq, and_true] at h
      subst h
      exact Vector.EmplaceBack_buffer E v _ s r he
    | thrown s => rw [he] at h; cases h
    | undefined => rw [he] at h; cases h
  | Insert position value =>
    simp only [Vector.mutate, Vector.Insert] at h
    cases he : v.Emplace E position (E.copyCtor value) with
    | returned s r =>
      rw [he] at h
      simp only [Outcome.mapResult, Outcome.returned.injEq, and_true] at h
      subst h
      exact Vector.Emplace_buffer E v position _ s r he
    | thrown s => rw [he] at h; cases h
    | undefined => rw [he] at h; cases h
  | Erase position =>
    simp only [Vector.mutate, Vector.Erase] at h
    simp only [Vector.reallocates, Bool.false_or]
    repeat' split at h
    all_goals (try simp only [Outcome.mapResult] at h)
    all_goals (cases h <;> simp [RawMemory.store_isSome])
  | Resize new_size =>
    simp only [Vector.mutate, Vector.ResizeSized] at h
    by_cases hlt : new_size < v.size_
    · rw [if_pos hlt] at h
      have : ¬ (v.size_ ≤ new_size ∧ v.Capacity < new_size) := by omega
      simp only [Vector.reallocates, this, decide_False, Bool.false_or]
      repeat' split at h
      all_goals (cases h <;> simp [RawMemory.store_isSome])
    · rw [if_neg hlt] at h
      have hge : v.size_ ≤ new_size := by omega
      simp only [Vector.reallocates, hge, true_and]
      cases hr : v.ReserveSized ws sizeofT E new_size with
      | returned v1 u =>
        rw [hr] at h
        simp only [] at h
        have hb := Vector.ReserveSized_buffer ws sizeofT E v new_size v1 hr
        repeat' split at h
        all_goals (cases h <;> simp [RawMemory.store_isSome, hb])
      | thrown s => rw [hr] at h; cases h
      | undefined => rw [hr] at h; cases h
  | Assign index value =>
    simp only [Vector.mutate, Vector.assignAt] at h
    simp only [Vector.reallocates, Bool.false_or]
    repeat' split at h
    all_goals (cases h <;> simp [RawMemory.store_isSome])

theorem Vector.eq_of_buffer_some (w : Vector α) (h : w.data_.buffer_.isSome = true) :
    ({ data_ := { buffer_ := some w.data_.cells, capacity_ := w.data_.capacity_ },
       size_ := w.size_ } : Vector α) = w := by
  obtain ⟨⟨b, c⟩, s⟩ := w
  cases b with
  | none => cases h
  | some m => rfl

theorem Vector.eq_of_buffer_none (w : Vector α) (h : w.data_.buffer_.isSome = false) :
    ({ data_ := { buffer_ := none, capacity_ := w.data_.capacity_ },
       size_ := w.size_ } : Vector α) = w := by
  obtain ⟨⟨b, c⟩, s⟩ := w
  cases b with
  | none => rfl
  | some m => cases h

theorem Stored.Vector.valid_of_view_eq (h h1 : Store α) (b : Stored.Vector) (hb : b.Valid h)
    (hv : b.view h1 = b.view h) : b.Valid h1 := by
  intro y hy
  rw [Store.allocated_iff_block]
  have hblock := congrArg (fun x => x.data_.buffer_) hv
  simp only [Stored.Vector.view, hy] at hblock
  rw [hblock]
  exact (Store.allocated_iff_block h y).mp (hb y hy)

theorem Store.delete_write (h : Store α) (q : Option Nat) (m : Mem α) :
    (h.write q m).delete q = h.delete q := by
  cases q with
  | none => rfl
  | some a => simp [Store.write, Store.delete]

theorem Stored.RawMemory.ofCapacity_on_store (E : Traits α) (h : Store α) (c : Nat) :
    Stored.RawMemory.ofCapacity E h c =
      if c ≠ 0 ∧ E.badAlloc c = true then none
      else if c ≠ 0 then some ((h.new c).1, { buffer_ := some (h.new c).2, capacity_ := c })
      else some (h, { buffer_ := none, capacity_ := c }) := by
  unfold Stored.RawMemory.ofCapacity Stored.RawMemory.Allocate
  by_cases hc : c = 0
  · simp [hc]
  · by_cases hb : E.badAlloc c = true
    · simp [hc, hb]
    · simp [hc, hb]

theorem Store.cells_new_old (h : Store α) (n : Nat) (p : Stored.Vector) (hv : p.Valid h) :
    (h.new n).1.cells p.data_.buffer_ = h.cells p.data_.buffer_ := by
  unfold Store.cells
  cases hpb : p.data_.buffer_ with
  | none => rfl
  | some a => rw [Store.block_new_old h n a (hv a hpb).lt]

theorem Store.cells_new_fresh (h : Store α) (n : Nat) :
    (h.new n).1.cells (some (h.new n).2) = List.replicate n none := by
  unfold Store.cells
  rw [Store.block_new_fresh]
  rfl

theorem Stored.Vector.commitNew_eq (h : Store α) (p : Stored.Vector) (c : Nat)
    (dst src1 : Mem α) (n : Nat) (hlen : dst.length = c) :
    ((Stored.RawMemory.dtor (((h.new c).1.write (some (h.new c).2) dst).write p.data_.buffer_ src1)
        p.data_,
      ({ data_ := { buffer_ := some (h.new c).2, capacity_ := c }, size_ := n } : Stored.Vector))
      : Store α × Stored.Vector) =
      Stored.Vector.commitNew h p
        { data_ := { buffer_ := some dst, capacity_ := c }, size_ := n } := by
  unfold Stored.Vector.commitNew Stored.RawMemory.dtor Stored.RawMemory.Deallocate
  simp only [AdvancedVector.RawMemory.cells, Option.getD_some, hlen, Store.delete_write]

theorem Stored.Vector.commitInPlace_eq (h : Store α) (p : Stored.Vector) (m : Mem α) (n : Nat)
    (hv : p.Valid h) :
    ((h.write p.data_.buffer_ m, ({ data_ := p.data_, size_ := n } : Stored.Vector))
      : Store α × Stored.Vector) =
      Stored.Vector.commitInPlace h p { data_ := (p.view h).data_.store m, size_ := n } := by
  unfold Stored.Vector.commitInPlace
  obtain ⟨⟨pb, pc⟩, ps⟩ := p
  cases pb with
  | none => rfl
  | some a =>
    obtain ⟨m0, hm0⟩ := (Store.allocated_iff_block h a).mp (hv a rfl)
    simp only [Stored.Vector.view, AdvancedVector.RawMemory.store, AdvancedVector.RawMemory.cells,
      hm0, Option.map_some', Option.getD_some]

theorem Stored.Vector.EmplaceBack_lift (E : Traits α) (h : Store α) (p : Stored.Vector)
    (args : Option α) (hv : p.Valid h) :
    (Stored.Vector.EmplaceBack E h p args).returnedPart =
      (((p.view h).EmplaceBack E args).returnedPart).map (fun x =>
        (if p.size_ = p.data_.capacity_ then Stored.Vector.commitNew h p x.1
         else Stored.Vector.commitInPlace h p x.1, x.2)) := by
  have hc0 : (if p.size_ = 0 then 1 else p.size_ * 2) ≠ 0 := by split <;> omega
  have hsz : (p.view h).size_ = p.size_ := rfl
  have hcap : (p.view h).Capacity = p.data_.capacity_ := rfl
  have hcells : (p.view h).data_.cells = h.cells p.data_.buffer_ := rfl
  unfold Stored.Vector.EmplaceBack AdvancedVector.Vector.EmplaceBack
  rw [hsz, hcap, hcells]
  by_cases hfull : p.size_ = p.data_.capacity_
  · simp only [if_pos hfull]
    generalize hc : (if p.size_ = 0 then 1 else p.size_ * 2) = c at hc0
    by_cases hb : E.badAlloc c = true
    · simp [Stored.RawMemory.ofCapacity_on_store, AdvancedVector.ofCapacity_eq, hc0, hb,
        Outcome.returnedPart]
    · have hS : Stored.RawMemory.ofCapacity E h c
          = some ((h.new c).1, { buffer_ := some (h.new c).2, capacity_ := c }) := by
        rw [Stored.RawMemory.ofCapacity_on_store]; simp [hc0, hb]
      have hC : AdvancedVector.RawMemory.ofCapacity E c
          = some { buffer_ := some (List.replicate c none), capacity_ := c } := by
        rw [AdvancedVector.ofCapacity_eq]; simp [hc0, hb]
      simp only [hS, hC, AdvancedVector.RawMemory.cells, Option.getD_some, Store.cells_new_fresh,
        Store.cells_new_old h c p hv]
      cases args with
      | none => rfl
      | some x =>
        simp only []
        cases hcon : constructAt (List.replicate c none) p.size_ x with
        | none => rfl
        | some nd =>
          simp only []
          have hnd : nd.length = c := by
            rw [(constructAt_length _ _ _ _ hcon).1, List.length_replicate]
          by_cases hm : E.relocateByMove = true
          · simp only [hm, if_true]
            cases hl : uninitialized_move_n E (h.cells p.data_.buffer_) 0 p.size_ nd 0 with
            | returned sd u =>
              obtain ⟨src, dst⟩ := sd
              simp only []
              have hdl : dst.length = c := by
                rw [(uninitialized_move_n_length E _ _ _ _ _ _ _ hl).1, hnd]
              cases hd : destroy_n src 0 p.size_ with
              | none => rfl
              | some src1 =>
                simp only [Outcome.returnedPart, Option.map_some', Option.some.injEq,
                  Prod.mk.injEq, and_true]
                exact Stored.Vector.commitNew_eq h p c dst src1 _ hdl
            | thrown sd =>
              obtain ⟨src, dst⟩ := sd
              simp only []
              cases destroyAt dst p.size_ <;> rfl
            | undefined => rfl
          · simp only [hm, Bool.false_eq_true, if_false]
            cases hl : uninitialized_copy_n E (h.cells p.data_.buffer_) 0 p.size_ nd 0 with
            | returned dst u =>
              simp only []
              have hdl : dst.length = c := by
                rw [(uninitialized_copy_n_length E _ _ _ _ _ _ hl).1, hnd]
              cases hd : destroy_n (h.cells p.data_.buffer_) 0 p.size_ with
              | none => rfl
              | some src1 =>
                simp only [Outcome.returnedPart, Option.map_some', Option.some.injEq,
                  Prod.mk.injEq, and_true]
                exact Stored.Vector.commitNew_eq h p c dst src1 _ hdl
            | thrown dst =>
              simp only []
              cases destroyAt dst p.size_ <;> rfl
            | undefined => rfl
  · simp only [if_neg hfull]
    cases args with
    | none => rfl
    | some x =>
      simp only []
      cases hcon : constructAt (h.cells p.data_.buffer_) p.size_ x with
      | none => rfl
      | some m =>
        simp only [Outcome.returnedPart, Option.map_some', Option.some.injEq, Prod.mk.injEq,
          and_true]
        exact Stored.Vector.commitInPlace_eq h p m _ hv

theorem uninitialized_value_construct_n_length (E : Traits α) (n : Nat) :
    ∀ (m : Mem α) (first : Nat) (d : Mem α),
      uninitialized_value_construct_n E m first n = .returned d () → d.length = m.length := by
  induction n with
  | zero =>
    intro m first d h
    simp only [uninitialized_value_construct_n, Outcome.returned.injEq, and_true] at h
    rw [h]
  | succ k ih =>
    intro m first d h
    simp only [uninitialized_value_construct_n] at h
    cases hv : E.valueInit with
    | none => rw [hv] at h; cases h
    | some x =>
      rw [hv] at h
      simp only [] at h
      cases hc : constructAt m first x with
      | none => rw [hc] at h; cases h
      | some m1 =>
        rw [hc] at h
        simp only [] at h
        obtain ⟨hl1, _⟩ := constructAt_length m first x m1 hc
        cases hl : uninitialized_value_construct_n E m1 (first + 1) k with
        | returned d2 u =>
          rw [hl] at h
          simp only [Outcome.returned.injEq, and_true] at h
          subst h
          rw [ih _ _ _ hl, hl1]
        | thrown d2 =>
          rw [hl] at h
          simp only [] at h
          cases hd : destroyAt d2 first <;> rw [hd] at h <;> cases h
        | undefined => rw [hl] at h; cases h

theorem Stored.Vector.PushBack_lift (E : Traits α) (h : Store α) (p : Stored.Vector)
    (value : α) (hv : p.Valid h) :
    (Stored.Vector.PushBack E h p value).returnedPart =
      (((p.view h).PushBack E value).returnedPart).map (fun x =>
        (if p.size_ = p.data_.capacity_ then Stored.Vector.commitNew h p x.1
         else Stored.Vector.commitInPlace h p x.1, x.2)) := by
  have hl := Stored.Vector.EmplaceBack_lift E h p (E.copyCtor value) hv
  unfold Stored.Vector.PushBack AdvancedVector.Vector.PushBack
  cases h1 : Stored.Vector.EmplaceBack E h p (E.copyCtor value) <;>
    cases h2 : (p.view h).EmplaceBack E (E.copyCtor value) <;>
    rw [h1, h2] at hl <;>
    simp only [Outcome.returnedPart, Option.map_some', Option.map_none', Option.some.injEq,
      Prod.mk.injEq, reduceCtorEq] at hl ⊢
  exact ⟨hl.1, trivial⟩

theorem Stored.Vector.Emplace_lift (E : Traits α) (h : Store α) (p : Stored.Vector)
    (position : Nat) (args : Option α) (hv : p.Valid h) :
    (Stored.Vector.Emplace E h p position args).returnedPart =
      (((p.view h).Emplace E position args).returnedPart).map (fun x =>
        (if p.size_ = p.data_.capacity_ then Stored.Vector.commitNew h p x.1
         else Stored.Vector.commitInPlace h p x.1, x.2)) := by
  have hc0 : (if p.size_ = 0 then 1 else p.size_ * 2) ≠ 0 := by split <;> omega
  have hsz : (p.view h).size_ = p.size_ := rfl
  have hcap : (p.view h).Capacity = p.data_.capacity_ := rfl
  have hcells : (p.view h).data_.cells = h.cells p.data_.buffer_ := rfl
  unfold Stored.Vector.Emplace AdvancedVector.Vector.Emplace
  rw [hsz, hcap, hcells]
  by_cases hp : position ≤ p.size_
  · simp only [if_pos hp]
    by_cases hfull : p.size_ = p.data_.capacity_
    · simp only [if_pos hfull]
      generalize hc : (if p.size_ = 0 then 1 else p.size_ * 2) = c at hc0
      by_cases hb : E.badAlloc c = true
      · simp [Stored.RawMemory.ofCapacity_on_store, AdvancedVector.ofCapacity_eq, hc0, hb,
          Outcome.returnedPart]
      · have hS : Stored.RawMemory.ofCapacity E h c
            = some ((h.new c).1, { buffer_ := some (h.new c).2, capacity_ := c }) := by
          rw [Stored.RawMemory.ofCapacity_on_store]; simp [hc0, hb]
        have hC : AdvancedVector.RawMemory.ofCapacity E c
            = some { buffer_ := some (List.replicate c none), capacity_ := c } := by
          rw [AdvancedVector.ofCapacity_eq]; simp [hc0, hb]
        simp only [hS, hC, AdvancedVector.RawMemory.cells, Option.getD_some,
          Store.cells_new_fresh, Store.cells_new_old h c p hv]
        cases args with
        | none => rfl
        | some x =>
          simp only []
          cases hcon : constructAt (List.replicate c none) position x with
          | none => rfl
          | some nd =>
            simp only []
            have hnd : nd.length = c := by
              rw [(constructAt_length _ _ _ _ hcon).1, List.length_replicate]
            by_cases hm : E.relocateByMove = true
            · simp only [hm, if_true]
              cases hl : uninitialized_move_n E (h.cells p.data_.buffer_) 0 position nd 0 with
              | returned sd u =>
                obtain ⟨src, dst⟩ := sd
                simp only []
                have hdl : dst.length = c := by
                  rw [(uninitialized_move_n_length E _ _ _ _ _ _ _ hl).1, hnd]
                cases hl2 : uninitialized_move_n E src position (p.size_ - position) dst
                    (position + 1) with
                | returned sd2 u2 =>
                  obtain ⟨src1, dst1⟩ := sd2
                  simp only []
                  have hdl1 : dst1.length = c := by
                    rw [(uninitialized_move_n_length E _ _ _ _ _ _ _ hl2).1, hdl]
                  cases hd : destroy_n src1 0 p.size_ with
                  | none => rfl
                  | some src2 =>
                    simp only [Outcome.returnedPart, Option.map_some', Option.some.injEq,
                      Prod.mk.injEq, and_true]
                    exact Stored.Vector.commitNew_eq h p c dst1 src2 _ hdl1
                | thrown sd2 =>
                  obtain ⟨src1, dst1⟩ := sd2
                  simp only []
                  cases destroy_n src1 0 (position + 1) <;> rfl
                | undefined => rfl
              | thrown sd =>
                obtain ⟨src, dst⟩ := sd
                simp only []
                cases destroyAt dst position <;> rfl
              | undefined => rfl
            · simp only [hm, Bool.false_eq_true, if_false]
              cases hl : uninitialized_copy_n E (h.cells p.data_.buffer_) 0 position nd 0 with
              | returned dst u =>
                simp only []
                have hdl : dst.length = c := by
                  rw [(uninitialized_copy_n_length E _ _ _ _ _ _ hl).1, hnd]
                cases hl2 : uninitialized_copy_n E (h.cells p.data_.buffer_) position
                    (p.size_ - position) dst (position + 1) with
                | returned dst1 u2 =>
                  simp only []
                  have hdl1 : dst1.length = c := by
                    rw [(uninitialized_copy_n_length E _ _ _ _ _ _ hl2).1, hdl]
                  cases hd : destroy_n (h.cells p.data_.buffer_) 0 p.size_ with
                  | none => rfl
                  | some src2 =>
                    simp only [Outcome.returnedPart, Option.map_some', Option.some.injEq,
                      Prod.mk.injEq, and_true]
                    exact Stored.Vector.commitNew_eq h p c dst1 src2 _ hdl1
                | thrown dst1 =>
                  simp only []
                  cases destroy_n (h.cells p.data_.buffer_) 0 (position + 1) <;> rfl
                | undefined => rfl
              | thrown dst =>
                simp only []
                cases destroyAt dst position <;> rfl
              | undefined => rfl
    · simp only [if_neg hfull]
      by_cases hpe : position = p.size_
      · simp only [hpe, ne_eq, not_true_eq_false, if_false]
        cases args with
        | none =>
          simp only []
          cases destroyAt (h.cells p.data_.buffer_) p.size_ <;> rfl
        | some x =>
          simp only []
          cases hcon : constructAt (h.cells p.data_.buffer_) p.size_ x with
          | none => rfl
          | some m =>
            simp only [Outcome.returnedPart, Option.map_some', Option.some.injEq,
              Prod.mk.injEq, and_true]
            exact Stored.Vector.commitInPlace_eq h p m _ hv
      · simp only [hpe, ne_eq, not_false_eq_true, if_true]
        cases args with
        | none => rfl
        | some temp =>
          simp only []
          cases readAt (h.cells p.data_.buffer_) (p.size_ - 1) with
          | none => rfl
          | some l =>
            simp only []
            by_cases hmt : E.moveThrows l = true
            · simp only [hmt, if_true]; rfl
            · simp only [hmt, Bool.false_eq_true, if_false]
              cases constructAt (h.cells p.data_.buffer_) p.size_ l with
              | none => rfl
              | some m0 =>
                simp only []
                cases move_backward E (m0.set (p.size_ - 1) (some (E.movedFrom l))) position
                    (p.size_ - 1) p.size_ with
                | returned m2 u =>
                  simp only []
                  cases readAt m2 position with
                  | none => rfl
                  | some y =>
                    simp only []
                    by_cases hat : E.moveAssignThrows temp = true
                    · simp only [hat, if_true]
                      cases destroyAt m2 p.size_ <;> rfl
                    · simp only [hat, Bool.false_eq_true, if_false, Outcome.returnedPart,
                        Option.map_some', Option.some.injEq, Prod.mk.injEq, and_true]
                      exact Stored.Vector.commitInPlace_eq h p _ _ hv
                | thrown m2 => rfl
                | undefined => rfl
  · simp only [if_neg hp]
    rfl

theorem Stored.Vector.Erase_lift (E : Traits α) (h : Store α) (p : Stored.Vector)
    (position : Nat) (hv : p.Valid h) :
    (Stored.Vector.Erase E h p position).returnedPart =
      (((p.view h).Erase E position).returnedPart).map (fun x =>
        (Stored.Vector.commitInPlace h p x.1, x.2)) := by
  have hsz : (p.view h).size_ = p.size_ := rfl
  have hcells : (p.view h).data_.cells = h.cells p.data_.buffer_ := rfl
  unfold Stored.Vector.Erase AdvancedVector.Vector.Erase
  rw [hsz, hcells]
  by_cases hp : position < p.size_
  · simp only [if_pos hp]
    cases move E (h.cells p.data_.buffer_) (position + 1) p.size_ position with
    | returned m u =>
      simp only []
      cases destroyAt m (p.size_ - 1) with
      | none => rfl
      | some m1 =>
        simp only [Outcome.returnedPart, Option.map_some', Option.some.injEq, Prod.mk.injEq,
          and_true]
        exact Stored.Vector.commitInPlace_eq h p m1 _ hv
    | thrown m => rfl
    | undefined => rfl
  · simp only [if_neg hp]
    rfl

theorem Stored.Vector.assignAt_lift (E : Traits α) (h : Store α) (p : Stored.Vector)
    (index : Nat) (value : α) (hv : p.Valid h) :
    (Stored.Vector.assignAt E h p index value).returnedPart =
      (((p.view h).assignAt E index value).returnedPart).map (fun x =>
        (Stored.Vector.commitInPlace h p x.1, x.2)) := by
  have hsz : (p.view h).size_ = p.size_ := rfl
  have hcap : (p.view h).data_.capacity_ = p.data_.capacity_ := rfl
  have hcells : (p.view h).data_.cells = h.cells p.data_.buffer_ := rfl
  unfold Stored.Vector.assignAt AdvancedVector.Vector.assignAt
  rw [hsz, hcap, hcells]
  by_cases hi : index < p.size_
  · simp only [if_pos hi]
    by_cases hic : index < p.data_.capacity_
    · simp only [if_pos hic]
      cases readAt (h.cells p.data_.buffer_) index with
      | none => rfl
      | some y =>
        simp only []
        by_cases hat : E.copyAssignThrows value = true
        · simp only [hat, if_true]; rfl
        · simp only [hat, Bool.false_eq_true, if_false, Outcome.returnedPart,
            Option.map_some', Option.some.injEq, Prod.mk.injEq, and_true]
          exact Stored.Vector.commitInPlace_eq h p _ _ hv
    · simp only [if_neg hic]; rfl
  · simp only [if_neg hi]; rfl

theorem Stored.RawMemory.ofCapacitySized_on_store (w sizeofT : Nat) (E : Traits α)
    (h : Store α) (c : Nat) (hc : c ≠ 0) (hb : ¬ E.badAlloc c = true) :
    Stored.RawMemory.ofCapacitySized w sizeofT E h c =
        some ((h.new (AdvancedVector.RawMemory.requestedSlots w sizeofT c)).1,
          { buffer_ := some (h.new (AdvancedVector.RawMemory.requestedSlots w sizeofT c)).2,
            capacity_ := c }) ∧
      AdvancedVector.RawMemory.ofCapacitySized w sizeofT E c =
        some { buffer_ := some (List.replicate
                 (AdvancedVector.RawMemory.requestedSlots w sizeofT c) none),
               capacity_ := c } := by
  unfold Stored.RawMemory.ofCapacitySized Stored.RawMemory.AllocateSized
    AdvancedVector.RawMemory.ofCapacitySized AdvancedVector.RawMemory.AllocateSized
  simp [hc, hb]

theorem Store.cells_swapped (h : Store α) (p : Stored.Vector) (c : Nat) (dst src1 : Mem α)
    (hv : p.Valid h) :
    (Stored.RawMemory.dtor (((h.new c).1.write (some (h.new c).2) dst).write p.data_.buffer_ src1)
        p.data_).cells (some (h.new c).2) = dst := by
  have hlen : (h.new c).2 < (h.new c).1.blocks.length := by simp [Store.new]
  have hfresh : (h.new c).2 = h.blocks.length := rfl
  unfold Stored.RawMemory.dtor Stored.RawMemory.Deallocate Store.cells
  rw [Store.delete_write]
  cases hb : p.data_.buffer_ with
  | none =>
    simp only [Store.delete]
    rw [Store.block_write_same _ _ _ hlen]
    rfl
  | some a =>
    have hne : a ≠ (h.new c).2 := by
      have := (hv a hb).lt
      rw [hfresh]; omega
    rw [Store.block_delete_ne _ a _ hne, Store.block_write_same _ _ _ hlen]
    rfl

theorem Stored.Vector.commitNew_write_eq (h : Store α) (p : Stored.Vector) (c k n : Nat)
    (dst src1 mm : Mem α) (hv : p.Valid h) (hlen : mm.length = c) :
    (((Stored.RawMemory.dtor
          (((h.new c).1.write (some (h.new c).2) dst).write p.data_.buffer_ src1) p.data_).write
        (some (h.new c).2) mm,
      ({ data_ := { buffer_ := some (h.new c).2, capacity_ := k }, size_ := n } : Stored.Vector))
      : Store α × Stored.Vector) =
      Stored.Vector.commitNew h p
        { data_ := { buffer_ := some mm, capacity_ := k }, size_ := n } := by
  have hfresh : (h.new c).2 = h.blocks.length := rfl
  unfold Stored.Vector.commitNew Stored.RawMemory.dtor Stored.RawMemory.Deallocate
  simp only [AdvancedVector.RawMemory.cells, Option.getD_some, hlen, Store.delete_write,
    Prod.mk.injEq, and_true]
  cases hb : p.data_.buffer_ with
  | none => simp [Store.delete, Store.write]
  | some a =>
    have hne : a ≠ (h.new c).2 := by
      have := (hv a hb).lt
      rw [hfresh]; omega
    simp only [Store.delete, Store.write, Store.mk.injEq]
    rw [List.set_comm (some dst) none _ (Ne.symm hne), List.set_set,
      List.set_comm (some mm) none _ (Ne.symm hne)]

theorem Stored.Vector.ResizeSized_lift (w sizeofT : Nat) (E : Traits α) (h : Store α)
    (p : Stored.Vector) (new_size : Nat) (hv : p.Valid h) :
    (Stored.Vector.ResizeSized w sizeofT E h p new_size).returnedPart =
      (((p.view h).ResizeSized w sizeofT E new_size).returnedPart).map (fun x =>
        (if p.size_ ≤ new_size ∧ p.data_.capacity_ < new_size then
           Stored.Vector.commitNew h p x.1
         else Stored.Vector.commitInPlace h p x.1, x.2)) := by
  have hsz : (p.view h).size_ = p.size_ := rfl
  have hcap : (p.view h).data_.Capacity = p.data_.capacity_ := rfl
  have hcells : (p.view h).data_.cells = h.cells p.data_.buffer_ := rfl
  unfold Stored.Vector.ResizeSized AdvancedVector.Vector.ResizeSized
  rw [hsz, hcells]
  by_cases hlt : new_size < p.size_
  · have hcond : ¬ (p.size_ ≤ new_size ∧ p.data_.capacity_ < new_size) := by omega
    simp only [if_pos hlt, if_neg hcond]
    cases destroy_n (h.cells p.data_.buffer_) new_size (p.size_ - new_size) with
    | none => rfl
    | some m =>
      simp only [Outcome.returnedPart, Option.map_some', Option.some.injEq, Prod.mk.injEq,
        and_true]
      exact Stored.Vector.commitInPlace_eq h p m _ hv
  · simp only [if_neg hlt]
    unfold Stored.Vector.ReserveSized AdvancedVector.Vector.ReserveSized
    rw [hsz, hcap, hcells]
    by_cases hk : new_size ≤ p.data_.capacity_
    · have hcond : ¬ (p.size_ ≤ new_size ∧ p.data_.capacity_ < new_size) := by omega
      simp only [if_pos hk, if_neg hcond, hsz, hcells]
      cases uninitialized_value_construct_n E (h.cells p.data_.buffer_) p.size_
          (new_size - p.size_) with
      | returned m u =>
        simp only [Outcome.returnedPart, Option.map_some', Option.some.injEq, Prod.mk.injEq,
          and_true]
        exact Stored.Vector.commitInPlace_eq h p m _ hv
      | thrown m => rfl
      | undefined => rfl
    · have hcond : p.size_ ≤ new_size ∧ p.data_.capacity_ < new_size := by omega
      simp only [if_neg hk, if_pos hcond]
      by_cases hb : E.badAlloc new_size = true
      · have hn0 : new_size ≠ 0 := by omega
        simp [Stored.RawMemory.ofCapacitySized, Stored.RawMemory.AllocateSized,
          AdvancedVector.RawMemory.ofCapacitySized, AdvancedVector.RawMemory.AllocateSized,
          hn0, hb, Outcome.returnedPart]
      · obtain ⟨hS, hC⟩ := Stored.RawMemory.ofCapacitySized_on_store w sizeofT E h new_size
          (by omega) hb
        generalize AdvancedVector.RawMemory.requestedSlots w sizeofT new_size = c at hS hC
        simp only [hS, hC, AdvancedVector.RawMemory.cells, Option.getD_some,
          Store.cells_new_fresh, Store.cells_new_old h c p hv]
        by_cases hm : E.relocateByMove = true
        · simp only [hm, if_true]
          cases hl : uninitialized_move_n E (h.cells p.data_.buffer_) 0 p.size_
              (List.replicate c none) 0 with
          | returned sd u =>
            obtain ⟨src, dst⟩ := sd
            simp only []
            have hdl : dst.length = c := by
              rw [(uninitialized_move_n_length E _ _ _ _ _ _ _ hl).1, List.length_replicate]
            cases hd : destroy_n src 0 p.size_ with
            | none => rfl
            | some src1 =>
              simp only [Store.cells_swapped h p c dst src1 hv, AdvancedVector.RawMemory.store,
                Option.map_some', Option.getD_some]
              cases hvc : uninitialized_value_construct_n E dst p.size_ (new_size - p.size_) with
              | returned mm u2 =>
                have hml : mm.length = c := by
                  rw [uninitialized_value_construct_n_length E _ _ _ _ hvc, hdl]
                simp only [Outcome.returnedPart, Option.map_some', Option.some.injEq,
                  Prod.mk.injEq, and_true]
                exact Stored.Vector.commitNew_write_eq h p c new_size new_size dst src1 mm hv hml
              | thrown mm => rfl
              | undefined => rfl
          | thrown sd =>
            obtain ⟨src, dst⟩ := sd
            rfl
          | undefined => rfl
        · simp only [hm, Bool.false_eq_true, if_false]
          cases hl : uninitialized_copy_n E (h.cells p.data_.buffer_) 0 p.size_
              (List.replicate c none) 0 with
          | returned dst u =>
            simp only []
            have hdl : dst.length = c := by
              rw [(uninitialized_copy_n_length E _ _ _ _ _ _ hl).1, List.length_replicate]
            cases hd : destroy_n (h.cells p.data_.buffer_) 0 p.size_ with
            | none => rfl
            | some src1 =>
              simp only [Store.cells_swapped h p c dst src1 hv, AdvancedVector.RawMemory.store,
                Option.map_some', Option.getD_some]
              cases hvc : uninitialized_value_construct_n E dst p.size_ (new_size - p.size_) with
              | returned mm u2 =>
                have hml : mm.length = c := by
                  rw [uninitialized_value_construct_n_length E _ _ _ _ hvc, hdl]
                simp only [Outcome.returnedPart, Option.map_some', Option.some.injEq,
                  Prod.mk.injEq, and_true]
                exact Stored.Vector.commitNew_write_eq h p c new_size new_size dst src1 mm hv hml
              | thrown mm => rfl
              | undefined => rfl
          | thrown dst => rfl
          | undefined => rfl

/-- A mutating call on a stored array is the call on the array it denotes, written back
in place or into a new block. -/
theorem Stored.Vector.mutate_lift (ws sizeofT : Nat) (E : Traits α) (h : Store α)
    (p : Stored.Vector) (mu : Mutation α) (hv : p.Valid h) :
    p.mutate ws sizeofT E h mu =
      (((p.view h).mutate ws sizeofT E mu).returnedPart).map (fun x =>
        if (p.view h).reallocates mu then Stored.Vector.commitNew h p x.1
        else Stored.Vector.commitInPlace h p x.1) := by
  have hsz : (p.view h).size_ = p.size_ := rfl
  have hcap : (p.view h).Capacity = p.data_.capacity_ := rfl
  cases mu with
  | PushBack value =>
    simp only [Stored.Vector.mutate, AdvancedVector.Vector.mutate,
      AdvancedVector.Vector.reallocates, hsz, hcap, decide_eq_true_eq,
      Stored.Vector.PushBack_lift E h p value hv, Option.map_map]
    rfl
  | Insert position value =>
    simp only [Stored.Vector.mutate, AdvancedVector.Vector.mutate,
      AdvancedVector.Vector.reallocates, hsz, hcap, decide_eq_true_eq,
      Stored.Vector.Insert, AdvancedVector.Vector.Insert,
      Stored.Vector.Emplace_lift E h p position _ hv, Option.map_map]
    cases (p.view h).Emplace E position (E.copyCtor value) <;> rfl
  | Erase position =>
    simp only [Stored.Vector.mutate, AdvancedVector.Vector.mutate,
      AdvancedVector.Vector.reallocates, Bool.false_eq_true, if_false,
      Stored.Vector.Erase_lift E h p position hv, Option.map_map]
    cases (p.view h).Erase E position <;> rfl
  | Resize new_size =>
    simp only [Stored.Vector.mutate, AdvancedVector.Vector.mutate,
      AdvancedVector.Vector.reallocates, hsz, hcap, decide_eq_true_eq,
      Stored.Vector.ResizeSized_lift ws sizeofT E h p new_size hv, Option.map_map]
    rfl
  | Assign index value =>
    simp only [Stored.Vector.mutate, AdvancedVector.Vector.mutate,
      AdvancedVector.Vector.reallocates, Bool.false_eq_true, if_false,
      Stored.Vector.assignAt_lift E h p index value hv, Option.map_map]
    rfl

/-- A mutating call on the stored array `a` does to `a` what the call does and leaves every
other valid stored array `b` with a block of its own as it is. -/
theorem Stored.Vector.mutate_frame (ws sizeofT : Nat) (E : Traits α) (h : Store α)
    (a b : Stored.Vector) (mu : Mutation α) (h1 : Store α) (a1 : Stored.Vector)
    (ha : a.Valid h) (hb : b.Valid h)
    (hsep : ∀ x, a.data_.buffer_ = some x → b.data_.buffer_ ≠ some x)
    (hr : a.mutate ws sizeofT E h mu = some (h1, a1)) :
    (a.view h).mutate ws sizeofT E mu = .returned (a1.view h1) () ∧ b.view h1 = b.view h ∧
      a1.Valid h1 ∧ b.Valid h1 ∧
      (∀ x, a1.data_.buffer_ = some x → b.data_.buffer_ ≠ some x) := by
  rw [Stored.Vector.mutate_lift ws sizeofT E h a mu ha] at hr
  cases hm : (a.view h).mutate ws sizeofT E mu with
  | thrown s => rw [hm] at hr; cases hr
  | undefined => rw [hm] at hr; cases hr
  | returned w u =>
    rw [hm] at hr
    simp only [Outcome.returnedPart, Option.map_some', Option.some.injEq] at hr
    have hbuf := Vector.mutate_buffer ws sizeofT E (a.view h) mu w hm
    by_cases hre : (a.view h).reallocates mu = true
    · rw [if_pos hre] at hr
      rw [hre, Bool.true_or] at hbuf
      unfold Stored.Vector.commitNew at hr
      simp only [Prod.mk.injEq] at hr
      obtain ⟨rfl, rfl⟩ := hr
      have hfresh : (h.new w.data_.cells.length).2 = h.blocks.length := rfl
      have hlen : (h.new w.data_.cells.length).2
          < (h.new w.data_.cells.length).1.blocks.length := by
        simp [Store.new]
      have hfa : ∀ x, a.data_.buffer_ = some x → x ≠ (h.new w.data_.cells.length).2 := by
        intro x hx
        have := (ha x hx).lt
        rw [hfresh]
        omega
      have hfb : ∀ x, b.data_.buffer_ = some x → (h.new w.data_.cells.length).2 ≠ x := by
        intro x hx
        have := (hb x hx).lt
        rw [hfresh]
        omega
      have hblock : (((h.new w.data_.cells.length).1.write
          (some (h.new w.data_.cells.length).2) w.data_.cells).delete a.data_.buffer_).block
            (some (h.new w.data_.cells.length).2) = some w.data_.cells := by
        cases hab : a.data_.buffer_ with
        | none => exact Store.block_write_same _ _ _ hlen
        | some x =>
          rw [Store.block_delete_ne _ x _ (hfa x hab)]
          exact Store.block_write_same _ _ _ hlen
      have hbview : b.view (((h.new w.data_.cells.length).1.write
          (some (h.new w.data_.cells.length).2) w.data_.cells).delete a.data_.buffer_)
            = b.view h := by
        rw [Stored.Vector.view_delete_other _ b _ hsep,
          Stored.Vector.view_write_other _ b _ _
            (fun x hx hbx => hfb x hbx (by cases hx; rfl))]
        exact Stored.Vector.view_new h b _ hb
      refine ⟨?_, hbview, ?_, Stored.Vector.valid_of_view_eq h _ b hb hbview, ?_⟩
      · have hv : Stored.Vector.view (((h.new w.data_.cells.length).1.write
            (some (h.new w.data_.cells.length).2) w.data_.cells).delete a.data_.buffer_)
            { data_ := { buffer_ := some (h.new w.data_.cells.length).2,
                         capacity_ := w.data_.capacity_ }, size_ := w.size_ } = w := by
          simp only [Stored.Vector.view, hblock]
          exact Vector.eq_of_buffer_some w hbuf
        rw [hv]
      · intro x hx
        simp only [Option.some.injEq] at hx
        subst hx
        rw [Store.allocated_iff_block]
        exact ⟨_, hblock⟩
      · intro x hx hbx
        simp only [Option.some.injEq] at hx
        exact hfb x hbx hx
    · rw [if_neg hre] at hr
      have hre0 : (a.view h).reallocates mu = false := by simpa using hre
      rw [hre0, Bool.false_or] at hbuf
      unfold Stored.Vector.commitInPlace at hr
      simp only [Prod.mk.injEq] at hr
      obtain ⟨rfl, rfl⟩ := hr
      have hbview : b.view (h.write a.data_.buffer_ w.data_.cells) = b.view h :=
        Stored.Vector.view_write_other h b _ _ hsep
      refine ⟨?_, hbview, ?_, Stored.Vector.valid_of_view_eq h _ b hb hbview, ?_⟩
      · have hv : Stored.Vector.view (h.write a.data_.buffer_ w.data_.cells)
            { data_ := { buffer_ := a.data_.buffer_, capacity_ := w.data_.capacity_ },
              size_ := w.size_ } = w := by
          cases hab : a.data_.buffer_ with
          | none =>
            simp only [Stored.Vector.view, hab, Store.block, Option.isSome_none] at hbuf
            simp only [Stored.Vector.view, Store.block]
            exact Vector.eq_of_buffer_none w hbuf
          | some x =>
            obtain ⟨m, hm1⟩ := (Store.allocated_iff_block h x).mp (ha x hab)
            simp only [Stored.Vector.view, hab, hm1, Option.isSome_some] at hbuf
            simp only [Stored.Vector.view, Store.block_write_same h x _ (ha x hab).lt]
            exact Vector.eq_of_buffer_some w hbuf
        rw [hv]
      · intro x hx
        simp only [] at hx
        rw [Store.allocated_iff_block]
        exact ⟨_, by rw [← hx]; rw [hx]; exact Store.block_write_same h x _ (ha x hx).lt⟩
      · intro x hx
        exact hsep x hx

theorem Stored.mutateBoth_independent (ws sizeofT : Nat) (E : Traits α)
    (script : List (Bool × Mutation α)) :
    ∀ (h : Store α) (a b : Stored.Vector) (h2 : Store α) (a2 b2 : Stored.Vector),
      a.Valid h → b.Valid h → (∀ x, a.data_.buffer_ = some x → b.data_.buffer_ ≠ some x) →
      Stored.mutateBoth ws sizeofT E h a b script = some (h2, a2, b2) →
      Vector.mutateAll ws sizeofT E (a.view h) (Mutation.callsOn true script)
        = some (a2.view h2) ∧
      Vector.mutateAll ws sizeofT E (b.view h) (Mutation.callsOn false script)
        = some (b2.view h2) := by
  induction script with
  | nil =>
    intro h a b h2 a2 b2 _ _ _ hr
    simp only [Stored.mutateBoth, Option.some.injEq, Prod.mk.injEq] at hr
    obtain ⟨rfl, rfl, rfl⟩ := hr
    exact ⟨rfl, rfl⟩
  | cons s rest ih =>
    intro h a b h2 a2 b2 ha hb hsep hr
    obtain ⟨onFirst, mu⟩ := s
    have hsep2 : ∀ x, b.data_.buffer_ = some x → a.data_.buffer_ ≠ some x :=
      fun x hbx hax => hsep x hax hbx
    cases onFirst with
    | true =>
      simp only [Stored.mutateBoth, if_true] at hr
      cases hm : a.mutate ws sizeofT E h mu with
      | none => rw [hm] at hr; cases hr
      | some r =>
        obtain ⟨h1, a1⟩ := r
        rw [hm] at hr
        simp only [] at hr
        obtain ⟨hstep, hbv, ha1, hb1, hsep1⟩ :=
          Stored.Vector.mutate_frame ws sizeofT E h a b mu h1 a1 ha hb hsep hm
        obtain ⟨i1, i2⟩ := ih h1 a1 b h2 a2 b2 ha1 hb1 hsep1 hr
        refine ⟨?_, ?_⟩
        · simp only [Mutation.callsOn, List.filter_cons, beq_self_eq_true, if_true,
            List.map_cons, Vector.mutateAll, hstep]
          exact i1
        · simp only [Mutation.callsOn, List.filter_cons, Bool.true_eq_false, if_false] 
          rw [← hbv]
          exact i2
    | false =>
      simp only [Stored.mutateBoth, Bool.false_eq_true, if_false] at hr
      cases hm : b.mutate ws sizeofT E h mu with
      | none => rw [hm] at hr; cases hr
      | some r =>
        obtain ⟨h1, b1⟩ := r
        rw [hm] at hr
        simp only [] at hr
        obtain ⟨hstep, hav, hb1, ha1, hsep1⟩ :=
          Stored.Vector.mutate_frame ws sizeofT E h b a mu h1 b1 hb ha hsep2 hm
        obtain ⟨i1, i2⟩ := ih h1 a b1 h2 a2 b2 ha1 hb1
          (fun x hax hbx => hsep1 x hbx hax) hr
        refine ⟨?_, ?_⟩
        · simp only [Mutation.callsOn, List.filter_cons, Bool.false_eq_true, if_false]
          rw [← hav]
          exact i1
        · simp only [Mutation.callsOn, List.filter_cons, beq_self_eq_true, if_true,
            List.map_cons, Vector.mutateAll, hstep]
          exact i2

/-! ## The claims -/

/-- C1: on an array that satisfies the invariant and holds `xs` (count `n`), a successful
`Emplace` or `Insert` of `x` at a position `p ≤ n` leaves the array holding
`xs.take p ++ [x] ++ xs.drop p` with count `n + 1`, returns the index `p`, and the element
at `p` is `x`; this covers the growth path and the in-place paths.  When nothing throws
the call does return. -/
theorem C1_insert_places_value_at_position (E : Traits α) (v : Vector α) (p : Nat) (x : α)
    (hinv : v.Inv) (hp : p ≤ v.size_) :
    (∀ w r, v.Emplace E p (some x) = .returned w r →
      w.elems = v.elems.take p ++ [x] ++ v.elems.drop p ∧ w.size_ = v.size_ + 1 ∧ r = p ∧
        w.get r = some x) ∧
    (∀ w r, v.Insert E p x = .returned w r →
      w.elems = v.elems.take p ++ [x] ++ v.elems.drop p ∧ w.size_ = v.size_ + 1 ∧ r = p ∧
        w.get r = some x) ∧
    (∀ w r, v.InsertMove E p x = .returned w r →
      w.elems = v.elems.take p ++ [x] ++ v.elems.drop p ∧ w.size_ = v.size_ + 1 ∧ r = p ∧
        w.get r = some x) ∧
    (E.NoThrow → ∃ w, v.Emplace E p (some x) = .returned w p ∧
      v.Insert E p x = .returned w p ∧ v.InsertMove E p x = .returned w p) := by
  have hh := hinv.holds
  have hsz : v.size_ = v.elems.length := hh.2.1
  have hp1 : p ≤ v.elems.length := by omega
  have main : ∀ w r, v.Emplace E p (some x) = .returned w r →
      w.elems = v.elems.take p ++ [x] ++ v.elems.drop p ∧ w.size_ = v.size_ + 1 ∧ r = p ∧
        w.get r = some x := by
    intro w r hr
    obtain ⟨hw, hr1⟩ := Vector.Emplace_returned_holds E v _ _ p x hh hp1 w r hr
    obtain ⟨hget, hlen⟩ := insert_at_spec v.elems p x hp1
    refine ⟨?_, ?_, hr1, ?_⟩
    · rw [hw.elems_eq]; simp
    · rw [hw.2.1, hlen, hsz]
    · rw [hw.get, hr1, hget]
  refine ⟨main, ?_, ?_, ?_⟩
  · intro w r hr
    unfold Vector.Insert Traits.copyCtor at hr
    split at hr
    · exact absurd hr (Vector.Emplace_none_not_returned E v p w r)
    · exact main w r hr
  · intro w r hr
    unfold Vector.InsertMove Traits.moveCtor at hr
    split at hr
    · exact absurd hr (Vector.Emplace_none_not_returned E v p w r)
    · exact main w r hr
  · intro hE
    obtain ⟨w, hw⟩ := Vector.Emplace_nothrow E v _ _ p x hh hp1 hE
    refine ⟨w, hw, ?_, ?_⟩
    · unfold Vector.Insert Traits.copyCtor
      rw [hE.2.1 x]
      exact hw
    · unfold Vector.InsertMove Traits.moveCtor
      rw [hE.2.2.1 x]
      exact hw

/-- C1, at a concrete array: inserting `7` at position `1` of `[1, 2, 3]` (capacity 5). -/
theorem C1_insert_places_value_at_position_witness :
    (Vector.ofList [1, 2, 3] 2).Inv ∧ 1 ≤ (Vector.ofList [1, 2, 3] 2).size_ ∧
      (Vector.ofList [1, 7, 2, 3] 1).elems = [1, 7, 2, 3] ∧
      (Vector.ofList [1, 7, 2, 3] 1).size_ = 4 ∧
      (Vector.ofList [1, 7, 2, 3] 1).get 1 = some 7 := by
  have hinv : (Vector.ofList [1, 2, 3] 2).Inv := (Vector.ofList_holds [1, 2, 3] 2).inv
  have h := (C1_insert_places_value_at_position natCopy (Vector.ofList [1, 2, 3] 2) 1 7 hinv
    (by decide)).1 (Vector.ofList [1, 7, 2, 3] 1) 1 rfl
  exact ⟨hinv, by decide, h.1, h.2.1, h.2.2.2⟩

/-- C2: the array `[1, 2, 3]` with count = capacity = 3, an element type relocated by copy
construction whose copy of the value `3` throws, and `Insert` of `7` at position `1`.  The
copy of the elements from position `1` on into the new buffer throws at `3`; the handler
then runs `std::destroy_n(begin(), position + 1)` on the old buffer, so the exception
leaves the array with count 3 and capacity 3 but with the objects in its slots `0` and `1`
destroyed: the elements are not the ones before the call. -/
theorem C2_failed_growth_insert_destroys_old_elements :
    (Vector.ofList [1, 2, 3] 0).Inv ∧
    (Vector.ofList [1, 2, 3] 0).Insert natCopyThrows3 1 7
      = .thrown { data_ := { buffer_ := some [none, none, some 3], capacity_ := 3 },
                  size_ := 3 } ∧
    ¬ (Vector.Inv ({ data_ := { buffer_ := some [none, none, some 3], capacity_ := 3 },
                     size_ := 3 } : Vector Nat)) ∧
    (Vector.ofList [1, 2, 3] 0).get 0 = some 1 ∧
    (Vector.get ({ data_ := { buffer_ := some [none, none, some 3], capacity_ := 3 },
                   size_ := 3 } : Vector Nat) 0) = none := by
  refine ⟨(Vector.ofList_holds [1, 2, 3] 0).inv, rfl, ?_, rfl, rfl⟩
  intro h
  have := h.2.2.1 0 (by decide)
  simp [readAt, RawMemory.cells] at this

/-- C3: starting from a default-constructed array, `N` successful appends of the values
`v_1 .. v_N` (by `EmplaceBack`, or by `PushBack`) yield an array whose count is `N` and
whose element at every position `i < N` is `v_(i+1)`; the `i`-th `EmplaceBack` returns
the reference to position `i`, the last position at that moment.  When nothing throws
all the appends do return. -/
theorem C3_appends_keep_call_order (E : Traits α) (values : List α) :
    (∀ w rs, (Vector.empty : Vector α).EmplaceBackAll E values = .returned w rs →
      w.size_ = values.length ∧ w.elems = values ∧
        (∀ i, i < values.length → w.get i = values[i]?) ∧ rs = List.range values.length) ∧
    (∀ w, (Vector.empty : Vector α).PushBackAll E values = .returned w () →
      w.size_ = values.length ∧ w.elems = values ∧
        (∀ i, i < values.length → w.get i = values[i]?)) ∧
    (E.NoThrow → ∃ w,
      (Vector.empty : Vector α).EmplaceBackAll E values
        = .returned w (List.range values.length) ∧
      (Vector.empty : Vector α).PushBackAll E values = .returned w ()) := by
  have main : ∀ w rs, (Vector.empty : Vector α).EmplaceBackAll E values = .returned w rs →
      w.size_ = values.length ∧ w.elems = values ∧
        (∀ i, i < values.length → w.get i = values[i]?) ∧ rs = List.range values.length := by
    intro w rs hr
    obtain ⟨⟨j, hj⟩, hrs⟩ :=
      Vector.EmplaceBackAll_holds E values Vector.empty [] 0 w rs Vector.empty_holds hr
    simp only [List.nil_append, List.length_nil] at hj hrs
    exact ⟨hj.2.1, hj.elems_eq, fun i _ => hj.get i, by rw [hrs, List.range_eq_range']⟩
  refine ⟨main, ?_, ?_⟩
  · intro w hr
    obtain ⟨rs, hrs⟩ := Vector.PushBackAll_returned E values Vector.empty w hr
    obtain ⟨h1, h2, h3, _⟩ := main w rs hrs
    exact ⟨h1, h2, h3⟩
  · intro hE
    obtain ⟨w, h1, h2⟩ :=
      Vector.EmplaceBackAll_nothrow E hE values Vector.empty [] 0 Vector.empty_holds
    refine ⟨w, ?_, h2⟩
    rw [h1, List.range_eq_range']
    rfl

/-- C3, at a concrete run: appending `5`, `6`, `7` to an empty array. -/
theorem C3_appends_keep_call_order_witness :
    (Vector.ofList [5, 6, 7] 1).size_ = 3 ∧ (Vector.ofList [5, 6, 7] 1).elems = [5, 6, 7] ∧
      [0, 1, 2] = List.range 3 := by
  have h := (C3_appends_keep_call_order natCopy [5, 6, 7]).1 (Vector.ofList [5, 6, 7] 1)
    [0, 1, 2] rfl
  exact ⟨h.1, h.2.1, h.2.2.2⟩

/-- C4: on an array that satisfies the invariant and holds `xs` (count `n ≥ 1`), a
successful `Erase` at a position `p < n` leaves the array holding
`xs.take p ++ xs.drop (p + 1)` with count `n - 1` and the capacity unchanged, and returns
the index `p`: the slot of the old next element when `p + 1 < n`, the end marker
(the new count) when `p + 1 = n`.  When no move assignment of the elements after `p`
throws the call does return. -/
theorem C4_erase_removes_element_at_position (E : Traits α) (v : Vector α) (p : Nat)
    (hinv : v.Inv) (hp : p < v.size_) :
    (∀ w r, v.Erase E p = .returned w r →
      w.elems = v.elems.take p ++ v.elems.drop (p + 1) ∧ w.size_ = v.size_ - 1 ∧
        w.Capacity = v.Capacity ∧ r = p ∧
        (p + 1 < v.size_ → w.get r = v.get (p + 1) ∧ (w.get r).isSome = true) ∧
        (p + 1 = v.size_ → r = w.size_)) ∧
    ((∀ y ∈ v.elems.drop (p + 1), E.moveAssignThrows y = false) →
      ∃ w, v.Erase E p = .returned w p) := by
  have hh := hinv.holds
  have hsz : v.size_ = v.elems.length := hh.2.1
  have hp1 : p < v.elems.length := by omega
  constructor
  · intro w r hr
    obtain ⟨hw, hr1⟩ := Vector.Erase_returned_holds E v _ _ p hh hp1 w r hr
    obtain ⟨hxs, hT, hD⟩ := split_at_index v.elems p hp1
    have hwsz : w.size_ = v.size_ - 1 := by
      rw [hw.2.1, List.length_append, hT, hD, hsz]; omega
    refine ⟨hw.elems_eq, hwsz, ?_, hr1, ?_, ?_⟩
    · have h1 := hw.2.2
      have h2 := hh.2.2
      simp only [List.length_append, hT, hD] at h1
      simp only [Vector.Capacity, RawMemory.Capacity]
      omega
    · intro hlt
      have hget : w.get r = v.get (p + 1) := by
        rw [hw.get, hh.get, hr1, List.getElem?_append_right (by omega), hT, Nat.sub_self,
          List.getElem?_drop]
      refine ⟨hget, ?_⟩
      rw [hget, hh.get, List.getElem?_eq_getElem (by omega)]
      rfl
    · intro he
      omega
  · intro hE
    exact Vector.Erase_nothrow E v _ _ p hh hp1 hE

/-- C4, at a concrete array: erasing position `1` of `[1, 2, 3]`. -/
theorem C4_erase_removes_element_at_position_witness :
    (Vector.ofList [1, 2, 3] 0).Inv ∧ 1 < (Vector.ofList [1, 2, 3] 0).size_ ∧
      (Vector.ofList [1, 3] 1).elems = [1, 3] ∧ (Vector.ofList [1, 3] 1).size_ = 2 ∧
      (Vector.ofList [1, 3] 1).Capacity = 3 := by
  have hinv : (Vector.ofList [1, 2, 3] 0).Inv := (Vector.ofList_holds [1, 2, 3] 0).inv
  have h := (C4_erase_removes_element_at_position natCopy (Vector.ofList [1, 2, 3] 0) 1 hinv
    (by decide)).1 (Vector.ofList [1, 3] 1) 1 rfl
  exact ⟨hinv, by decide, h.1, h.2.1, h.2.2.1⟩

/-- C6, as stated, fails: move-assigning `[2]` into the non-empty array `[1]` gives the
destination the source's element, but leaves the source with count 1, holding the
destination's former element, not in an empty state. -/
theorem C6_move_assign_source_keeps_old_destination :
    ¬ ((Vector.moveAssign (Vector.ofList [1] 0) (Vector.ofList [2] 0)).2.size_ = 0 ∧
       (Vector.moveAssign (Vector.ofList [1] 0) (Vector.ofList [2] 0)).1.elems = [2]) := by
  intro h
  exact absurd h.1 (by decide)

/-- C6, amended: after move-assigning `b` into a distinct array `a`, the destination is
`b` as it was (same buffer, capacity, count, so the same elements in the same order) and
the source is `a` as it was; each is valid when the array it came from was, and the
source has count 0 exactly when the destination had count 0 before the assignment. -/
theorem C6_move_assign_swaps_states (a b : Vector α) :
    (Vector.moveAssign a b).1 = b ∧ (Vector.moveAssign a b).2 = a ∧
    (Vector.moveAssign a b).1.elems = b.elems ∧ (Vector.moveAssign a b).2.elems = a.elems ∧
    ((Vector.moveAssign a b).2.size_ = 0 ↔ a.size_ = 0) ∧
    (b.Inv → (Vector.moveAssign a b).1.Inv) ∧ (a.Inv → (Vector.moveAssign a b).2.Inv) :=
  ⟨rfl, rfl, rfl, rfl, Iff.rfl, fun h => h, fun h => h⟩

/-- C6, amended, at concrete arrays: `[2]` move-assigned into `[1]`. -/
theorem C6_move_assign_swaps_states_witness :
    (Vector.ofList [2] 0).Inv ∧
      (Vector.moveAssign (Vector.ofList [1] 0) (Vector.ofList [2] 0)).1.Inv ∧
      (Vector.moveAssign (Vector.ofList [1] 0) (Vector.ofList [2] 0)).1.elems = [2] ∧
      (Vector.moveAssign (Vector.ofList [1] 0) (Vector.ofList [2] 0)).2.elems = [1] := by
  have hb : (Vector.ofList [2] 0).Inv := (Vector.ofList_holds [2] 0).inv
  have h := C6_move_assign_swaps_states (Vector.ofList [1] 0) (Vector.ofList [2] 0)
  exact ⟨hb, h.2.2.2.2.2.1 hb, h.2.2.1, h.2.2.2.1⟩

/-- C7: for arrays `a` and `b` that satisfy the invariant, a successful copy assignment
`a = b` (with `b` a distinct array, read only) leaves `a` with the count of `b` and with
the elements of `b` position by position; the capacity of `a` afterwards is the count of
`b` when that exceeds the old capacity of `a`, and the old capacity otherwise.  This
covers the copy-and-swap branch, the branch destroying the excess tail and the branch
constructing the extra elements.  When nothing throws the assignment does return. -/
theorem C7_copy_assign_copies_elements (E : Traits α) (a b : Vector α)
    (ha : a.Inv) (hb : b.Inv) :
    (∀ w, a.copyAssign E b = .returned w () →
      w.size_ = b.size_ ∧ w.elems = b.elems ∧ (∀ i, w.get i = b.get i) ∧
        w.Capacity = (if a.Capacity < b.size_ then b.size_ else a.Capacity) ∧ w.Inv) ∧
    (E.NoThrow → ∃ w, a.copyAssign E b = .returned w ()) := by
  have hha := ha.holds
  have hhb := hb.holds
  obtain ⟨h1, h2⟩ := Vector.copyAssign_cases E a b _ _ _ _ hha hhb
  refine ⟨?_, h2⟩
  intro w hr
  have hw := h1 w hr
  refine ⟨by rw [hw.2.1, hhb.2.1], hw.elems_eq, fun i => by rw [hw.get, hhb.get], ?_, hw.inv⟩
  have hc := hw.2.2
  have hac := hha.2.2
  have hbs := hhb.2.1
  simp only [Vector.Capacity, RawMemory.Capacity]
  rw [hc]
  split <;> split <;> omega

/-- C7, at concrete arrays: `[5, 6]` copy-assigned into `[1, 2, 3]` of capacity 5. -/
theorem C7_copy_assign_copies_elements_witness :
    (Vector.ofList [1, 2, 3] 2).Inv ∧ (Vector.ofList [5, 6] 0).Inv ∧
      (Vector.ofList [5, 6] 3).elems = [5, 6] ∧ (Vector.ofList [5, 6] 3).Capacity = 5 := by
  have ha : (Vector.ofList [1, 2, 3] 2).Inv := (Vector.ofList_holds [1, 2, 3] 2).inv
  have hb : (Vector.ofList [5, 6] 0).Inv := (Vector.ofList_holds [5, 6] 0).inv
  have h := (C7_copy_assign_copies_elements natCopy (Vector.ofList [1, 2, 3] 2)
    (Vector.ofList [5, 6] 0) ha hb).1 (Vector.ofList [5, 6] 3) rfl
  exact ⟨ha, hb, h.2.1, h.2.2.2.1⟩

/-- C8 fails in the code: the default-constructed array satisfies the invariant, and
`Reserve(2 ^ 61)` on it, for an element type of 8 bytes and a `size_t` of 64 bits, returns
an array with `capacity_ = 2 ^ 61` over a block without a single slot, which does not
satisfy the invariant: the slots `[size_, capacity_)` are not there, and the next
`EmplaceBack` constructs its element outside the block.  The byte count `2 ^ 61 * 8` wraps
to `0`.  The constructor `Vector(2 ^ 61)` gets the same block and constructs its elements
outside it, which is undefined behaviour. -/
theorem C8_reserve_with_wrapped_request_breaks_invariant :
    (Vector.empty : Vector Nat).Inv ∧
    (Vector.empty : Vector Nat).ReserveSized 64 8 natCopy (2 ^ 61)
      = .returned { data_ := { buffer_ := some [], capacity_ := 2 ^ 61 }, size_ := 0 } () ∧
    ¬ (Vector.Inv
        ({ data_ := { buffer_ := some [], capacity_ := 2 ^ 61 }, size_ := 0 } : Vector Nat)) ∧
    Vector.EmplaceBack natCopy
        ({ data_ := { buffer_ := some [], capacity_ := 2 ^ 61 }, size_ := 0 } : Vector Nat)
        (some 1) = .undefined ∧
    Vector.ofSizeSized 64 8 natCopy (2 ^ 61) = .undefined := by
  refine ⟨Vector.empty_holds.inv, rfl, ?_, rfl, rfl⟩
  intro h
  have := h.1
  simp [RawMemory.cells] at this

/-- C9: on an array that satisfies the invariant, with elements `xs`, count `n` and
capacity `c`, a successful `Resize(m)`, the byte count of its allocation taken in `size_t`
arithmetic of `w` bits, yields count `m`; when `m < n` the elements are `xs.take m` and the
capacity stays `c`; when `m ≥ n` the elements are `xs` followed by `m - n`
value-initialized elements and the capacity is `max c m`; the array satisfies the
invariant.  `Resize(m)` returns whenever `m ≤ n` (in particular `Resize(0)`), and whenever
nothing throws and `m` is within the capacity or `m * sizeof(T)` does not wrap.  A
`Resize(m)` beyond the capacity whose byte count wraps does not return. -/
theorem C9_resize_sets_count (w sizeofT : Nat) (E : Traits α) (v : Vector α) (m : Nat)
    (hinv : v.Inv) :
    (∀ r, v.ResizeSized w sizeofT E m = .returned r () →
      r.size_ = m ∧
      (m < v.size_ → r.elems = v.elems.take m ∧ r.Capacity = v.Capacity) ∧
      (v.size_ ≤ m → r.Capacity = max v.Capacity m ∧
        r.elems.map some = v.elems.map some ++ List.replicate (m - v.size_) E.valueInit ∧
        ∀ d, E.valueInit = some d → r.elems = v.elems ++ List.replicate (m - v.size_) d) ∧
      r.Inv) ∧
    ((m ≤ v.size_ ∨
        (E.NoThrow ∧ (m ≤ v.Capacity ∨ (1 ≤ sizeofT ∧ m * sizeofT < 2 ^ w)))) →
      ∃ r, v.ResizeSized w sizeofT E m = .returned r ()) ∧
    (v.Capacity < m → RawMemory.requestedSlots w sizeofT m < m →
      ∀ r, v.ResizeSized w sizeofT E m ≠ .returned r ()) := by
  have hsc : v.size_ ≤ v.data_.Capacity := hinv.2.1
  obtain ⟨h1, h2⟩ := Vector.Resize_spec E v m hinv
  refine ⟨?_, ?_, ?_⟩
  · intro r hr
    by_cases hq : m < v.size_ ∨ m ≤ v.data_.Capacity ∨
        RawMemory.requestedSlots w sizeofT m = m
    · rw [Vector.ResizeSized_eq w sizeofT E v m hq] at hr
      exact h1 r hr
    · have hle := RawMemory.requestedSlots_le w sizeofT m
      exact absurd hr (Vector.ResizeSized_wrapped w sizeofT E v m hsc (by omega) (by omega) r)
  · intro hc
    have hq : m < v.size_ ∨ m ≤ v.data_.Capacity ∨
        RawMemory.requestedSlots w sizeofT m = m := by
      rcases hc with hc | ⟨_, hc | ⟨hs, hfit⟩⟩
      · exact Or.inr (Or.inl (by omega))
      · exact Or.inr (Or.inl hc)
      · exact Or.inr (Or.inr (RawMemory.requestedSlots_fits w sizeofT m hs hfit))
    rw [Vector.ResizeSized_eq w sizeofT E v m hq]
    exact h2 (hc.imp id And.left)
  · intro hm hwrap r
    exact Vector.ResizeSized_wrapped w sizeofT E v m hsc hm hwrap r

/-- C9, at concrete arrays of 8-byte elements with a `size_t` of 64 bits: `Resize(0)` and
`Resize(5)` on `[1, 2, 3]` of capacity 4 return, `Resize(2 ^ 61)` does not. -/
theorem C9_resize_sets_count_witness :
    (Vector.ofList [1, 2, 3] 1).Inv ∧
      (Vector.ofList [1, 2, 3] 1).ResizeSized 64 8 natCopy 5
        = .returned (Vector.ofList [1, 2, 3, 0, 0] 0) () ∧
      (Vector.ofList [1, 2, 3, 0, 0] 0).elems = [1, 2, 3] ++ List.replicate (5 - 3) 0 ∧
      (Vector.ofList [1, 2, 3, 0, 0] 0).Capacity = 5 ∧
      (Vector.ofList ([] : List Nat) 4).size_ = 0 ∧
      (Vector.ofList ([] : List Nat) 4).Capacity = 4 ∧
      (Vector.ofList [1, 2, 3] 1).ResizeSized 64 8 natCopy (2 ^ 61) = .undefined := by
  have hinv : (Vector.ofList [1, 2, 3] 1).Inv := (Vector.ofList_holds [1, 2, 3] 1).inv
  have h5 := (C9_resize_sets_count 64 8 natCopy (Vector.ofList [1, 2, 3] 1) 5 hinv).1
    (Vector.ofList [1, 2, 3, 0, 0] 0) rfl
  have h0 := (C9_resize_sets_count 64 8 natCopy (Vector.ofList [1, 2, 3] 1) 0 hinv).1
    (Vector.ofList [] 4) rfl
  exact ⟨hinv, rfl, (h5.2.2.1 (by decide)).2.2 0 rfl, (h5.2.2.1 (by decide)).1, h0.1,
    (h0.2.1 (by decide)).2, rfl⟩

/-- C11: on an array that satisfies the invariant, a successful append (`EmplaceBack`, or
`PushBack`) leaves the capacity unchanged when count < capacity and sets it to exactly
`max 1 (2 * capacity)` when count = capacity, so every change of capacity at least
doubles it; after `N ≥ 1` successful appends to a default-constructed array the capacity
is `2 ^ Nat.clog 2 N`, the least power of two that is at least `N`.  When nothing throws
the appends do return. -/
theorem C11_append_growth_policy (E : Traits α) :
    (∀ (v : Vector α) (args : Option α) (w : Vector α) (r : Nat),
      v.Inv → v.EmplaceBack E args = .returned w r →
        (v.size_ < v.Capacity → w.Capacity = v.Capacity) ∧
        (v.size_ = v.Capacity → w.Capacity = max 1 (2 * v.Capacity)) ∧
        (w.Capacity ≠ v.Capacity → 2 * v.Capacity ≤ w.Capacity)) ∧
    (∀ (v : Vector α) (x : α) (w : Vector α),
      v.Inv → v.PushBack E x = .returned w () →
        (v.size_ < v.Capacity → w.Capacity = v.Capacity) ∧
        (v.size_ = v.Capacity → w.Capacity = max 1 (2 * v.Capacity)) ∧
        (w.Capacity ≠ v.Capacity → 2 * v.Capacity ≤ w.Capacity)) ∧
    (∀ (values : List α) (w : Vector α) (rs : List Nat), values ≠ [] →
      (Vector.empty : Vector α).EmplaceBackAll E values = .returned w rs →
        w.Capacity = 2 ^ Nat.clog 2 values.length ∧ values.length ≤ w.Capacity ∧
        ∀ e, values.length ≤ 2 ^ e → w.Capacity ≤ 2 ^ e) ∧
    (∀ (values : List α) (w : Vector α), values ≠ [] →
      (Vector.empty : Vector α).PushBackAll E values = .returned w () →
        w.Capacity = 2 ^ Nat.clog 2 values.length ∧ values.length ≤ w.Capacity ∧
        ∀ e, values.length ≤ 2 ^ e → w.Capacity ≤ 2 ^ e) ∧
    (E.NoThrow → ∀ values : List α, ∃ w rs,
      (Vector.empty : Vector α).EmplaceBackAll E values = .returned w rs ∧
      (Vector.empty : Vector α).PushBackAll E values = .returned w ()) := by
  have step : ∀ (v : Vector α) (args : Option α) (w : Vector α) (r : Nat),
      v.Inv → v.EmplaceBack E args = .returned w r →
        (v.size_ < v.Capacity → w.Capacity = v.Capacity) ∧
        (v.size_ = v.Capacity → w.Capacity = max 1 (2 * v.Capacity)) ∧
        (w.Capacity ≠ v.Capacity → 2 * v.Capacity ≤ w.Capacity) := by
    intro v args w r hinv hr
    obtain ⟨_, x, rfl⟩ := Vector.EmplaceBack_result E v args w r hr
    have hh := hinv.holds
    have hcap := Vector.EmplaceBack_capacity E v _ _ x hh w r hr
    have hsz := hh.2.1
    have hc := hh.2.2
    simp only [Vector.Capacity, RawMemory.Capacity]
    rw [hcap]
    by_cases hk : v.data_.capacity_ - v.size_ = 0
    · rw [if_pos hk]
      by_cases hn : v.elems.length = 0
      · rw [if_pos hn]
        exact ⟨fun _ => by omega, fun _ => by omega, fun _ => by omega⟩
      · rw [if_neg hn]
        exact ⟨fun _ => by omega, fun _ => by omega, fun _ => by omega⟩
    · rw [if_neg hk]
      exact ⟨fun _ => by omega, fun _ => by omega, fun _ => by omega⟩
  have run : ∀ (values : List α) (w : Vector α) (rs : List Nat), values ≠ [] →
      (Vector.empty : Vector α).EmplaceBackAll E values = .returned w rs →
        w.Capacity = 2 ^ Nat.clog 2 values.length ∧ values.length ≤ w.Capacity ∧
        ∀ e, values.length ≤ 2 ^ e → w.Capacity ≤ 2 ^ e := by
    intro values w rs hne hr
    have hg := Vector.EmplaceBackAll_capacity E values Vector.empty [] 0 w rs
      Vector.empty_holds (Or.inl ⟨rfl, rfl⟩) hr
    simp only [List.length_nil, Nat.zero_add] at hg
    exact GrowthCapacity.least _ _ (by simpa using hne) hg
  refine ⟨step, ?_, run, ?_, ?_⟩
  · intro v x w hinv hr
    obtain ⟨_, r, hr1⟩ := (Vector.PushBack_returned E v w x).mp hr
    exact step v (some x) w r hinv hr1
  · intro values w hne hr
    obtain ⟨rs, hrs⟩ := Vector.PushBackAll_returned E values Vector.empty w hr
    exact run values w rs hne hrs
  · intro hE values
    obtain ⟨w, h1, h2⟩ :=
      Vector.EmplaceBackAll_nothrow E hE values Vector.empty [] 0 Vector.empty_holds
    exact ⟨w, _, h1, h2⟩

/-- C11, at a concrete run: five appends to an empty array end with capacity 8. -/
theorem C11_append_growth_policy_witness :
    [1, 2, 3, 4, 5] ≠ ([] : List Nat) ∧ (Vector.ofList [1, 2, 3, 4, 5] 3).Capacity = 8 ∧
      8 = 2 ^ Nat.clog 2 5 := by
  have h := (C11_append_growth_policy natCopy).2.2.1 [1, 2, 3, 4, 5]
    (Vector.ofList [1, 2, 3, 4, 5] 3) [0, 1, 2, 3, 4] (by decide) rfl
  exact ⟨by decide, rfl, h.1⟩

/-- C12: for every array and every value `x`, `Emplace` of `x` at position = count is the
same call as `EmplaceBack` of `x`: the same outcome, hence on return the same resulting
array (elements, count and capacity) and the same designated slot, the index `count`, on
the growth path and on the in-capacity path alike.  `Insert` at position = count returns
exactly when `PushBack` returns, with the same resulting array. -/
theorem C12_insert_at_count_is_append (E : Traits α) (v : Vector α) (x : α) :
    v.Emplace E v.size_ (some x) = v.EmplaceBack E (some x) ∧
    (∀ w r, v.EmplaceBack E (some x) = .returned w r → r = v.size_) ∧
    (∀ w r, v.Insert E v.size_ x = .returned w r ↔
      (v.PushBack E x = .returned w () ∧ r = v.size_)) ∧
    (∀ w r, v.InsertMove E v.size_ x = .returned w r ↔
      (v.PushBackMove E x = .returned w () ∧ r = v.size_)) := by
  have hres : ∀ w r, v.EmplaceBack E (some x) = .returned w r → r = v.size_ :=
    fun w r h => (Vector.EmplaceBack_result E v _ w r h).1
  have key : ∀ (args : Option α) (w : Vector α) (r : Nat),
      v.Emplace E v.size_ args = .returned w r ↔
        ((match v.EmplaceBack E args with
          | .returned s _ => Outcome.returned s ()
          | .thrown s => .thrown s
          | .undefined => .undefined) = (Outcome.returned w () : Outcome (Vector α) Unit) ∧
          r = v.size_) := by
    intro args w r
    cases args with
    | none =>
      constructor
      · intro h
        exact absurd h (Vector.Emplace_none_not_returned E v _ w r)
      · rintro ⟨h, _⟩
        have hn := Vector.EmplaceBack_none_not_returned E v
        generalize v.EmplaceBack E none = o at h hn
        cases o with
        | returned s r1 => exact absurd rfl (hn s r1)
        | thrown s => cases h
        | undefined => cases h
    | some y =>
      rw [Vector.Emplace_at_end_eq]
      have hy : ∀ w r, v.EmplaceBack E (some y) = .returned w r → r = v.size_ :=
        fun w r h => (Vector.EmplaceBack_result E v _ w r h).1
      generalize v.EmplaceBack E (some y) = o at hy
      cases o with
      | returned s r1 =>
        have := hy s r1 rfl
        subst this
        simp only [Outcome.returned.injEq, and_true]
        exact ⟨fun h => ⟨h.1, h.2.symm⟩, fun h => ⟨h.1, h.2.symm⟩⟩
      | thrown s => simp
      | undefined => simp
  refine ⟨Vector.Emplace_at_end_eq E v x, hres, ?_, ?_⟩
  · intro w r
    exact key (E.copyCtor x) w r
  · intro w r
    exact key (E.moveCtor x) w r

/-- C12, at a concrete array: `EmplaceBack(7)` on `[1, 2, 3]` with count = capacity
returns the reference to position 3. -/
theorem C12_insert_at_count_is_append_witness :
    (Vector.ofList [1, 2, 3] 0).Emplace natCopy 3 (some 7)
        = .returned (Vector.ofList [1, 2, 3, 7] 2) 3 ∧
      3 = (Vector.ofList [1, 2, 3] 0).size_ := by
  have h := C12_insert_at_count_is_append natCopy (Vector.ofList [1, 2, 3] 0) 7
  exact ⟨rfl, h.2.1 (Vector.ofList [1, 2, 3, 7] 2) 3 rfl⟩

/-- C13: move-constructing an array from `s` gives a destination that is `s` as it was:
the same buffer, with the elements of `s` in order, its count and its capacity; the
source is left a valid empty array with null buffer, count 0 and capacity 0.  With the
buffers held by address the destination holds the very address the source held, and the
constructor neither touches the store nor uses any operation of the element type. -/
theorem C13_move_construct_takes_buffer (s : Vector α) (p : Stored.Vector) :
    (Vector.moveCtor s).1 = s ∧ (Vector.moveCtor s).1.data_ = s.data_ ∧
    (Vector.moveCtor s).1.elems = s.elems ∧ (Vector.moveCtor s).1.size_ = s.size_ ∧
    (Vector.moveCtor s).1.Capacity = s.Capacity ∧
    (Vector.moveCtor s).2.data_.buffer_ = none ∧ (Vector.moveCtor s).2.size_ = 0 ∧
    (Vector.moveCtor s).2.Capacity = 0 ∧ (Vector.moveCtor s).2.elems = [] ∧
    (Vector.moveCtor s).2.Inv ∧
    (Stored.Vector.moveCtor p).1 = p ∧
    (Stored.Vector.moveCtor p).1.data_.buffer_ = p.data_.buffer_ ∧
    (Stored.Vector.moveCtor p).2 = {} :=
  ⟨rfl, rfl, rfl, rfl, rfl, rfl, rfl, rfl, rfl, Vector.empty_holds.inv, rfl, rfl, rfl⟩

/-- C14: for a source array `s` that satisfies the invariant, a successful copy
construction yields an array with the count of `s`, capacity exactly that count (not
the capacity of `s`) and the elements of `s` in order; it returns whenever the
allocation and the copies of the elements do not throw.  With the buffers held by
address, the copy owns a block of its own, distinct from the block of `s`, and the
source is unchanged.  A later write through the buffer of either array, the release of
its block, or a new allocation leaves the other array as it is; so does a later mutating
call (`PushBack`, `Insert`, `Erase`, `Resize`, `v[i] = x`, the members on the store) on either
array, whether it works in place or moves the array to a new block, and it does to its
own array what the call does (`Resize` with the byte count of its allocation in `size_t`
arithmetic); and after any sequence of such calls on the two arrays, in any interleaving,
each array is what its own calls alone make of it: count, capacity and elements.  A
mutating call returns on the stored array whenever it returns on the array it denotes. -/
theorem C14_copy_construct_is_independent (ws sizeofT : Nat) (E : Traits α) (s : Vector α)
    (hinv : s.Inv) :
    (∀ w, Vector.copyCtor E s = .returned () w →
      w.size_ = s.size_ ∧ w.Capacity = s.size_ ∧ w.elems = s.elems ∧
        (∀ i, w.get i = s.get i) ∧ w.Inv) ∧
    ((s.size_ ≠ 0 → E.badAlloc s.size_ = false) → (∀ y ∈ s.elems, E.copyThrows y = false) →
      ∃ w, Vector.copyCtor E s = .returned () w) ∧
    (∀ (h : Store α) (p : Stored.Vector) (h1 : Store α) (c : Stored.Vector),
      p.view h = s → p.Valid h → Stored.Vector.copyCtor E h p = .returned h1 c →
        Vector.copyCtor E s = .returned () (c.view h1) ∧ p.view h1 = s ∧
        (∀ a, c.data_.buffer_ = some a → p.data_.buffer_ ≠ some a) ∧
        (∀ m, p.view (h1.write c.data_.buffer_ m) = s ∧
          c.view (h1.write p.data_.buffer_ m) = c.view h1) ∧
        p.view (h1.delete c.data_.buffer_) = s ∧
        c.view (h1.delete p.data_.buffer_) = c.view h1 ∧
        (∀ n, p.view (h1.new n).1 = s ∧ c.view (h1.new n).1 = c.view h1) ∧
        (∀ (mu : Mutation α) (h2 : Store α) (c2 : Stored.Vector),
          c.mutate ws sizeofT E h1 mu = some (h2, c2) →
            (c.view h1).mutate ws sizeofT E mu = .returned (c2.view h2) () ∧ p.view h2 = s) ∧
        (∀ (mu : Mutation α) (h2 : Store α) (p2 : Stored.Vector),
          p.mutate ws sizeofT E h1 mu = some (h2, p2) →
            s.mutate ws sizeofT E mu = .returned (p2.view h2) () ∧ c.view h2 = c.view h1) ∧
        (∀ (script : List (Bool × Mutation α)) (h2 : Store α) (p2 c2 : Stored.Vector),
          Stored.mutateBoth ws sizeofT E h1 p c script = some (h2, p2, c2) →
            Vector.mutateAll ws sizeofT E s (Mutation.callsOn true script) = some (p2.view h2) ∧
            Vector.mutateAll ws sizeofT E (c.view h1) (Mutation.callsOn false script)
              = some (c2.view h2)) ∧
        (∀ (mu : Mutation α) (w : Vector α),
          ((c.view h1).mutate ws sizeofT E mu = .returned w () →
            ∃ r, c.mutate ws sizeofT E h1 mu = some r) ∧
          (s.mutate ws sizeofT E mu = .returned w () →
            ∃ r, p.mutate ws sizeofT E h1 mu = some r))) := by
  have hh := hinv.holds
  have hsz := hh.2.1
  refine ⟨?_, ?_, ?_⟩
  · intro w hr
    obtain ⟨_, _, hw⟩ := (Vector.copyCtor_returned E s _ _ hh w).mp hr
    have hwh : w.Holds s.elems 0 := by
      rw [hw]; exact Vector.copyCtor_holds _
    refine ⟨by rw [hwh.2.1, hsz], ?_, hwh.elems_eq, fun i => by rw [hwh.get, hh.get], hwh.inv⟩
    simp only [Vector.Capacity, RawMemory.Capacity, hwh.2.2, hsz, Nat.add_zero]
  · intro hb hc
    exact ⟨_, (Vector.copyCtor_returned E s _ _ hh _).mpr ⟨by rw [← hsz]; exact hb, hc, rfl⟩⟩
  · intro h p h1 c hps hv hr
    obtain ⟨hsim, hview, hpv, hcv, hdist⟩ :=
      Stored.Vector.copyCtor_simulates E h p h1 c hv hr
    rw [hps] at hsim hview
    have hdist2 : ∀ a, p.data_.buffer_ = some a → c.data_.buffer_ ≠ some a :=
      fun a hpa hca => hdist a hca hpa
    refine ⟨hsim, hview, hdist, ?_, ?_, ?_, ?_, ?_, ?_, ?_, ?_⟩
    · intro m
      exact ⟨by rw [Stored.Vector.view_write_other h1 p _ m hdist, hview],
        Stored.Vector.view_write_other h1 c _ m hdist2⟩
    · rw [Stored.Vector.view_delete_other h1 p _ hdist, hview]
    · exact Stored.Vector.view_delete_other h1 c _ hdist2
    · intro n
      exact ⟨by rw [Stored.Vector.view_new h1 p n hpv, hview],
        Stored.Vector.view_new h1 c n hcv⟩
    · intro mu h2 c2 hm
      obtain ⟨hstep, hother, _, _, _⟩ :=
        Stored.Vector.mutate_frame ws sizeofT E h1 c p mu h2 c2 hcv hpv hdist hm
      exact ⟨hstep, by rw [hother, hview]⟩
    · intro mu h2 p2 hm
      obtain ⟨hstep, hother, _, _, _⟩ :=
        Stored.Vector.mutate_frame ws sizeofT E h1 p c mu h2 p2 hpv hcv hdist2 hm
      rw [hview] at hstep
      exact ⟨hstep, hother⟩
    · intro script h2 p2 c2 hrun
      have := Stored.mutateBoth_independent ws sizeofT E script h1 p c h2 p2 c2 hpv hcv hdist2
        hrun
      rw [hview] at this
      exact this
    · intro mu w
      constructor
      · intro hm
        rw [Stored.Vector.mutate_lift ws sizeofT E h1 c mu hcv, hm]
        exact ⟨_, rfl⟩
      · intro hm
        rw [Stored.Vector.mutate_lift ws sizeofT E h1 p mu hpv, hview, hm]
        exact ⟨_, rfl⟩

/-- C14, at a concrete store, with elements of 8 bytes and a `size_t` of 64 bits: the
array `[1, 2]` of capacity 3 at address 0 is copied into a new block of two slots at
address 1.  Then `PushBack(9)` on the copy (which moves
it to a new block), `Erase` at 0 on the source, `copy[0] = 5`, `Resize(4)` on the source
(a new block), `Insert` of 8 at 1 on the copy and `PushBack(6)` on the source (a new block)
leave the source `[2, 0, 0, 0, 6]` with capacity 8 and the copy `[5, 8, 2, 9]` with
capacity 4: what the three calls on each array make of it. -/
theorem C14_copy_construct_is_independent_witness :
    (Vector.ofList [1, 2] 1).Inv ∧
      Stored.Vector.copyCtor natCopy ({ blocks := [some [some 1, some 2, none]] } : Store Nat)
          { data_ := { buffer_ := some 0, capacity_ := 3 }, size_ := 2 }
        = .returned { blocks := [some [some 1, some 2, none], some [some 1, some 2]] }
            { data_ := { buffer_ := some 1, capacity_ := 2 }, size_ := 2 } ∧
      Vector.copyCtor natCopy (Vector.ofList [1, 2] 1) = .returned () (Vector.ofList [1, 2] 0) ∧
      (Vector.ofList [1, 2] 0).Capacity = 2 ∧
      Stored.mutateBoth 64 8 natCopy
          ({ blocks := [some [some 1, some 2, none], some [some 1, some 2]] } : Store Nat)
          { data_ := { buffer_ := some 0, capacity_ := 3 }, size_ := 2 }
          { data_ := { buffer_ := some 1, capacity_ := 2 }, size_ := 2 }
          [(false, .PushBack 9), (true, .Erase 0), (false, .Assign 0 5), (true, .Resize 4),
            (false, .Insert 1 8), (true, .PushBack 6)]
        = some ({ blocks := [none, none, some [some 5, some 8, some 2, some 9], none,
                    some [some 2, some 0, some 0, some 0, some 6, none, none, none]] },
                { data_ := { buffer_ := some 4, capacity_ := 8 }, size_ := 5 },
                { data_ := { buffer_ := some 2, capacity_ := 4 }, size_ := 4 }) ∧
      Vector.mutateAll 64 8 natCopy (Vector.ofList [1, 2] 1) [.Erase 0, .Resize 4, .PushBack 6]
        = some (Vector.ofList [2, 0, 0, 0, 6] 3) ∧
      Vector.mutateAll 64 8 natCopy (Vector.ofList [1, 2] 0) [.PushBack 9, .Assign 0 5, .Insert 1 8]
        = some (Vector.ofList [5, 8, 2, 9] 0) := by
  have hinv : (Vector.ofList [1, 2] 1).Inv := (Vector.ofList_holds [1, 2] 1).inv
  have h := C14_copy_construct_is_independent 64 8 natCopy (Vector.ofList [1, 2] 1) hinv
  have h3 := h.2.2 ({ blocks := [some [some 1, some 2, none]] } : Store Nat)
    { data_ := { buffer_ := some 0, capacity_ := 3 }, size_ := 2 }
    { blocks := [some [some 1, some 2, none], some [some 1, some 2]] }
    { data_ := { buffer_ := some 1, capacity_ := 2 }, size_ := 2 } rfl
    (by
      intro a ha
      simp only [Option.some.injEq] at ha
      subst ha
      exact ⟨[some 1, some 2, none], rfl⟩)
    rfl
  have h4 := h3.2.2.2.2.2.2.2.2.2.1
    [(false, .PushBack 9), (true, .Erase 0), (false, .Assign 0 5), (true, .Resize 4),
      (false, .Insert 1 8), (true, .PushBack 6)]
    { blocks := [none, none, some [some 5, some 8, some 2, some 9], none,
        some [some 2, some 0, some 0, some 0, some 6, none, none, none]] }
    { data_ := { buffer_ := some 4, capacity_ := 8 }, size_ := 5 }
    { data_ := { buffer_ := some 2, capacity_ := 4 }, size_ := 4 } rfl
  exact ⟨hinv, rfl, h3.1, (h.1 _ h3.1).2.1, rfl, h4.1, h4.2⟩

/-- C15: `a.Swap(b)` exchanges the complete states of the two arrays (buffer, capacity,
count, hence elements), also with the buffers held by address, and the underlying
`RawMemory::Swap` exchanges block and capacity; swapping twice returns both arrays to
their original states. -/
theorem C15_swap_exchanges_and_is_involution (a b : Vector α) (p q : Stored.Vector) :
    a.Swap b = (b, a) ∧ (a.Swap b).1.elems = b.elems ∧ (a.Swap b).2.elems = a.elems ∧
    RawMemory.Swap a.data_ b.data_ = (b.data_, a.data_) ∧
    (a.Swap b).1.Swap (a.Swap b).2 = (a, b) ∧
    p.Swap q = (q, p) ∧ (p.Swap q).1.Swap (p.Swap q).2 = (p, q) :=
  ⟨rfl, rfl, rfl, rfl, rfl, rfl, rfl⟩

/-- C16: over `N` successive appends to a default-constructed array that all return, the
number of existing elements that the transfer loops of `EmplaceBack` construct in a new
buffer, counted construction by construction and summed over the calls, is at most
`2 * N`; for `N ≥ 1` it is the final capacity minus one.  The counted run is the run of
the appends: without the count it is `EmplaceBackAll`.  When nothing throws the appends
do return. -/
theorem C16_relocations_linear (E : Traits α) (values : List α) :
    (∀ w rs total,
      (Vector.empty : Vector α).EmplaceBackAllCounted E values = .returned w (rs, total) →
      (Vector.empty : Vector α).EmplaceBackAll E values = .returned w rs ∧
      total ≤ 2 * values.length ∧ (values ≠ [] → total + 1 = w.Capacity)) ∧
    ((Vector.empty : Vector α).EmplaceBackAllCounted E values).mapResult Prod.fst
      = (Vector.empty : Vector α).EmplaceBackAll E values ∧
    (E.NoThrow →
      ∃ w rs total,
        (Vector.empty : Vector α).EmplaceBackAllCounted E values = .returned w (rs, total)) := by
  refine ⟨?_, Vector.EmplaceBackAllCounted_erase E values Vector.empty, ?_⟩
  · intro w rs total hc
    obtain ⟨hr, ht⟩ := Vector.EmplaceBackAllCounted_total E values Vector.empty w rs total hc
    obtain ⟨h1, h2⟩ := Vector.EmplaceBackAll_relocations_empty E values w rs hr
    rw [ht]
    exact ⟨hr, h2, h1⟩
  · intro hE
    obtain ⟨w, h1, _⟩ :=
      Vector.EmplaceBackAll_nothrow E hE values Vector.empty [] 0 Vector.empty_holds
    obtain ⟨total, ht⟩ := Vector.EmplaceBackAllCounted_returns E values Vector.empty w _ h1
    exact ⟨w, _, total, ht⟩

/-- C16, at a concrete run: five appends to an empty array construct `0 + 1 + 2 + 4 = 7`
existing elements in new buffers. -/
theorem C16_relocations_linear_witness :
    (Vector.empty : Vector Nat).EmplaceBackAllCounted natCopy [1, 2, 3, 4, 5]
        = .returned (Vector.ofList [1, 2, 3, 4, 5] 3) ([0, 1, 2, 3, 4], 7) ∧
      7 ≤ 2 * [1, 2, 3, 4, 5].length ∧ 7 + 1 = (Vector.ofList [1, 2, 3, 4, 5] 3).Capacity := by
  have h := (C16_relocations_linear natCopy [1, 2, 3, 4, 5]).1
    (Vector.ofList [1, 2, 3, 4, 5] 3) [0, 1, 2, 3, 4] 7 rfl
  exact ⟨rfl, h.2.1, h.2.2 (by decide)⟩

/-- C17, as stated, fails: on `[1, 2, 3]` with capacity 5, `Emplace` of `7` at position
`1` with a move assignment that throws on `7` propagates the exception with count 3 and
the shift done, but the slot at position `1` is not the one destroyed: it still holds a
live object, and the destroyed slot is the one at index 3. -/
theorem C17_failed_final_assignment_keeps_target_slot :
    ¬ ∃ w, (Vector.ofList [1, 2, 3] 2).Emplace natMoveAssignThrows7 1 (some 7) = .thrown w ∧
      w.data_.cells[1]? = some none := by
  rintro ⟨w, hw, hslot⟩
  have hrun : (Vector.ofList [1, 2, 3] 2).Emplace natMoveAssignThrows7 1 (some 7)
      = .thrown { data_ := { buffer_ := some [some 1, some 0, some 2, none, none],
                             capacity_ := 5 },
                  size_ := 3 } := rfl
  rw [hrun] at hw
  injection hw with hw
  subst hw
  simp [RawMemory.cells] at hslot

/-- C17, amended: on an array that satisfies the invariant with count < capacity, for a
position `p < count`, when the moves of the existing elements succeed and the final move
assignment of the temporary into the slot at `p` throws, `Emplace` propagates the
exception with count and capacity unchanged; the elements before `p` are in place, the
elements formerly at `[p, count - 1)` sit at `[p + 1, count)`, the slot at `p` still
holds a live (moved-from) object, and the slot that has been destroyed is the one at
index `count`, into which the former last element had been moved.  The array left behind
satisfies the invariant and no longer holds the former last element. -/
theorem C17_failed_final_assignment_destroys_end_slot (E : Traits α) (v : Vector α)
    (p : Nat) (x : α) (hinv : v.Inv) (hp : p < v.size_) (hroom : v.size_ < v.Capacity)
    (hmove : ∀ y ∈ v.elems, E.moveThrows y = false ∧ E.moveAssignThrows y = false)
    (hx : E.moveAssignThrows x = true) :
    ∃ w, v.Emplace E p (some x) = .thrown w ∧ w.size_ = v.size_ ∧
      w.Capacity = v.Capacity ∧
      (∀ i, i < p → w.get i = v.get i) ∧
      (∀ i, p ≤ i → i + 1 < v.size_ → w.get (i + 1) = v.get i) ∧
      (w.get p).isSome = true ∧
      w.data_.cells[v.size_]? = some none ∧
      (∃ z, w.elems = v.elems.take p ++ z :: (v.elems.drop p).dropLast) ∧
      w.Inv := by
  have hh := hinv.holds
  have hsz := hh.2.1
  have hc := hh.2.2
  simp only [Vector.Capacity, RawMemory.Capacity] at hroom
  obtain ⟨D, l, hxs, hT, hDl⟩ := split_last v.elems p (by omega)
  have hk : v.data_.capacity_ - v.size_ = (v.data_.capacity_ - v.size_ - 1) + 1 := by omega
  have hdrop : v.elems.drop p = D ++ [l] := by
    have h1 : v.elems.take p ++ v.elems.drop p = v.elems.take p ++ (D ++ [l]) := by
      rw [List.take_append_drop, ← List.append_assoc]; exact hxs
    exact List.append_cancel_left h1
  have hmem : ∀ y, y ∈ D ∨ y = l → y ∈ v.elems := by
    intro y hy
    rw [hxs]
    simp only [List.mem_append, List.mem_singleton]
    rcases hy with hy | hy
    · exact Or.inl (Or.inr hy)
    · exact Or.inr hy
  rw [hk, hxs] at hh
  have hrun := Vector.Emplace_inplace_mid_assign_throws E v (v.elems.take p) D l _ x hh
    (hmove l (hmem l (Or.inr rfl))).1 (fun y hy => (hmove y (hmem y (Or.inl hy))).2) hx
  rw [hT] at hrun
  refine ⟨_, hrun, ?_⟩
  generalize hz : (D.head?).elim (E.movedFrom l) E.movedFrom = z
  have hw : Vector.Holds
      ({ data_ := v.data_.store ((v.elems.take p ++ z :: D).map some ++
           List.replicate (v.data_.capacity_ - v.size_ - 1 + 1) none),
         size_ := p + D.length + 1 } : Vector α)
      (v.elems.take p ++ z :: D) (v.data_.capacity_ - v.size_ - 1 + 1) := by
    refine ⟨?_, by simp only [List.length_append, List.length_cons, hT]; omega, ?_⟩
    · rw [cells_store _ _ (by
        rw [hh.1]
        simp only [List.length_append, List.length_map, List.length_cons,
          List.length_replicate, List.length_singleton, List.length_nil]
        omega)]
    · simp only [capacity_store, List.length_append, List.length_cons, hT]
      omega
  have hv : v.Holds (v.elems.take p ++ D ++ [l]) (v.data_.capacity_ - v.size_ - 1 + 1) := hh
  refine ⟨show p + D.length + 1 = v.size_ by omega, ?_, ?_, ?_, ?_, ?_, ⟨z, ?_⟩, hw.inv⟩
  · simp only [Vector.Capacity, RawMemory.Capacity, capacity_store]
  · intro i hi
    rw [hw.get, hv.get]
    exact (shifted_get _ D z l i).1 (by rw [hT]; exact hi)
  · intro i h1 h2
    rw [hw.get, hv.get]
    exact (shifted_get _ D z l i).2 (by rw [hT]; exact h1) (by rw [hT]; omega)
  · rw [hw.get, getElem?_mid _ _ _ _ hT.symm]
    rfl
  · rw [hw.1]
    have e : (v.elems.take p ++ z :: D).map some ++
          List.replicate (v.data_.capacity_ - v.size_ - 1 + 1) none
        = (v.elems.take p ++ z :: D).map some ++
          none :: List.replicate (v.data_.capacity_ - v.size_ - 1) none := by
      rw [List.replicate_succ]
    rw [e]
    exact getElem?_mid _ _ _ _ (by simp [hT]; omega)
  · rw [hw.elems_eq, hdrop, List.dropLast_concat]

/-- C17, amended, at a concrete array: `[1, 2, 3]` with capacity 5, `Emplace` of `7` at
position `1`, the move assignment throwing on `7`. -/
theorem C17_failed_final_assignment_destroys_end_slot_witness :
    (Vector.ofList [1, 2, 3] 2).Inv ∧
      ∃ w, (Vector.ofList [1, 2, 3] 2).Emplace natMoveAssignThrows7 1 (some 7) = .thrown w ∧
        w.size_ = 3 ∧ w.data_.cells[3]? = some none := by
  have hinv : (Vector.ofList [1, 2, 3] 2).Inv := (Vector.ofList_holds [1, 2, 3] 2).inv
  obtain ⟨w, h1, h2, _, _, _, _, h3, _⟩ :=
    C17_failed_final_assignment_destroys_end_slot natMoveAssignThrows7
      (Vector.ofList [1, 2, 3] 2) 1 7 hinv (by decide) (by decide)
      (by
        intro y hy
        have hy1 : y = 1 ∨ y = 2 ∨ y = 3 := by
          simpa [Vector.elems, Vector.ofList, RawMemory.cells] using hy
        rcases hy1 with rfl | rfl | rfl <;> exact ⟨rfl, rfl⟩)
      rfl
  exact ⟨hinv, w, h1, h2, h3⟩

/-- C18: with a 64-bit `size_t` and `sizeof(T) = 8`, `RawMemory(2 ^ 61)` passes the
wrapped product `2 ^ 61 * 8 mod 2 ^ 64 = 0` to `operator new`, not `2 ^ 64` bytes: the
buffer reports capacity `2 ^ 61` while the storage asked for has room for no slot.
Capacity 0 requests nothing and yields the null buffer. -/
theorem C18_allocation_request_wraps :
    2 ^ 61 < 2 ^ 64 ∧
    RawMemory.AllocateRequest 64 8 (2 ^ 61) = some 0 ∧
    RawMemory.AllocateRequest 64 8 (2 ^ 61) ≠ some (2 ^ 61 * 8) ∧
    RawMemory.requestedSlots 64 8 (2 ^ 61) = 0 ∧
    RawMemory.AllocateRequest 64 8 0 = none ∧
    RawMemory.ofCapacity natCopy 0 = some { buffer_ := none, capacity_ := 0 } := by
  refine ⟨by norm_num, ?_, ?_, ?_, rfl, rfl⟩
  · simp [RawMemory.AllocateRequest]
  · simp [RawMemory.AllocateRequest]
  · simp [RawMemory.requestedSlots, RawMemory.AllocateRequest]

/-- C19: on `[1, 2]` with capacity 3 the end slot at index 2 is uninitialized.  When the
construction of the new element throws in `Insert`/`Emplace` at position = count, the
handler runs `std::destroy_at(end())` on that slot, which holds no live object: the call
ends in undefined behaviour, where the claim has the array unchanged and no such
destroy.  `EmplaceBack`, the sibling path, has no such handler and leaves the array as
it was. -/
theorem C19_failed_end_construction_destroys_uninitialized_slot :
    (Vector.ofList [1, 2] 1).Inv ∧
    (Vector.ofList [1, 2] 1).data_.cells[2]? = some none ∧
    destroyAt (Vector.ofList [1, 2] 1).data_.cells 2 = none ∧
    natCopyThrows3.copyCtor 3 = none ∧
    (Vector.ofList [1, 2] 1).Insert natCopyThrows3 2 3 = .undefined ∧
    (Vector.ofList [1, 2] 1).Emplace natCopy 2 none = .undefined ∧
    (Vector.ofList [1, 2] 1).EmplaceBack natCopy none = .thrown (Vector.ofList [1, 2] 1) :=
  ⟨(Vector.ofList_holds [1, 2] 1).inv, rfl, rfl, rfl, rfl, rfl, rfl⟩

/-- C20: two buffers acquired from an empty store, `d` of capacity 3 at address 0 and `s`
of capacity 2 at address 1.  After `d = std::move(s)` the destination holds address 1
with capacity 2 and the source is null with capacity 0, but the store was not touched:
once both buffers are destroyed, the block at address 1 has been released and the block
at address 0, which `d` owned before the assignment, is still allocated and owned by
neither buffer. -/
theorem C20_move_assign_drops_owned_block :
    Stored.RawMemory.ofCapacity natCopy ({} : Store Nat) 3
      = some ({ blocks := [some [none, none, none]] }, { buffer_ := some 0, capacity_ := 3 }) ∧
    Stored.RawMemory.ofCapacity natCopy ({ blocks := [some [none, none, none]] } : Store Nat) 2
      = some ({ blocks := [some [none, none, none], some [none, none]] },
              { buffer_ := some 1, capacity_ := 2 }) ∧
    Stored.RawMemory.moveAssign { buffer_ := some 0, capacity_ := 3 }
        { buffer_ := some 1, capacity_ := 2 }
      = ({ buffer_ := some 1, capacity_ := 2 }, { buffer_ := none, capacity_ := 0 }) ∧
    Stored.RawMemory.dtor
        (Stored.RawMemory.dtor
          ({ blocks := [some [none, none, none], some [none, none]] } : Store Nat)
          { buffer_ := some 1, capacity_ := 2 })
        { buffer_ := none, capacity_ := 0 }
      = { blocks := [some [none, none, none], none] } ∧
    Store.Allocated ({ blocks := [some [none, none, none], none] } : Store Nat) 0 :=
  ⟨rfl, rfl, rfl, rfl, ⟨[none, none, none], rfl⟩⟩

end AdvancedVector
